import Mathlib

/-!
Verification of the opensaft core pipeline: a shallow embedding of the
graph model, the graph-to-program compiler, the decompiler, the stack-machine
interpreter, the truncated grid sampler and the sphere tracer, with theorems
about the documented properties of each.

Modelling conventions:
* f32 values are modelled as rationals; transcendental helpers of the host
  language (sin, cos, vector length) and the analytic SDF primitives are
  taken as explicit function parameters, since none of the verified
  properties depend on their values.
* Rust panics and out-of-fuel recursion are explicit outcomes.
* Vectors of nodes keyed by id model the HashMap of the source: insertion
  prepends and lookup takes the first match, which matches map semantics.
-/

/-- 3-vector of rationals, modelling glam Vec3. -/
structure Vec3 where
  x : ℚ
  y : ℚ
  z : ℚ
deriving DecidableEq, Repr

/-- 4-vector of rationals, modelling glam Vec4. -/
structure Vec4 where
  x : ℚ
  y : ℚ
  z : ℚ
  w : ℚ
deriving DecidableEq, Repr

/-- Quaternion, modelling glam Quat (x, y, z, w layout). -/
structure Quat where
  x : ℚ
  y : ℚ
  z : ℚ
  w : ℚ
deriving DecidableEq, Repr

def Vec3.add (a b : Vec3) : Vec3 := ⟨a.x + b.x, a.y + b.y, a.z + b.z⟩

def Vec3.neg (a : Vec3) : Vec3 := ⟨-a.x, -a.y, -a.z⟩

def Vec3.sub (a b : Vec3) : Vec3 := ⟨a.x - b.x, a.y - b.y, a.z - b.z⟩

/-- Componentwise scaling by a scalar, modelling `v * s` on glam vectors. -/
def Vec3.smul (a : Vec3) (s : ℚ) : Vec3 := ⟨a.x * s, a.y * s, a.z * s⟩

instance : Add Vec3 := ⟨Vec3.add⟩

instance : Neg Vec3 := ⟨Vec3.neg⟩

/-- Quaternion conjugate: negates the vector part, as glam conjugate does. -/
def Quat.conjugate (q : Quat) : Quat := ⟨-q.x, -q.y, -q.z, q.w⟩

/-- The constants a Vec3 contributes to a constant pool, in x, y, z order. -/
def Vec3.toConsts (v : Vec3) : List ℚ := [v.x, v.y, v.z]

/-- The constants a Vec4 contributes to a constant pool. -/
def Vec4.toConsts (v : Vec4) : List ℚ := [v.x, v.y, v.z, v.w]

/-- The constants a quaternion contributes to a constant pool (x, y, z, w). -/
def Quat.toConsts (q : Quat) : List ℚ := [q.x, q.y, q.z, q.w]

/-- Material of a node: an rgb triple, from saft-sdf structs.rs. -/
structure Material where
  rgb : Vec3
deriving DecidableEq, Repr

/-- The opcode enumeration of opensaft-sdf opcodes.rs.  The source name End
is a Lean keyword, hence endOp. -/
inductive Opcode where
  | plane
  | sphere
  | capsule
  | taperedCapsule
  | material
  | union
  | unionSmooth
  | subtract
  | subtractSmooth
  | intersect
  | intersectSmooth
  | pushTranslation
  | pushRotation
  | popTransform
  | pushScale
  | popScale
  | endOp
  | roundedBox
  | biconvexLens
  | roundedCylinder
  | torus
  | torusSector
  | cone
deriving DecidableEq, Repr

mutual
/-- Graph node variants, from graph.rs.  Child references are node ids.
The two-element point arrays of the source are spelled as two fields. -/
inductive Node where
  | plane (p : Vec4)
  | sphere (center : Vec3) (radius : ℚ)
  | capsule (p0 p1 : Vec3) (radius : ℚ)
  | roundedCylinder (cylinderRadius halfHeight roundingRadius : ℚ)
  | taperedCapsule (p0 p1 : Vec3) (r0 r1 : ℚ)
  | cone (radius height : ℚ)
  | roundedBox (halfSize : Vec3) (roundingRadius : ℚ)
  | torus (bigR smallR : ℚ)
  | torusSector (bigR smallR sinHalfAngle cosHalfAngle : ℚ)
  | biconvexLens (lowerSagitta upperSagitta chord : ℚ)
  | material (child : Nat) (m : Material)
  | union (lhs rhs : Nat)
  | unionMulti (children : List Nat)
  | unionSmooth (lhs rhs : Nat) (size : ℚ)
  | unionMultiSmooth (children : List Nat) (size : ℚ)
  | subtract (lhs rhs : Nat)
  | subtractSmooth (lhs rhs : Nat) (size : ℚ)
  | intersect (lhs rhs : Nat)
  | intersectSmooth (lhs rhs : Nat) (size : ℚ)
  | translate (translation : Vec3) (child : Nat)
  | rotate (rotation : Quat) (child : Nat)
  | scale (scale : ℚ) (child : Nat)
  | graphNode (root : Nat) (sub : Graph)

/-- A graph: id allocator plus nodes keyed by id, from graph.rs. -/
inductive Graph where
  | mk (idAlloc : Nat) (nodes : List (Nat × Node))
end

def Graph.idAlloc : Graph → Nat
  | .mk a _ => a

def Graph.nodes : Graph → List (Nat × Node)
  | .mk _ ns => ns

/-- First-match association lookup, modelling HashMap get with
prepend-on-insert. -/
def assocFind : List (Nat × Node) → Nat → Option Node
  | [], _ => none
  | (k, n) :: rest, id => if k = id then some n else assocFind rest id

/-- Graph get, from graph.rs. -/
def Graph.find (g : Graph) (id : Nat) : Option Node := assocFind g.nodes id

/-- The default (empty) graph. -/
def Graph.empty : Graph := .mk 0 []

/-- create_node: allocate the next id and insert the node there. -/
def Graph.createNode (g : Graph) (n : Node) : Graph × Nat :=
  (.mk (g.idAlloc + 1) ((g.idAlloc, n) :: g.nodes), g.idAlloc)

def Graph.plane (g : Graph) (p : Vec4) : Graph × Nat := g.createNode (.plane p)

def Graph.sphere (g : Graph) (center : Vec3) (radius : ℚ) : Graph × Nat :=
  g.createNode (.sphere center radius)

def Graph.roundedBox (g : Graph) (halfSize : Vec3) (roundingRadius : ℚ) : Graph × Nat :=
  g.createNode (.roundedBox halfSize roundingRadius)

def Graph.torus (g : Graph) (bigR smallR : ℚ) : Graph × Nat :=
  g.createNode (.torus bigR smallR)

/-- torus_sector stores the sine and cosine of the half angle; the host
sin_cos is passed in as the two function parameters. -/
def Graph.torusSector (sinF cosF : ℚ → ℚ) (g : Graph) (bigR smallR halfAngle : ℚ) :
    Graph × Nat :=
  g.createNode (.torusSector bigR smallR (sinF halfAngle) (cosF halfAngle))

/-- Rust f32 clamp: panics (here: none) when the lower bound exceeds the
upper bound, else clamps. -/
def clampQ (v lo hi : ℚ) : Option ℚ :=
  if hi < lo then none
  else some (if v < lo then lo else if hi < v then hi else v)

/-- biconvex_lens from graph.rs: clamps both sagittas to
[1e-3, chord / 2]; the clamp panics when chord / 2 < 1e-3. -/
def Graph.biconvexLens (g : Graph) (lowerSagitta upperSagitta chord : ℚ) :
    Option (Graph × Nat) :=
  match clampQ upperSagitta (1 / 1000) (chord / 2),
      clampQ lowerSagitta (1 / 1000) (chord / 2) with
  | some u, some l => some (g.createNode (.biconvexLens l u chord))
  | _, _ => none

def Graph.capsule (g : Graph) (p0 p1 : Vec3) (radius : ℚ) : Graph × Nat :=
  g.createNode (.capsule p0 p1 radius)

def Graph.roundedCylinder (g : Graph) (cylinderRadius halfHeight roundingRadius : ℚ) :
    Graph × Nat :=
  g.createNode (.roundedCylinder cylinderRadius halfHeight roundingRadius)

/-- tapered_capsule from graph.rs: when one endpoint sphere contains the
other it creates a plain sphere instead.  The Euclidean length of the
source is the function parameter norm. -/
def Graph.taperedCapsule (norm : Vec3 → ℚ) (g : Graph) (p0 p1 : Vec3) (r0 r1 : ℚ) :
    Graph × Nat :=
  let distance := norm (p0.sub p1)
  if distance + r1 ≤ r0 then g.sphere p0 r0
  else if distance + r0 ≤ r1 then g.sphere p1 r1
  else g.createNode (.taperedCapsule p0 p1 r0 r1)

def Graph.cone (g : Graph) (radius height : ℚ) : Graph × Nat :=
  g.createNode (.cone radius height)

def Graph.opMaterial (g : Graph) (child : Nat) (m : Material) : Graph × Nat :=
  g.createNode (.material child m)

def Graph.opUnion (g : Graph) (lhs rhs : Nat) : Graph × Nat :=
  g.createNode (.union lhs rhs)

def Graph.opUnionSmooth (g : Graph) (lhs rhs : Nat) (size : ℚ) : Graph × Nat :=
  g.createNode (.unionSmooth lhs rhs size)

def Graph.opUnionMulti (g : Graph) (children : List Nat) : Graph × Nat :=
  g.createNode (.unionMulti children)

def Graph.opUnionMultiSmooth (g : Graph) (children : List Nat) (size : ℚ) : Graph × Nat :=
  g.createNode (.unionMultiSmooth children size)

def Graph.opSubtract (g : Graph) (lhs rhs : Nat) : Graph × Nat :=
  g.createNode (.subtract lhs rhs)

def Graph.opSubtractSmooth (g : Graph) (lhs rhs : Nat) (size : ℚ) : Graph × Nat :=
  g.createNode (.subtractSmooth lhs rhs size)

def Graph.opIntersect (g : Graph) (lhs rhs : Nat) : Graph × Nat :=
  g.createNode (.intersect lhs rhs)

def Graph.opIntersectSmooth (g : Graph) (lhs rhs : Nat) (size : ℚ) : Graph × Nat :=
  g.createNode (.intersectSmooth lhs rhs size)

def Graph.opRotate (g : Graph) (child : Nat) (q : Quat) : Graph × Nat :=
  g.createNode (.rotate q child)

def Graph.opTranslate (g : Graph) (child : Nat) (t : Vec3) : Graph × Nat :=
  g.createNode (.translate t child)

def Graph.opScale (g : Graph) (child : Nat) (s : ℚ) : Graph × Nat :=
  g.createNode (.scale s child)

/-- graph from graph.rs: wraps another graph as a child node. -/
def Graph.graph (g : Graph) (sub : Graph) (root : Nat) : Graph × Nat :=
  g.createNode (.graphNode root sub)

/-- MIN_SMOOTHING from compiler.rs: smoothing constants are clamped to it. -/
def minSmoothing : ℚ := 1 / 10000

/-- Outcomes of compile_node that are not a program: the cycle assertion,
the unwrap of a missing node (both panics in the source), and running out
of recursion fuel, an artefact of the embedding. -/
inductive CompileErr where
  | cycle
  | missing
  | fuel
deriving DecidableEq, Repr

/-- The loop body of the UnionMulti and UnionMultiSmooth cases: compile each
remaining child and append the joining opcode (plus its constants) after
each one. -/
def joinFold (step : Nat → Except CompileErr (List Opcode × List ℚ))
    (jop : Opcode) (jks : List ℚ) :
    List Nat → Except CompileErr (List Opcode × List ℚ)
  | [] => .ok ([], [])
  | c :: cs => do
    let (o, k) ← step c
    let (orest, krest) ← joinFold step jop jks cs
    .ok (o ++ jop :: orest, k ++ jks ++ krest)

/-- compile_node from compiler.rs, with explicit recursion fuel.  Returns
the opcodes and constants the call appends.  The cycle assertion and the
missing-node unwrap are the two panic outcomes. -/
def compileNode : Nat → Graph → Nat → List Nat → Except CompileErr (List Opcode × List ℚ)
  | 0, _, _, _ => .error .fuel
  | fuel + 1, g, root, path =>
    if root ∈ path then .error .cycle
    else
      match g.find root with
      | none => .error .missing
      | some node =>
        match node with
        | .plane p => .ok ([.plane], p.toConsts)
        | .sphere c r => .ok ([.sphere], c.toConsts ++ [r])
        | .capsule p0 p1 r =>
          if p0 = p1 then .ok ([.sphere], p0.toConsts ++ [r])
          else .ok ([.capsule], p0.toConsts ++ p1.toConsts ++ [r])
        | .roundedCylinder cr hh rr => .ok ([.roundedCylinder], [cr, hh, rr])
        | .taperedCapsule p0 p1 r0 r1 =>
          .ok ([.taperedCapsule], p0.toConsts ++ r0 :: p1.toConsts ++ [r1])
        | .cone r h => .ok ([.cone], [r, h])
        | .roundedBox hs rr => .ok ([.roundedBox], hs.toConsts ++ [rr])
        | .torus br sr => .ok ([.torus], [br, sr])
        | .torusSector br sr sh ch => .ok ([.torusSector], [br, sr, sh, ch])
        | .biconvexLens ls us c => .ok ([.biconvexLens], [ls, us, c])
        | .material child m => do
          let (o, k) ← compileNode fuel g child (root :: path)
          .ok (o ++ [.material], k ++ m.rgb.toConsts)
        | .union l r => do
          let (ol, kl) ← compileNode fuel g l (root :: path)
          let (og, kg) ← compileNode fuel g r (root :: path)
          .ok (ol ++ og ++ [.union], kl ++ kg)
        | .unionSmooth l r size => do
          let (ol, kl) ← compileNode fuel g l (root :: path)
          let (og, kg) ← compileNode fuel g r (root :: path)
          .ok (ol ++ og ++ [.unionSmooth], kl ++ kg ++ [max size minSmoothing])
        | .unionMulti children =>
          match children with
          | [] => .ok ([], [])
          | c :: rest => do
            let (o1, k1) ← compileNode fuel g c (root :: path)
            let (og, kg) ←
              joinFold (fun c2 => compileNode fuel g c2 (root :: path)) .union [] rest
            .ok (o1 ++ og, k1 ++ kg)
        | .unionMultiSmooth children size =>
          match children with
          | [] => .ok ([], [])
          | c :: rest => do
            let (o1, k1) ← compileNode fuel g c (root :: path)
            let (og, kg) ←
              joinFold (fun c2 => compileNode fuel g c2 (root :: path))
                .unionSmooth [max size minSmoothing] rest
            .ok (o1 ++ og, k1 ++ kg)
        | .subtract l r => do
          let (ol, kl) ← compileNode fuel g l (root :: path)
          let (og, kg) ← compileNode fuel g r (root :: path)
          .ok (ol ++ og ++ [.subtract], kl ++ kg)
        | .subtractSmooth l r size => do
          let (ol, kl) ← compileNode fuel g l (root :: path)
          let (og, kg) ← compileNode fuel g r (root :: path)
          .ok (ol ++ og ++ [.subtractSmooth], kl ++ kg ++ [max size minSmoothing])
        | .intersect l r => do
          let (ol, kl) ← compileNode fuel g l (root :: path)
          let (og, kg) ← compileNode fuel g r (root :: path)
          .ok (ol ++ og ++ [.intersect], kl ++ kg)
        | .intersectSmooth l r size => do
          let (ol, kl) ← compileNode fuel g l (root :: path)
          let (og, kg) ← compileNode fuel g r (root :: path)
          .ok (ol ++ og ++ [.intersectSmooth], kl ++ kg ++ [max size minSmoothing])
        | .translate t child => do
          let (o, k) ← compileNode fuel g child (root :: path)
          .ok (.pushTranslation :: o ++ [.popTransform], (Vec3.neg t).toConsts ++ k)
        | .rotate q child => do
          let (o, k) ← compileNode fuel g child (root :: path)
          .ok (.pushRotation :: o ++ [.popTransform], (Quat.conjugate q).toConsts ++ k)
        | .scale s child => do
          let (o, k) ← compileNode fuel g child (root :: path)
          .ok (.pushScale :: o ++ [.popScale], (1 / s) :: k ++ [s])
        | .graphNode r sub => compileNode fuel sub r []

/-- compile from compiler.rs: compile the root node and append End. -/
def compileF (fuel : Nat) (g : Graph) (root : Nat) :
    Except CompileErr (List Opcode × List ℚ) := do
  let (o, k) ← compileNode fuel g root []
  .ok (o ++ [.endOp], k)

/-- The keys (node ids) of an association list. -/
def keysOf (ns : List (Nat × Node)) : List Nat := ns.map Prod.fst

/-- The node ids present in a graph. -/
def Graph.keys (g : Graph) : List Nat := keysOf g.nodes

mutual
/-- All node references of a node resolve: same-graph children are keys of
the ambient key list, nested graphs are hereditarily closed and their root
resolves in them. -/
def nodeClosedB (ks : List Nat) : Node → Bool
  | .material c _ => ks.contains c
  | .union l r => ks.contains l && ks.contains r
  | .unionMulti cs => cs.all ks.contains
  | .unionSmooth l r _ => ks.contains l && ks.contains r
  | .unionMultiSmooth cs _ => cs.all ks.contains
  | .subtract l r => ks.contains l && ks.contains r
  | .subtractSmooth l r _ => ks.contains l && ks.contains r
  | .intersect l r => ks.contains l && ks.contains r
  | .intersectSmooth l r _ => ks.contains l && ks.contains r
  | .translate _ c => ks.contains c
  | .rotate _ c => ks.contains c
  | .scale _ c => ks.contains c
  | .graphNode r sub => graphClosedB sub && (Graph.keys sub).contains r
  | _ => true

/-- Every node of the graph is closed (hereditarily). -/
def graphClosedB : Graph → Bool
  | .mk _ ns => listClosedB (keysOf ns) ns

def listClosedB (ks : List Nat) : List (Nat × Node) → Bool
  | [] => true
  | (_, n) :: rest => nodeClosedB ks n && listClosedB ks rest
end

mutual
/-- No UnionMulti or UnionMultiSmooth node (hereditarily) has an empty
child list. -/
def nodeNoEmptyMultiB : Node → Bool
  | .unionMulti cs => !cs.isEmpty
  | .unionMultiSmooth cs _ => !cs.isEmpty
  | .graphNode _ sub => graphNoEmptyMultiB sub
  | _ => true

def graphNoEmptyMultiB : Graph → Bool
  | .mk _ ns => listNoEmptyMultiB ns

def listNoEmptyMultiB : List (Nat × Node) → Bool
  | [] => true
  | (_, n) :: rest => nodeNoEmptyMultiB n && listNoEmptyMultiB rest
end

/-- Every key of the graph is below the id allocator, so the next allocated
id is fresh.  Holds for every graph built through the public constructors. -/
def allocFreshB (g : Graph) : Bool :=
  g.nodes.all (fun kn => decide (kn.1 < g.idAlloc))

/-- State of the stack machine of saft-sdf interpreter.rs: the value stack,
the position stack and the current position. -/
structure MState (SD : Type) where
  vstack : List SD
  pstack : List Vec3
  pos : Vec3

/-- The semantic parameters of the interpreter: the signed-distance value
operations of the SignedDistance trait, the analytic primitive evaluators of
opensaft-sdf sdf.rs, and quaternion rotation of a vector.  All are abstract:
the verified properties are independent of their formulas. -/
structure Ops (SD : Type) where
  dist : SD → ℚ
  copyWithDistance : SD → ℚ → SD
  sdPlane : Vec3 → Vec4 → SD
  sdSphere : Vec3 → Vec3 → ℚ → SD
  sdCapsule : Vec3 → Vec3 → Vec3 → ℚ → SD
  sdRoundedCylinder : Vec3 → ℚ → ℚ → ℚ → SD
  sdTaperedCapsule : Vec3 → Vec3 → Vec3 → ℚ → ℚ → SD
  sdCone : Vec3 → ℚ → ℚ → SD
  sdRoundedBox : Vec3 → Vec3 → ℚ → SD
  sdTorus : Vec3 → ℚ → ℚ → SD
  sdTorusSector : Vec3 → ℚ → ℚ → ℚ → ℚ → SD
  sdBiconvexLens : Vec3 → ℚ → ℚ → ℚ → SD
  sdMaterial : SD → Material → SD
  sdUnion : SD → SD → SD
  sdUnionSmooth : SD → SD → ℚ → SD
  sdSubtract : SD → SD → SD
  sdSubtractSmooth : SD → SD → ℚ → SD
  sdIntersect : SD → SD → SD
  sdIntersectSmooth : SD → SD → ℚ → SD
  rotate : Quat → Vec3 → Vec3

/-- One step of interpret_internal from interpreter.rs: process one opcode,
consuming constants from the head of the list.  none models the panics of
the source (out-of-range constant read, popping an empty stack). -/
def execStep {SD : Type} (O : Ops SD) (op : Opcode) (cs : List ℚ) (st : MState SD) :
    Option (MState SD × List ℚ)  :=
  match op with
  | .plane =>
    match cs with
    | a :: b :: c :: d :: cs2 =>
      some ({ st with vstack := O.sdPlane st.pos ⟨a, b, c, d⟩ :: st.vstack }, cs2)
    | _ => none
  | .sphere =>
    match cs with
    | a :: b :: c :: r :: cs2 =>
      some ({ st with vstack := O.sdSphere st.pos ⟨a, b, c⟩ r :: st.vstack }, cs2)
    | _ => none
  | .capsule =>
    match cs with
    | a :: b :: c :: d :: e :: f :: r :: cs2 =>
      some ({ st with vstack := O.sdCapsule st.pos ⟨a, b, c⟩ ⟨d, e, f⟩ r :: st.vstack }, cs2)
    | _ => none
  | .roundedCylinder =>
    match cs with
    | a :: b :: c :: cs2 =>
      some ({ st with vstack := O.sdRoundedCylinder st.pos a b c :: st.vstack }, cs2)
    | _ => none
  | .taperedCapsule =>
    match cs with
    | a :: b :: c :: r0 :: d :: e :: f :: r1 :: cs2 =>
      some ({ st with
        vstack := O.sdTaperedCapsule st.pos ⟨a, b, c⟩ ⟨d, e, f⟩ r0 r1 :: st.vstack }, cs2)
    | _ => none
  | .cone =>
    match cs with
    | r :: h :: cs2 =>
      some ({ st with vstack := O.sdCone st.pos r h :: st.vstack }, cs2)
    | _ => none
  | .roundedBox =>
    match cs with
    | a :: b :: c :: r :: cs2 =>
      some ({ st with vstack := O.sdRoundedBox st.pos ⟨a, b, c⟩ r :: st.vstack }, cs2)
    | _ => none
  | .torus =>
    match cs with
    | br :: sr :: cs2 =>
      some ({ st with vstack := O.sdTorus st.pos br sr :: st.vstack }, cs2)
    | _ => none
  | .torusSector =>
    match cs with
    | br :: sr :: sh :: ch :: cs2 =>
      some ({ st with vstack := O.sdTorusSector st.pos br sr sh ch :: st.vstack }, cs2)
    | _ => none
  | .biconvexLens =>
    match cs with
    | l :: u :: c :: cs2 =>
      some ({ st with vstack := O.sdBiconvexLens st.pos l u c :: st.vstack }, cs2)
    | _ => none
  | .material =>
    match st.vstack with
    | v :: vs =>
      match cs with
      | a :: b :: c :: cs2 =>
        some ({ st with vstack := O.sdMaterial v ⟨⟨a, b, c⟩⟩ :: vs }, cs2)
      | _ => none
    | _ => none
  | .union =>
    match st.vstack with
    | v1 :: v2 :: vs => some ({ st with vstack := O.sdUnion v1 v2 :: vs }, cs)
    | _ => none
  | .unionSmooth =>
    match st.vstack with
    | v1 :: v2 :: vs =>
      match cs with
      | w :: cs2 => some ({ st with vstack := O.sdUnionSmooth v1 v2 w :: vs }, cs2)
      | _ => none
    | _ => none
  | .subtract =>
    match st.vstack with
    | v1 :: v2 :: vs => some ({ st with vstack := O.sdSubtract v1 v2 :: vs }, cs)
    | _ => none
  | .subtractSmooth =>
    match st.vstack with
    | v1 :: v2 :: vs =>
      match cs with
      | w :: cs2 => some ({ st with vstack := O.sdSubtractSmooth v1 v2 w :: vs }, cs2)
      | _ => none
    | _ => none
  | .intersect =>
    match st.vstack with
    | v1 :: v2 :: vs => some ({ st with vstack := O.sdIntersect v1 v2 :: vs }, cs)
    | _ => none
  | .intersectSmooth =>
    match st.vstack with
    | v1 :: v2 :: vs =>
      match cs with
      | w :: cs2 => some ({ st with vstack := O.sdIntersectSmooth v1 v2 w :: vs }, cs2)
      | _ => none
    | _ => none
  | .pushTranslation =>
    match cs with
    | a :: b :: c :: cs2 =>
      some (⟨st.vstack, st.pos :: st.pstack, st.pos + Vec3.mk a b c⟩, cs2)
    | _ => none
  | .pushRotation =>
    match cs with
    | a :: b :: c :: d :: cs2 =>
      some (⟨st.vstack, st.pos :: st.pstack, O.rotate ⟨a, b, c, d⟩ st.pos⟩, cs2)
    | _ => none
  | .popTransform =>
    match st.pstack with
    | p :: ps => some (⟨st.vstack, ps, p⟩, cs)
    | _ => none
  | .pushScale =>
    match cs with
    | inv :: cs2 =>
      some (⟨st.vstack, st.pos :: st.pstack, st.pos.smul inv⟩, cs2)
    | _ => none
  | .popScale =>
    match st.pstack with
    | p :: ps =>
      match cs with
      | s :: cs2 =>
        match st.vstack with
        | v :: vs =>
          some (⟨O.copyWithDistance v (s * O.dist v) :: vs, ps, p⟩, cs2)
        | _ => none
      | _ => none
    | _ => none
  | .endOp => none

/-- interpret_internal from interpreter.rs: process opcodes until End.  The
End opcode stops and returns the machine state together with the remaining
constants; running off the end of the opcode vector is a panic (none). -/
def exec {SD : Type} (O : Ops SD) : List Opcode → List ℚ → MState SD →
    Option (MState SD × List ℚ)
  | [], _, _ => none
  | .endOp :: _, cs, st => some (st, cs)
  | op :: rest, cs, st =>
    match execStep O op cs st with
    | none => none
    | some (st2, cs2) => exec O rest cs2 st2

/-- Interpreter interpret: run to End from the query position with empty
stacks and pop the top of the value stack. -/
def interpretD {SD : Type} (O : Ops SD) (prog : List Opcode) (cs : List ℚ) (p : Vec3) :
    Option SD :=
  match exec O prog cs ⟨[], [], p⟩ with
  | none => none
  | some (st, _) => st.vstack.head?

/-- The primitive evaluators for the distance-only instantiation
(SignedDistance for f32). -/
structure QPrims where
  sdPlane : Vec3 → Vec4 → ℚ
  sdSphere : Vec3 → Vec3 → ℚ → ℚ
  sdCapsule : Vec3 → Vec3 → Vec3 → ℚ → ℚ
  sdRoundedCylinder : Vec3 → ℚ → ℚ → ℚ → ℚ
  sdTaperedCapsule : Vec3 → Vec3 → Vec3 → ℚ → ℚ → ℚ
  sdCone : Vec3 → ℚ → ℚ → ℚ
  sdRoundedBox : Vec3 → Vec3 → ℚ → ℚ
  sdTorus : Vec3 → ℚ → ℚ → ℚ
  sdTorusSector : Vec3 → ℚ → ℚ → ℚ → ℚ → ℚ
  sdBiconvexLens : Vec3 → ℚ → ℚ → ℚ → ℚ
  sdUnion : ℚ → ℚ → ℚ
  sdUnionSmooth : ℚ → ℚ → ℚ → ℚ
  sdSubtract : ℚ → ℚ → ℚ
  sdSubtractSmooth : ℚ → ℚ → ℚ → ℚ
  sdIntersect : ℚ → ℚ → ℚ
  sdIntersectSmooth : ℚ → ℚ → ℚ → ℚ
  rotate : Quat → Vec3 → Vec3

/-- The distance-only interpreter instance: distance of an f32 value is the
value itself, copy_with_distance replaces it, and sd_material ignores the
material (structs.rs, impl SignedDistance for f32). -/
def qOps (P : QPrims) : Ops ℚ where
  dist := fun d => d
  copyWithDistance := fun _ d => d
  sdPlane := P.sdPlane
  sdSphere := P.sdSphere
  sdCapsule := P.sdCapsule
  sdRoundedCylinder := P.sdRoundedCylinder
  sdTaperedCapsule := P.sdTaperedCapsule
  sdCone := P.sdCone
  sdRoundedBox := P.sdRoundedBox
  sdTorus := P.sdTorus
  sdTorusSector := P.sdTorusSector
  sdBiconvexLens := P.sdBiconvexLens
  sdMaterial := fun d _ => d
  sdUnion := P.sdUnion
  sdUnionSmooth := P.sdUnionSmooth
  sdSubtract := P.sdSubtract
  sdSubtractSmooth := P.sdSubtractSmooth
  sdIntersect := P.sdIntersect
  sdIntersectSmooth := P.sdIntersectSmooth
  rotate := P.rotate

/-- A concrete trivial instantiation of the primitive evaluators, used for
concrete counterexample runs. -/
def zeroPrims : QPrims where
  sdPlane := fun _ _ => 0
  sdSphere := fun _ _ _ => 0
  sdCapsule := fun _ _ _ _ => 0
  sdRoundedCylinder := fun _ _ _ _ => 0
  sdTaperedCapsule := fun _ _ _ _ _ => 0
  sdCone := fun _ _ _ => 0
  sdRoundedBox := fun _ _ _ => 0
  sdTorus := fun _ _ _ => 0
  sdTorusSector := fun _ _ _ _ _ => 0
  sdBiconvexLens := fun _ _ _ _ => 0
  sdUnion := fun _ _ => 0
  sdUnionSmooth := fun _ _ _ => 0
  sdSubtract := fun _ _ => 0
  sdSubtractSmooth := fun _ _ _ => 0
  sdIntersect := fun _ _ => 0
  sdIntersectSmooth := fun _ _ _ => 0
  rotate := fun _ v => v

/-- The inner while of set_truncated_span in grid3.rs: while the running
distance bound exceeds the truncate distance and cells remain, write the
same value again.  Returns the written copies and their count; the second
argument is the remaining cell budget (w - x). -/
def copySteps {SD : Type} (d : SD) (tdist : ℚ) : ℚ → Nat → List SD × Nat
  | _, 0 => ([], 0)
  | b, n + 1 =>
    if tdist < b then
      let r := copySteps d tdist (b - 1) n
      (d :: r.1, r.2 + 1)
    else ([], 0)

/-- The outer while of set_truncated_span: evaluate the field at the current
cell, write it, then copy it forward while the bound |d| - 1, decremented
per cell, exceeds the truncate distance. -/
def fillFrom {SD : Type} (dist : SD → ℚ) (f : Nat → SD) (tdist : ℚ) :
    Nat → Nat → List SD
  | _, 0 => []
  | x, n + 1 =>
    let d := f x
    let r := copySteps d tdist (|dist d| - 1) n
    d :: (r.1 ++ fillFrom dist f tdist (x + 1 + r.2) (n - r.2))
termination_by _ n => n
decreasing_by exact Nat.lt_succ_of_le (Nat.sub_le _ _)

/-- set_truncated_span from grid3.rs on one x-span of width w. -/
def setTruncatedSpan {SD : Type} (dist : SD → ℚ) (f : Nat → SD) (tdist : ℚ) (w : Nat) :
    List SD :=
  fillFrom dist f tdist 0 w

/-- The source index of each cell written by fillFrom: an evaluated cell is
its own source, a copied cell points at the evaluated cell it copies. -/
def srcFrom {SD : Type} (dist : SD → ℚ) (f : Nat → SD) (tdist : ℚ) :
    Nat → Nat → List Nat
  | _, 0 => []
  | x, n + 1 =>
    let d := f x
    let r := copySteps d tdist (|dist d| - 1) n
    x :: (List.replicate r.2 x ++ srcFrom dist f tdist (x + 1 + r.2) (n - r.2))
termination_by _ n => n
decreasing_by exact Nat.lt_succ_of_le (Nat.sub_le _ _)

/-- Source indices over a whole x-span. -/
def spanSrcs {SD : Type} (dist : SD → ℚ) (f : Nat → SD) (tdist : ℚ) (w : Nat) :
    List Nat :=
  srcFrom dist f tdist 0 w

/-- set_truncated_sync from grid3.rs: the grid data in x-fastest layout, one
truncated span per (y, z) row. -/
def setTruncatedSync {SD : Type} (dist : SD → ℚ) (f : Nat → Nat → Nat → SD)
    (tdist : ℚ) (w h d : Nat) : List SD :=
  (List.range d).flatMap fun z =>
    (List.range h).flatMap fun y =>
      setTruncatedSpan dist (fun x => f x y z) tdist w

/-- A sample along a traced ray: parameter, position, evaluated distance. -/
structure HitInfo where
  t : ℚ
  pos : Vec3
  dist : ℚ
deriving DecidableEq, Repr

/-- Result of the sphere tracer: a hit, the closest non-hit sample, or
ClosestHit::miss() when no positive-t sample was seen. -/
inductive TraceResult where
  | hitAt (h : HitInfo)
  | missAt (h : HitInfo)
  | missNone
deriving DecidableEq, Repr

/-- Options of sphere_tracing.rs (defaults 1024 steps, step constant 1). -/
structure TraceOptions where
  maxSteps : Nat
  stepConstant : ℚ

def missOf : Option HitInfo → TraceResult
  | none => .missNone
  | some h => .missAt h

/-- Track the closest (smallest dist / t) sample among those with t > 0,
keeping the earlier sample on ties, as the trace loop of sphere_tracing.rs
does. -/
def accUpdate (t : ℚ) (pos : Vec3) (d : ℚ) : Option HitInfo → Option HitInfo
  | none => if 0 < t then some ⟨t, pos, d⟩ else none
  | some b =>
    if 0 < t ∧ d / t < b.dist / b.t then some ⟨t, pos, d⟩ else some b

/-- The march loop of trace from sphere_tracing.rs. -/
def traceLoop (sd : Vec3 → ℚ) (ray : ℚ → Vec3) (c tHi : ℚ) :
    Nat → ℚ → Option HitInfo → TraceResult
  | 0, _, acc => missOf acc
  | n + 1, t, acc =>
    let pos := ray t
    let d := sd pos
    if d ≤ 1 / 1000 * t then .hitAt ⟨t, pos, d⟩
    else
      let acc2 := accUpdate t pos d acc
      if tHi ≤ t + d * c then missOf acc2
      else traceLoop sd ray c tHi n (t + d * c) acc2

/-- trace from sphere_tracing.rs. -/
def trace (sd : Vec3 → ℚ) (ray : ℚ → Vec3) (tLo tHi : ℚ) (opt : TraceOptions) :
    TraceResult :=
  traceLoop sd ray opt.stepConstant tHi opt.maxSteps tLo none

/-- The samples the trace loop evaluates, in evaluation order: it stops
after a hit sample, after the advanced parameter reaches tHi, and after
maxSteps evaluations. -/
def traceSamples (sd : Vec3 → ℚ) (ray : ℚ → Vec3) (c tHi : ℚ) :
    Nat → ℚ → List HitInfo
  | 0, _ => []
  | n + 1, t =>
    let pos := ray t
    let d := sd pos
    ⟨t, pos, d⟩ ::
      (if d ≤ 1 / 1000 * t then []
       else if tHi ≤ t + d * c then []
       else traceSamples sd ray c tHi n (t + d * c))

/-- Whether a sample satisfies the hit test of the trace loop. -/
def isHitSample (s : HitInfo) : Bool := s.dist ≤ 1 / 1000 * s.t

/-- Folding one sample into the tracked closest sample. -/
def accStep (a : Option HitInfo) (s : HitInfo) : Option HitInfo :=
  accUpdate s.t s.pos s.dist a

/-- The reasons of the BadProgram error of compiler.rs (its static strings
Missing End and Unused constants). -/
inductive BPReason where
  | missingEnd
  | unusedConstants
deriving DecidableEq, Repr

/-- The error enum of compiler.rs. -/
inductive DecompErr where
  | badProgram (r : BPReason)
  | badConstants
  | badStack
  | evaluatedToNaN
deriving DecidableEq, Repr

/-- A transform-stack entry of decompile. -/
inductive TEntry where
  | translation (v : Vec3)
  | rotation (q : Quat)
deriving DecidableEq, Repr

/-- The running state of decompile: the graph being rebuilt, the value
stack of node ids, the transform stack, and the constant cursor. -/
structure DState where
  g : Graph
  stack : List Nat
  tstack : List TEntry
  off : Nat

/-- ConstantReader read_f32: bounds-checked read at the cursor. -/
def readF32 (pool : List ℚ) (off : Nat) : Option (ℚ × Nat) :=
  match pool[off]? with
  | some v => some (v, off + 1)
  | none => none

def readVec2 (pool : List ℚ) (off : Nat) : Option ((ℚ × ℚ) × Nat) := do
  let (a, o1) ← readF32 pool off
  let (b, o2) ← readF32 pool o1
  some ((a, b), o2)

def readVec3 (pool : List ℚ) (off : Nat) : Option (Vec3 × Nat) := do
  let (a, o1) ← readF32 pool off
  let (b, o2) ← readF32 pool o1
  let (c, o3) ← readF32 pool o2
  some (⟨a, b, c⟩, o3)

def readVec4 (pool : List ℚ) (off : Nat) : Option (Vec4 × Nat) := do
  let (a, o1) ← readF32 pool off
  let (b, o2) ← readF32 pool o1
  let (c, o3) ← readF32 pool o2
  let (d, o4) ← readF32 pool o3
  some (⟨a, b, c, d⟩, o4)

def readQuat (pool : List ℚ) (off : Nat) : Option (Quat × Nat) := do
  let (a, o1) ← readF32 pool off
  let (b, o2) ← readF32 pool o1
  let (c, o3) ← readF32 pool o2
  let (d, o4) ← readF32 pool o3
  some (⟨a, b, c, d⟩, o4)

/-- Result of processing one opcode in decompile: continue, stop at End,
return an error, or panic (the clamp assertion inside biconvex_lens). -/
inductive DStepRes where
  | cont (st : DState)
  | halt (st : DState)
  | fail (e : DecompErr)
  | panicked

/-- Feed a bounds-checked read into a continuation, mapping a failed read
to BadConstants, as the question-mark operator of decompile does. -/
def rbind {α : Type} (r : Option (α × Nat)) (f : α → Nat → DStepRes) : DStepRes :=
  match r with
  | none => .fail .badConstants
  | some (a, o) => f a o

/-- One arm of the opcode match of decompile in compiler.rs. -/
def dstep (sinF cosF : ℚ → ℚ) (norm : Vec3 → ℚ) (pool : List ℚ)
    (op : Opcode) (st : DState) : DStepRes :=
  match op with
  | .sphere =>
    rbind (readVec3 pool st.off) fun center o1 =>
    rbind (readF32 pool o1) fun radius o2 =>
      let r := st.g.sphere center radius
      .cont ⟨r.1, r.2 :: st.stack, st.tstack, o2⟩
  | .union =>
    match st.stack with
    | rhs :: lhs :: s =>
      let r := st.g.opUnion lhs rhs
      .cont ⟨r.1, r.2 :: s, st.tstack, st.off⟩
    | _ => .fail .badStack
  | .unionSmooth =>
    match st.stack with
    | rhs :: lhs :: s =>
      rbind (readF32 pool st.off) fun size o1 =>
        let r := st.g.opUnionSmooth lhs rhs size
        .cont ⟨r.1, r.2 :: s, st.tstack, o1⟩
    | _ => .fail .badStack
  | .intersect =>
    match st.stack with
    | rhs :: lhs :: s =>
      let r := st.g.opIntersect lhs rhs
      .cont ⟨r.1, r.2 :: s, st.tstack, st.off⟩
    | _ => .fail .badStack
  | .intersectSmooth =>
    match st.stack with
    | rhs :: lhs :: s =>
      rbind (readF32 pool st.off) fun size o1 =>
        let r := st.g.opIntersectSmooth lhs rhs size
        .cont ⟨r.1, r.2 :: s, st.tstack, o1⟩
    | _ => .fail .badStack
  | .subtract =>
    match st.stack with
    | rhs :: lhs :: s =>
      let r := st.g.opSubtract lhs rhs
      .cont ⟨r.1, r.2 :: s, st.tstack, st.off⟩
    | _ => .fail .badStack
  | .subtractSmooth =>
    match st.stack with
    | rhs :: lhs :: s =>
      rbind (readF32 pool st.off) fun size o1 =>
        let r := st.g.opSubtractSmooth lhs rhs size
        .cont ⟨r.1, r.2 :: s, st.tstack, o1⟩
    | _ => .fail .badStack
  | .roundedBox =>
    rbind (readVec3 pool st.off) fun halfSize o1 =>
    rbind (readF32 pool o1) fun rr o2 =>
      let r := st.g.roundedBox halfSize rr
      .cont ⟨r.1, r.2 :: st.stack, st.tstack, o2⟩
  | .roundedCylinder =>
    rbind (readF32 pool st.off) fun cr o1 =>
    rbind (readF32 pool o1) fun hh o2 =>
    rbind (readF32 pool o2) fun rr o3 =>
      let r := st.g.roundedCylinder cr hh rr
      .cont ⟨r.1, r.2 :: st.stack, st.tstack, o3⟩
  | .cone =>
    rbind (readF32 pool st.off) fun radius o1 =>
    rbind (readF32 pool o1) fun height o2 =>
      let r := st.g.cone radius height
      .cont ⟨r.1, r.2 :: st.stack, st.tstack, o2⟩
  | .taperedCapsule =>
    rbind (readVec3 pool st.off) fun p0 o1 =>
    rbind (readF32 pool o1) fun r0 o2 =>
    rbind (readVec3 pool o2) fun p1 o3 =>
    rbind (readF32 pool o3) fun r1 o4 =>
      let r := Graph.taperedCapsule norm st.g p0 p1 r0 r1
      .cont ⟨r.1, r.2 :: st.stack, st.tstack, o4⟩
  | .biconvexLens =>
    rbind (readF32 pool st.off) fun ls o1 =>
    rbind (readF32 pool o1) fun us o2 =>
    rbind (readF32 pool o2) fun chord o3 =>
      match st.g.biconvexLens ls us chord with
      | some r => .cont ⟨r.1, r.2 :: st.stack, st.tstack, o3⟩
      | none => .panicked
  | .capsule =>
    rbind (readVec3 pool st.off) fun p0 o1 =>
    rbind (readVec3 pool o1) fun p1 o2 =>
    rbind (readF32 pool o2) fun radius o3 =>
      let r := st.g.capsule p0 p1 radius
      .cont ⟨r.1, r.2 :: st.stack, st.tstack, o3⟩
  | .torus =>
    rbind (readF32 pool st.off) fun br o1 =>
    rbind (readF32 pool o1) fun sr o2 =>
      let r := st.g.torus br sr
      .cont ⟨r.1, r.2 :: st.stack, st.tstack, o2⟩
  | .torusSector =>
    rbind (readF32 pool st.off) fun br o1 =>
    rbind (readF32 pool o1) fun sr o2 =>
    rbind (readF32 pool o2) fun halfAngle o3 =>
      let r := Graph.torusSector sinF cosF st.g br sr halfAngle
      .cont ⟨r.1, r.2 :: st.stack, st.tstack, o3⟩
  | .plane =>
    rbind (readVec4 pool st.off) fun p o1 =>
      let r := st.g.plane p
      .cont ⟨r.1, r.2 :: st.stack, st.tstack, o1⟩
  | .material =>
    match st.stack with
    | child :: s =>
      rbind (readVec3 pool st.off) fun rgb o1 =>
        let r := st.g.opMaterial child ⟨rgb⟩
        .cont ⟨r.1, r.2 :: s, st.tstack, o1⟩
    | _ => .fail .badStack
  | .endOp => .halt st
  | .pushScale => .cont ⟨st.g, st.stack, st.tstack, st.off + 1⟩
  | .popScale =>
    match st.stack with
    | child :: s =>
      rbind (readF32 pool st.off) fun scale o1 =>
        let r := st.g.opScale child scale
        .cont ⟨r.1, r.2 :: s, st.tstack, o1⟩
    | _ => .fail .badStack
  | .pushTranslation =>
    rbind (readVec3 pool st.off) fun t o1 =>
      .cont ⟨st.g, st.stack, .translation (Vec3.neg t) :: st.tstack, o1⟩
  | .pushRotation =>
    rbind (readQuat pool st.off) fun q o1 =>
      .cont ⟨st.g, st.stack, .rotation q.conjugate :: st.tstack, o1⟩
  | .popTransform =>
    match st.stack with
    | child :: s =>
      match st.tstack with
      | .translation t :: ts =>
        let r := st.g.opTranslate child t
        .cont ⟨r.1, r.2 :: s, ts, st.off⟩
      | .rotation q :: ts =>
        let r := st.g.opRotate child q
        .cont ⟨r.1, r.2 :: s, ts, st.off⟩
      | [] => .fail .badStack
    | _ => .fail .badStack

/-- The outcome of the opcode loop of decompile: a mid-loop error or panic,
or the final state together with whether End was reached. -/
inductive DLoopRes where
  | fail (e : DecompErr)
  | panicked
  | finished (hitEnd : Bool) (st : DState)

/-- The opcode loop of decompile. -/
def decompLoop (sinF cosF : ℚ → ℚ) (norm : Vec3 → ℚ) (pool : List ℚ) :
    List Opcode → DState → DLoopRes
  | [], st => .finished false st
  | op :: rest, st =>
    match dstep sinF cosF norm pool op st with
    | .halt st2 => .finished true st2
    | .cont st2 => decompLoop sinF cosF norm pool rest st2
    | .fail e => .fail e
    | .panicked => .panicked

/-- The outcome of decompile. -/
inductive DOut where
  | ok (g : Graph) (root : Nat)
  | err (e : DecompErr)
  | panicked

/-- decompile from compiler.rs, with its final checks in source order:
value stack of exactly one entry, empty transform stack, End reached,
constants cursor exactly at the end of the pool. -/
def decompile (sinF cosF : ℚ → ℚ) (norm : Vec3 → ℚ)
    (opcodes : List Opcode) (pool : List ℚ) : DOut :=
  match decompLoop sinF cosF norm pool opcodes ⟨Graph.empty, [], [], 0⟩ with
  | .fail e => .err e
  | .panicked => .panicked
  | .finished hitEnd st =>
    match st.stack with
    | [root] =>
      if ¬ st.tstack.isEmpty then .err .badStack
      else if ¬ hitEnd then .err (.badProgram .missingEnd)
      else if st.off ≠ pool.length then .err (.badProgram .unusedConstants)
      else .ok st.g root
    | _ => .err .badStack

/-- The stack and constant-cursor shape of one decompile opcode arm: how
many value-stack pops it checks, how many bounds-checked constant reads it
performs, how many cursor positions it skips without a check (PushScale),
how many values it pushes, and its transform-stack pushes and checked
pops.  The torusSector row records the three reads the decompiler actually
performs. -/
structure OpShape where
  vpops : Nat
  reads : Nat
  skips : Nat
  vpush : Nat
  tpush : Nat
  tpop : Nat
deriving DecidableEq, Repr

def decompShape : Opcode → OpShape
  | .plane => ⟨0, 4, 0, 1, 0, 0⟩
  | .sphere => ⟨0, 4, 0, 1, 0, 0⟩
  | .capsule => ⟨0, 7, 0, 1, 0, 0⟩
  | .taperedCapsule => ⟨0, 8, 0, 1, 0, 0⟩
  | .material => ⟨1, 3, 0, 1, 0, 0⟩
  | .union => ⟨2, 0, 0, 1, 0, 0⟩
  | .unionSmooth => ⟨2, 1, 0, 1, 0, 0⟩
  | .subtract => ⟨2, 0, 0, 1, 0, 0⟩
  | .subtractSmooth => ⟨2, 1, 0, 1, 0, 0⟩
  | .intersect => ⟨2, 0, 0, 1, 0, 0⟩
  | .intersectSmooth => ⟨2, 1, 0, 1, 0, 0⟩
  | .pushTranslation => ⟨0, 3, 0, 0, 1, 0⟩
  | .pushRotation => ⟨0, 4, 0, 0, 1, 0⟩
  | .popTransform => ⟨1, 0, 0, 1, 0, 1⟩
  | .pushScale => ⟨0, 0, 1, 0, 0, 0⟩
  | .popScale => ⟨1, 1, 0, 1, 0, 0⟩
  | .endOp => ⟨0, 0, 0, 0, 0, 0⟩
  | .roundedBox => ⟨0, 4, 0, 1, 0, 0⟩
  | .biconvexLens => ⟨0, 3, 0, 1, 0, 0⟩
  | .roundedCylinder => ⟨0, 3, 0, 1, 0, 0⟩
  | .torus => ⟨0, 2, 0, 1, 0, 0⟩
  | .torusSector => ⟨0, 3, 0, 1, 0, 0⟩
  | .cone => ⟨0, 2, 0, 1, 0, 0⟩

/-- One step of the specification-side classifier of decompile outcomes,
tracking only stack heights and the constant cursor: BadStack when a
checked pop underflows, BadConstants when a bounds-checked read would pass
the end of the pool, a panic when a BiconvexLens opcode reads a chord
below 2e-3, and otherwise the height and cursor updates of the shape
table. -/
inductive CStepRes where
  | cont (h th cur : Nat)
  | halt (h th cur : Nat)
  | fail (e : DecompErr)
  | panicked
deriving Repr

def classStep (pool : List ℚ) (op : Opcode) (h th cur : Nat) : CStepRes :=
  if op = .endOp then .halt h th cur
  else
    let s := decompShape op
    let next : CStepRes :=
      .cont (h - s.vpops + s.vpush) (th - s.tpop + s.tpush) (cur + s.reads + s.skips)
    if h < s.vpops then .fail .badStack
    else if th < s.tpop then .fail .badStack
    else if 0 < s.reads ∧ pool.length < cur + s.reads then .fail .badConstants
    else if op = .biconvexLens then
      match pool[cur + 2]? with
      | some chord => if chord / 2 < 1 / 1000 then .panicked else next
      | none => next
    else next

/-- The loop outcome of the classifier. -/
inductive CLoopRes where
  | fail (e : DecompErr)
  | panicked
  | finished (hitEnd : Bool) (h th cur : Nat)
deriving Repr

def classLoop (pool : List ℚ) : List Opcode → Nat → Nat → Nat → CLoopRes
  | [], h, th, cur => .finished false h th cur
  | op :: rest, h, th, cur =>
    match classStep pool op h th cur with
    | .halt h2 th2 cur2 => .finished true h2 th2 cur2
    | .cont h2 th2 cur2 => classLoop pool rest h2 th2 cur2
    | .fail e => .fail e
    | .panicked => .panicked

/-- The classified outcome of decompile, without the rebuilt graph. -/
inductive COut where
  | ok
  | err (e : DecompErr)
  | panicked
deriving DecidableEq, Repr

/-- Specification-side classifier of decompile results, written from the
amended claim: walking the opcodes from an empty machine state, BadConstants
exactly on a failed bounds-checked read, BadStack on a checked pop of an
empty stack, a panic on a degenerate BiconvexLens chord; then, in order,
BadStack unless exactly one value remains, BadStack unless the transform
stack is empty, Missing End unless End was reached, Unused constants
unless the cursor sits exactly at the end of the pool. -/
def decompClassify (opcodes : List Opcode) (pool : List ℚ) : COut :=
  match classLoop pool opcodes 0 0 0 with
  | .fail e => .err e
  | .panicked => .panicked
  | .finished hitEnd h th cur =>
    if h ≠ 1 then .err .badStack
    else if th ≠ 0 then .err .badStack
    else if ¬ hitEnd then .err (.badProgram .missingEnd)
    else if cur ≠ pool.length then .err (.badProgram .unusedConstants)
    else .ok

/-- Forget the rebuilt graph of a decompile outcome. -/
def outcomeOf : DOut → COut
  | .ok _ _ => .ok
  | .err e => .err e
  | .panicked => .panicked

/-- A concrete stand-in for the sine and cosine parameters in closed
counterexample runs. -/
def qZeroF : ℚ → ℚ := fun _ => 0

/-- A concrete stand-in for the Euclidean-length parameter in closed
counterexample runs. -/
def normZero : Vec3 → ℚ := fun _ => 0

/-! Theorems.  Claim theorems are named spec_cN; helper lemmas come first
in each group. -/

/-- Claim C1 (code bug witness): compiling a graph holding a single
TorusSector node emits the four constants big_r, small_r, sin, cos, as the
wire contract of opcodes.rs documents, but decompile reads only three of
them (treating the sine as a half angle), so decompiling the compiled
program fails with BadProgram (Unused constants) and the round trip
compile-decompile-compile cannot even start its second compile. -/
theorem spec_c1_roundtrip_bug :
    ∀ sinF cosF : ℚ → ℚ, ∀ norm : Vec3 → ℚ,
    compileF 1 (Graph.empty.createNode (.torusSector 1 (1/2) 1 0)).1 0
      = .ok ([.torusSector, .endOp], [1, 1/2, 1, 0]) ∧
    decompile sinF cosF norm [.torusSector, .endOp] [1, 1/2, 1, 0]
      = .err (.badProgram .unusedConstants) :=
  fun _ _ _ => ⟨rfl, rfl⟩

/-- Claim C3 (counterexample): on the empty graph with root id 0 there is
no cycle at all, yet compile does not succeed: it panics through the
missing-node unwrap, not through the cycle assertion. -/
theorem spec_c3_counterexample :
    compileF 1 Graph.empty 0 = .error .missing ∧
    CompileErr.missing ≠ CompileErr.cycle ∧
    CompileErr.missing ≠ CompileErr.fuel :=
  ⟨rfl, by decide, by decide⟩

/-- Claim C4 (counterexample): a graph built through the public
op_union_multi with an empty child list compiles to a program whose body is
empty, so the final program is just End; interpreting it pops an empty
value stack (the interpreter returns no value), and no distance value
remains at End. -/
theorem spec_c4_counterexample :
    compileF 1 (Graph.empty.opUnionMulti []).1 (Graph.empty.opUnionMulti []).2
      = .ok ([.endOp], []) ∧
    interpretD (qOps zeroPrims) [.endOp] [] ⟨0, 0, 0⟩ = none :=
  ⟨rfl, rfl⟩

/-- Claim C10 (counterexample): the public builder biconvex_lens panics for
a small chord: with chord 1e-3 the clamp interval [1e-3, chord / 2] is
inverted and the f32 clamp asserts, so no node is stored at all. -/
theorem spec_c10_counterexample :
    Graph.biconvexLens Graph.empty 1 1 (1/1000) = none := by
  norm_num [Graph.biconvexLens, clampQ]

/-- Claim C8 (counterexample): a degenerate TaperedCapsule node (both
endpoints at the origin, radii 2 and 1, so the second sphere lies inside
the first) present in the graph is compiled to a TaperedCapsule opcode,
not to a Sphere opcode: compile_node performs no canonicalisation of the
degenerate case. -/
theorem spec_c8_counterexample :
    compileF 1 (Graph.empty.createNode
        (.taperedCapsule ⟨0, 0, 0⟩ ⟨0, 0, 0⟩ 2 1)).1 0
      = .ok ([.taperedCapsule, .endOp], [0, 0, 0, 2, 0, 0, 0, 1]) ∧
    (Opcode.taperedCapsule ≠ Opcode.sphere) ∧
    normZero (Vec3.sub ⟨0, 0, 0⟩ ⟨0, 0, 0⟩) + 1 ≤ 2 :=
  ⟨rfl, by decide, by norm_num [normZero]⟩

/-- Claim C8 (amended): the canonicalisation lives in the graph builder,
not in the compiler: Graph::tapered_capsule with one endpoint sphere
containing the other stores a Sphere node with the containing sphere's
center and radius, and compiling that node yields a Sphere opcode with
those constants. -/
theorem spec_c8_amended (norm : Vec3 → ℚ) (g : Graph) (p0 p1 : Vec3) (r0 r1 : ℚ)
    (hdeg : norm (p0.sub p1) + r1 ≤ r0 ∨ norm (p0.sub p1) + r0 ≤ r1) :
    ∃ c rr,
      ((c = p0 ∧ rr = r0 ∧ norm (p0.sub p1) + r1 ≤ r0) ∨
        (c = p1 ∧ rr = r1 ∧ norm (p0.sub p1) + r0 ≤ r1)) ∧
      Graph.taperedCapsule norm g p0 p1 r0 r1 = g.sphere c rr ∧
      compileF 1 (g.sphere c rr).1 (g.sphere c rr).2
        = .ok ([.sphere, .endOp], c.toConsts ++ [rr]) := by
  have hc : ∀ c rr, compileF 1 (g.sphere c rr).1 (g.sphere c rr).2
      = .ok ([.sphere, .endOp], c.toConsts ++ [rr]) := by
    intro c rr
    simp [compileF, compileNode, Graph.sphere, Graph.createNode, Graph.find,
      assocFind, Graph.idAlloc, Graph.nodes, Vec3.toConsts, bind, Except.bind]
  by_cases h1 : norm (p0.sub p1) + r1 ≤ r0
  · exact ⟨p0, r0, Or.inl ⟨rfl, rfl, h1⟩, by simp [Graph.taperedCapsule, h1], hc p0 r0⟩
  · have h2 : norm (p0.sub p1) + r0 ≤ r1 := hdeg.resolve_left h1
    exact ⟨p1, r1, Or.inr ⟨rfl, rfl, h2⟩,
      by simp [Graph.taperedCapsule, h1, h2], hc p1 r1⟩

/-- Claim C8 (witness for the amended theorem), at a concrete degenerate
input. -/
theorem spec_c8_amended_witness :
    ∃ c rr,
      ((c = Vec3.mk 0 0 0 ∧ rr = (1 : ℚ) ∧
          normZero ((Vec3.mk 0 0 0).sub ⟨0, 0, 0⟩) + 0 ≤ 1) ∨
        (c = Vec3.mk 0 0 0 ∧ rr = (0 : ℚ) ∧
          normZero ((Vec3.mk 0 0 0).sub ⟨0, 0, 0⟩) + 1 ≤ 0)) ∧
      Graph.taperedCapsule normZero Graph.empty ⟨0, 0, 0⟩ ⟨0, 0, 0⟩ 1 0
        = Graph.sphere Graph.empty c 1 ∧
      compileF 1 (Graph.sphere Graph.empty c 1).1 (Graph.sphere Graph.empty c 1).2
        = .ok ([.sphere, .endOp], c.toConsts ++ [(1 : ℚ)]) := by
  have h := spec_c8_amended normZero Graph.empty ⟨0, 0, 0⟩ ⟨0, 0, 0⟩ 1 0
    (Or.inl (by norm_num [normZero]))
  obtain ⟨c, rr, hcase, hbuild, hcomp⟩ := h
  rcases hcase with ⟨hc, hr, hle⟩ | ⟨hc, hr, hle⟩
  · subst hr
    exact ⟨c, 1, Or.inl ⟨hc, rfl, by norm_num [normZero]⟩, hbuild, hcomp⟩
  · exact absurd hle (by norm_num [normZero])

theorem minSmoothing_pos : 0 < minSmoothing := by norm_num [minSmoothing]

/-- Shape of a successful joinFold run: one part per child, each part the
output of a successful step, with the joining opcode and its constants
appended after every part. -/
theorem joinFold_ok_shape (step : Nat → Except CompileErr (List Opcode × List ℚ))
    (jop : Opcode) (jks : List ℚ) :
    ∀ (chs : List Nat) (o : List Opcode) (k : List ℚ),
    joinFold step jop jks chs = .ok (o, k) →
    ∃ parts : List (List Opcode × List ℚ),
      List.Forall₂ (fun c p => step c = .ok p) chs parts ∧
      o = (parts.map (fun p => p.1 ++ [jop])).flatten ∧
      k = (parts.map (fun p => p.2 ++ jks)).flatten := by
  intro chs
  induction chs with
  | nil =>
    intro o k h
    refine ⟨[], .nil, ?_, ?_⟩ <;> simp [joinFold] at h <;> simp [h.1.symm, h.2.symm]
  | cons c rest ih =>
    intro o k h
    simp only [joinFold, bind, Except.bind] at h
    cases hs : step c with
    | error e => rw [hs] at h; exact absurd h (by simp)
    | ok p =>
      rw [hs] at h
      cases hr : joinFold step jop jks rest with
      | error e => rw [hr] at h; exact absurd h (by simp)
      | ok q =>
        rw [hr] at h
        obtain ⟨parts, hf, ho, hk⟩ := ih q.1 q.2 (by rw [hr])
        refine ⟨p :: parts, .cons hs hf, ?_, ?_⟩ <;>
          simp at h <;> simp [← h.1, ← h.2, ho, hk]

/-- Claim C7: every smoothing constant compile emits for a smooth
combinator node equals max of the node's size with MIN_SMOOTHING = 1e-4,
and is in particular positive.  For the binary smooth combinators the
constant is the last constant the node appends after its children's pools;
for UnionMultiSmooth one copy is appended after each child's pool except
the first. -/
theorem spec_c7 (fuel : Nat) (g : Graph) (root : Nat) (path : List Nat)
    (ops : List Opcode) (cs : List ℚ) (node : Node)
    (hfind : g.find root = some node)
    (hok : compileNode (fuel + 1) g root path = .ok (ops, cs)) :
    (∀ l r k, node = .unionSmooth l r k →
      0 < max k minSmoothing ∧
      ∃ k1 k2, cs = k1 ++ k2 ++ [max k minSmoothing]) ∧
    (∀ l r k, node = .subtractSmooth l r k →
      0 < max k minSmoothing ∧
      ∃ k1 k2, cs = k1 ++ k2 ++ [max k minSmoothing]) ∧
    (∀ l r k, node = .intersectSmooth l r k →
      0 < max k minSmoothing ∧
      ∃ k1 k2, cs = k1 ++ k2 ++ [max k minSmoothing]) ∧
    (∀ ch k, node = .unionMultiSmooth ch k →
      0 < max k minSmoothing ∧
      (ch = [] ∧ cs = [] ∨
        ∃ (c1 : Nat) (rest : List Nat) (k1 : List ℚ) (o1 : List Opcode)
          (parts : List (List Opcode × List ℚ)),
          ch = c1 :: rest ∧
          compileNode fuel g c1 (root :: path) = .ok (o1, k1) ∧
          List.Forall₂ (fun c p => compileNode fuel g c (root :: path) = .ok p)
            rest parts ∧
          cs = k1 ++
            (parts.map (fun p => p.2 ++ [max k minSmoothing])).flatten)) := by
  have hpos : ∀ k : ℚ, 0 < max k minSmoothing :=
    fun k => lt_of_lt_of_le minSmoothing_pos (le_max_right _ _)
  have hp : root ∉ path := by
    intro hmem
    rw [show compileNode (fuel + 1) g root path = .error .cycle by
      simp [compileNode, hmem]] at hok
    exact absurd hok (by simp)
  refine ⟨?_, ?_, ?_, ?_⟩
  · rintro l r k rfl
    refine ⟨hpos k, ?_⟩
    simp only [compileNode, if_neg hp, hfind, bind, Except.bind] at hok
    cases h1 : compileNode fuel g l (root :: path) with
    | error e => rw [h1] at hok; exact absurd hok (by simp)
    | ok p1 =>
      rw [h1] at hok
      cases h2 : compileNode fuel g r (root :: path) with
      | error e => rw [h2] at hok; exact absurd hok (by simp)
      | ok p2 =>
        rw [h2] at hok
        simp at hok
        exact ⟨p1.2, p2.2, by simp [← hok.2]⟩
  · rintro l r k rfl
    refine ⟨hpos k, ?_⟩
    simp only [compileNode, if_neg hp, hfind, bind, Except.bind] at hok
    cases h1 : compileNode fuel g l (root :: path) with
    | error e => rw [h1] at hok; exact absurd hok (by simp)
    | ok p1 =>
      rw [h1] at hok
      cases h2 : compileNode fuel g r (root :: path) with
      | error e => rw [h2] at hok; exact absurd hok (by simp)
      | ok p2 =>
        rw [h2] at hok
        simp at hok
        exact ⟨p1.2, p2.2, by simp [← hok.2]⟩
  · rintro l r k rfl
    refine ⟨hpos k, ?_⟩
    simp only [compileNode, if_neg hp, hfind, bind, Except.bind] at hok
    cases h1 : compileNode fuel g l (root :: path) with
    | error e => rw [h1] at hok; exact absurd hok (by simp)
    | ok p1 =>
      rw [h1] at hok
      cases h2 : compileNode fuel g r (root :: path) with
      | error e => rw [h2] at hok; exact absurd hok (by simp)
      | ok p2 =>
        rw [h2] at hok
        simp at hok
        exact ⟨p1.2, p2.2, by simp [← hok.2]⟩
  · rintro ch k rfl
    refine ⟨hpos k, ?_⟩
    cases ch with
    | nil =>
      left
      simp only [compileNode, if_neg hp, hfind, bind, Except.bind] at hok
      simp at hok
      exact ⟨rfl, hok.2⟩
    | cons c1 rest =>
      right
      simp only [compileNode, if_neg hp, hfind, bind, Except.bind] at hok
      cases h1 : compileNode fuel g c1 (root :: path) with
      | error e => rw [h1] at hok; exact absurd hok (by simp)
      | ok p1 =>
        rw [h1] at hok
        cases h2 : joinFold (fun c2 => compileNode fuel g c2 (root :: path))
            .unionSmooth [max k minSmoothing] rest with
        | error e => rw [h2] at hok; exact absurd hok (by simp)
        | ok p2 =>
          rw [h2] at hok
          simp at hok
          obtain ⟨parts, hf, _, hk⟩ :=
            joinFold_ok_shape _ _ _ rest p2.1 p2.2 (by rw [h2])
          exact ⟨c1, rest, p1.2, p1.1, parts, rfl, by rw [h1], hf,
            by simp [← hok.2, hk]⟩

/-- Claim C7 (witness): the smoothing constant emitted for a concrete
UnionSmooth node of size 1 over two spheres. -/
theorem spec_c7_witness :
    0 < max (1 : ℚ) minSmoothing ∧
    ∃ k1 k2, [(0 : ℚ), 0, 0, 1, 0, 0, 0, 2, max (1 : ℚ) minSmoothing]
      = k1 ++ k2 ++ [max (1 : ℚ) minSmoothing] :=
  (spec_c7 1
    (((Graph.empty.sphere ⟨0, 0, 0⟩ 1).1.sphere ⟨0, 0, 0⟩ 2).1.opUnionSmooth 0 1 1).1
    2 [] [.sphere, .sphere, .unionSmooth]
    [0, 0, 0, 1, 0, 0, 0, 2, max (1 : ℚ) minSmoothing]
    (.unionSmooth 0 1 1) rfl rfl).1 0 1 1 rfl

/-- Claim C10 (amended): whenever the clamp interval is not inverted, that
is chord is at least 2e-3, the public builder biconvex_lens stores the node
with both sagittas clamped to [1e-3, chord / 2] (the raw inputs are not
recorded), and compiling that node emits exactly the clamped constants. -/
theorem spec_c10_amended (g : Graph) (l u chord : ℚ) (h : 2 / 1000 ≤ chord) :
    ∃ lc uc : ℚ,
      clampQ l (1 / 1000) (chord / 2) = some lc ∧
      clampQ u (1 / 1000) (chord / 2) = some uc ∧
      1 / 1000 ≤ lc ∧ lc ≤ chord / 2 ∧ 1 / 1000 ≤ uc ∧ uc ≤ chord / 2 ∧
      Graph.biconvexLens g l u chord
        = some (g.createNode (.biconvexLens lc uc chord)) ∧
      compileF 1 (g.createNode (.biconvexLens lc uc chord)).1
          (g.createNode (.biconvexLens lc uc chord)).2
        = .ok ([.biconvexLens, .endOp], [lc, uc, chord]) := by
  have hlo : (1 / 1000 : ℚ) ≤ chord / 2 := by linarith
  have hniv : ¬ (chord / 2 < 1 / 1000) := not_lt.mpr hlo
  have hclamp : ∀ v : ℚ, ∃ c, clampQ v (1 / 1000) (chord / 2) = some c ∧
      1 / 1000 ≤ c ∧ c ≤ chord / 2 := by
    intro v
    refine ⟨if v < 1 / 1000 then 1 / 1000 else if chord / 2 < v then chord / 2 else v,
      by simp only [clampQ, if_neg hniv], ?_, ?_⟩
    · split
      · exact le_refl _
      · split
        · exact hlo
        · next h1 _ => exact le_of_not_lt h1
    · split
      · exact hlo
      · split
        · exact le_refl _
        · next _ h2 => exact le_of_not_lt h2
  obtain ⟨lc, hlc, hlc1, hlc2⟩ := hclamp l
  obtain ⟨uc, huc, huc1, huc2⟩ := hclamp u
  refine ⟨lc, uc, hlc, huc, hlc1, hlc2, huc1, huc2, ?_, ?_⟩
  · simp only [Graph.biconvexLens, hlc, huc]
  · simp [compileF, compileNode, Graph.createNode, Graph.find, assocFind,
      Graph.idAlloc, Graph.nodes, bind, Except.bind]

/-- Claim C10 (witness for the amended theorem): a concrete call with raw
sagittas 5 and 0 and chord 1. -/
theorem spec_c10_amended_witness :
    ∃ lc uc : ℚ,
      clampQ 5 (1 / 1000) (1 / 2) = some lc ∧
      clampQ 0 (1 / 1000) (1 / 2) = some uc ∧
      1 / 1000 ≤ lc ∧ lc ≤ 1 / 2 ∧ 1 / 1000 ≤ uc ∧ uc ≤ 1 / 2 ∧
      Graph.biconvexLens Graph.empty 5 0 1
        = some (Graph.empty.createNode (.biconvexLens lc uc 1)) ∧
      compileF 1 (Graph.empty.createNode (.biconvexLens lc uc 1)).1
          (Graph.empty.createNode (.biconvexLens lc uc 1)).2
        = .ok ([.biconvexLens, .endOp], [lc, uc, 1]) := by
  have h := spec_c10_amended Graph.empty 5 0 1 (by norm_num)
  obtain ⟨lc, uc, h1, h2, h3⟩ := h
  have e1 : (1 : ℚ) / 2 = 1 / 2 := rfl
  exact ⟨lc, uc, by rw [← e1]; exact h1, by rw [← e1]; exact h2,
    by simpa [e1] using h3.1, by simpa using h3.2.1, by simpa using h3.2.2.1,
    by simpa using h3.2.2.2.1, h3.2.2.2.2.1, h3.2.2.2.2.2⟩


theorem copySteps_fst {SD : Type} (d : SD) (T : ℚ) :
    ∀ n b, (copySteps d T b n).1 = List.replicate (copySteps d T b n).2 d := by
  intro n
  induction n with
  | zero => intro b; simp [copySteps]
  | succ n ih =>
    intro b
    by_cases hb : T < b
    · simp [copySteps, hb, ih (b - 1), List.replicate_succ]
    · simp [copySteps, hb]

theorem copySteps_le {SD : Type} (d : SD) (T : ℚ) :
    ∀ n b, (copySteps d T b n).2 ≤ n := by
  intro n
  induction n with
  | zero => intro b; simp [copySteps]
  | succ n ih =>
    intro b
    by_cases hb : T < b
    · simp [copySteps, hb]; exact ih (b - 1)
    · simp [copySteps, hb]

theorem copySteps_bound {SD : Type} (d : SD) (T : ℚ) :
    ∀ n b j, j < (copySteps d T b n).2 → T < b - (j : ℚ) := by
  intro n
  induction n with
  | zero => intro b j h; simp [copySteps] at h
  | succ n ih =>
    intro b j h
    by_cases hb : T < b
    · simp only [copySteps, if_pos hb] at h
      cases j with
      | zero => simpa using hb
      | succ j =>
        have := ih (b - 1) j (by omega)
        push_cast
        push_cast at this
        linarith
    · simp [copySteps, hb] at h

theorem copySteps_max {SD : Type} (d : SD) (T : ℚ) :
    ∀ n b, (copySteps d T b n).2 < n → ¬ T < b - ((copySteps d T b n).2 : ℚ) := by
  intro n
  induction n with
  | zero => intro b h; omega
  | succ n ih =>
    intro b h
    by_cases hb : T < b
    · simp only [copySteps, if_pos hb] at h ⊢
      have := ih (b - 1) (by omega)
      push_cast at this ⊢
      intro hcon
      exact this (by linarith)
    · simp only [copySteps, if_neg hb] at h ⊢
      simpa using hb

theorem srcFrom_length {SD : Type} (dist : SD → ℚ) (f : Nat → SD) (T : ℚ) :
    ∀ n x, (srcFrom dist f T x n).length = n := by
  intro n
  induction n using Nat.strong_induction_on with
  | _ n ih =>
    intro x
    match n with
    | 0 => simp [srcFrom]
    | n + 1 =>
      have hc := copySteps_le (f x) T n (|dist (f x)| - 1)
      have := ih (n - (copySteps (f x) T (|dist (f x)| - 1) n).2) (by omega)
        (x + 1 + (copySteps (f x) T (|dist (f x)| - 1) n).2)
      simp [srcFrom, this]
      omega

theorem srcFrom_spec {SD : Type} (dist : SD → ℚ) (f : Nat → SD) (T : ℚ) :
    ∀ n x i, i < n →
      ∃ s, (srcFrom dist f T x n)[i]? = some s ∧ x ≤ s ∧ s ≤ x + i ∧
        (∀ m, s ≤ x + m → m ≤ i → (srcFrom dist f T x n)[m]? = some s) ∧
        (s < x + i → T < |dist (f s)| - (((x + i : Nat) : ℚ) - (s : ℚ))) := by
  intro n
  induction n using Nat.strong_induction_on with
  | _ n ih =>
    intro x i hi
    match n, hi with
    | n + 1, hi =>
      set c := (copySteps (f x) T (|dist (f x)| - 1) n).2 with hcdef
      have hc_le : c ≤ n := copySteps_le _ _ _ _
      have hgetin : ∀ m, m ≤ c → (srcFrom dist f T x (n + 1))[m]? = some x := by
        intro m hm
        rw [srcFrom]
        match m with
        | 0 => simp
        | m + 1 =>
          have hmc : m < c := by omega
          simp only [List.getElem?_cons_succ, List.getElem?_append,
            List.length_replicate, ← hcdef, if_pos hmc,
            List.getElem?_replicate]
      by_cases hcase : i ≤ c
      · refine ⟨x, hgetin i hcase, le_refl x, by omega, ?_, ?_⟩
        · intro m _ hmi
          exact hgetin m (by omega)
        · intro hlt
          have hi1 : 1 ≤ i := by omega
          have hb := copySteps_bound (f x) T n (|dist (f x)| - 1) (i - 1)
            (by omega)
          have : ((i - 1 : Nat) : ℚ) = (i : ℚ) - 1 := by
            push_cast [Nat.cast_sub hi1]
            ring
          rw [this] at hb
          push_cast
          linarith
      · have hgetout : ∀ m, c < m → m ≤ n →
            (srcFrom dist f T x (n + 1))[m]? =
              (srcFrom dist f T (x + 1 + c) (n - c))[m - 1 - c]? := by
          intro m hm _
          rw [srcFrom]
          match m, hm with
          | m + 1, hm =>
            have hmc : ¬ m < c := by omega
            have harith : m + 1 - 1 - c = m - c := by omega
            simp only [List.getElem?_cons_succ, List.getElem?_append,
              List.length_replicate, ← hcdef, if_neg hmc, harith]
        obtain ⟨s, hs_get, hs_lo, hs_hi, hs_run, hs_bound⟩ :=
          ih (n - c) (by omega) (x + 1 + c) (i - 1 - c) (by omega)
        have hxi : x + 1 + c + (i - 1 - c) = x + i := by omega
        refine ⟨s, ?_, by omega, by omega, ?_, ?_⟩
        · rw [hgetout i (by omega) (by omega)]; exact hs_get
        · intro m hsm hmi
          have hm_lo : c < m := by omega
          rw [hgetout m hm_lo (by omega)]
          exact hs_run (m - 1 - c) (by omega) (by omega)
        · intro hlt
          have := hs_bound (by omega)
          rw [hxi] at this
          exact this

theorem fillFrom_eq_map {SD : Type} (dist : SD → ℚ) (f : Nat → SD) (T : ℚ) :
    ∀ n x, fillFrom dist f T x n = (srcFrom dist f T x n).map f := by
  intro n
  induction n using Nat.strong_induction_on with
  | _ n ih =>
    intro x
    match n with
    | 0 => simp [fillFrom, srcFrom]
    | n + 1 =>
      have hc_le : (copySteps (f x) T (|dist (f x)| - 1) n).2 ≤ n :=
        copySteps_le _ _ _ _
      rw [fillFrom, srcFrom]
      simp only [List.map_cons, List.map_append, List.map_replicate]
      rw [ih (n - (copySteps (f x) T (|dist (f x)| - 1) n).2) (by omega),
        copySteps_fst]

theorem flatMap_const_length_get {α β : Type} (F : β → List α) (K : Nat)
    (hK : ∀ b, (F b).length = K) :
    ∀ (bs : List β) (z j b), bs[z]? = some b → j < K →
      (bs.flatMap F)[K * z + j]? = (F b)[j]? := by
  intro bs
  induction bs with
  | nil => intro z j b hz; simp at hz
  | cons hd tl ih =>
    intro z j b hz hj
    match z with
    | 0 =>
      simp at hz
      subst hz
      simp only [List.flatMap_cons, Nat.mul_zero, Nat.zero_add]
      rw [List.getElem?_append, if_pos (by rw [hK]; exact hj)]
    | z + 1 =>
      simp only [List.getElem?_cons_succ] at hz
      simp only [List.flatMap_cons]
      rw [List.getElem?_append,
        if_neg (by rw [hK]; nlinarith [Nat.mul_le_mul_right z (Nat.le_refl K)])]
      have harith : K * (z + 1) + j - (F hd).length = K * z + j := by
        rw [hK]; ring_nf; omega
      rw [harith]
      exact ih z j b hz hj

theorem setTruncatedSpan_length {SD : Type} (dist : SD → ℚ) (f : Nat → SD)
    (T : ℚ) (w : Nat) : (setTruncatedSpan dist f T w).length = w := by
  rw [setTruncatedSpan, fillFrom_eq_map, List.length_map, srcFrom_length]

theorem setTruncatedSync_get {SD : Type} (dist : SD → ℚ) (f : Nat → Nat → Nat → SD)
    (T : ℚ) (w h d : Nat) (x y z : Nat) (hx : x < w) (hy : y < h) (hz : z < d) :
    (setTruncatedSync dist f T w h d)[x + w * (y + h * z)]? =
      (setTruncatedSpan dist (fun x => f x y z) T w)[x]? := by
  have hKin : ∀ y0 : Nat, (setTruncatedSpan dist (fun x => f x y0 z) T w).length = w :=
    fun y0 => setTruncatedSpan_length ..
  have hKout : ∀ z0 : Nat,
      ((List.range h).flatMap fun y0 =>
        setTruncatedSpan dist (fun x => f x y0 z0) T w).length = h * w := by
    intro z0
    simp only [List.length_flatMap, Function.comp_def]
    rw [List.map_congr_left (g := fun _ => w)
      (fun y0 _ => setTruncatedSpan_length ..)]
    simp [List.map_const, mul_comm]
  have harith : x + w * (y + h * z) = h * w * z + (w * y + x) := by ring
  rw [setTruncatedSync, harith,
    flatMap_const_length_get _ (h * w) hKout (List.range d) z (w * y + x) z
      (by simp [List.getElem?_range, hz]) (by nlinarith),
    flatMap_const_length_get _ w hKin (List.range h) y x y
      (by simp [List.getElem?_range, hy]) hx]

/-- Claim C2: after set_truncated_sync (and set_truncated, which calls
it), for a field whose distance is 1-Lipschitz along x in grid units,
every cell within the truncation band holds exactly the evaluated value,
and every cell holds the value of the most recently evaluated cell of its
x-span: the source index s of cell x satisfies s ≤ x, is itself evaluated
(its own source), no cell between s and x is evaluated, and cells in the
band are their own source. -/
theorem spec_c2 {SD : Type} (dist : SD → ℚ) (f : Nat → Nat → Nat → SD) (T : ℚ)
    (w h d : Nat) (_hT : 0 ≤ T)
    (hLip : ∀ y z x x', |dist (f x y z) - dist (f x' y z)| ≤ |(x : ℚ) - (x' : ℚ)|)
    (x y z : Nat) (hx : x < w) (hy : y < h) (hz : z < d) :
    ∃ s, (spanSrcs dist (fun x => f x y z) T w)[x]? = some s ∧
      (setTruncatedSync dist f T w h d)[x + w * (y + h * z)]? = some (f s y z) ∧
      s ≤ x ∧
      (|dist (f x y z)| ≤ T → s = x) ∧
      (spanSrcs dist (fun x => f x y z) T w)[s]? = some s ∧
      (∀ m, s ≤ m → m ≤ x → (spanSrcs dist (fun x => f x y z) T w)[m]? = some s) := by
  obtain ⟨s, hs_get, _, hs_hi, hs_run, hs_bound⟩ :=
    srcFrom_spec dist (fun x => f x y z) T w 0 x hx
  simp only [Nat.zero_add] at hs_hi hs_run hs_bound
  have hrun : ∀ m, s ≤ m → m ≤ x →
      (spanSrcs dist (fun x => f x y z) T w)[m]? = some s := by
    intro m h1 h2
    exact hs_run m (by omega) h2
  refine ⟨s, hs_get, ?_, hs_hi, ?_, hrun s (le_refl s) hs_hi, hrun⟩
  · rw [setTruncatedSync_get dist f T w h d x y z hx hy hz, setTruncatedSpan,
      fillFrom_eq_map, List.getElem?_map]
    simp [hs_get]
  · intro hband
    by_contra hne
    have hlt : s < x := by omega
    have hb := hs_bound hlt
    have hl := hLip y z s x
    have habs : |dist (f s y z)| - |dist (f x y z)| ≤ |(s : ℚ) - (x : ℚ)| :=
      le_trans (abs_sub_abs_le_abs_sub _ _) hl
    have hsx : |(s : ℚ) - (x : ℚ)| = (x : ℚ) - (s : ℚ) := by
      rw [abs_sub_comm, abs_of_nonneg]
      simp
      exact_mod_cast le_of_lt hlt
    rw [hsx] at habs
    push_cast at hb
    linarith

/-- Claim C2 (witness): the constant-zero field on a 1-cell grid with
truncation distance 0. -/
theorem spec_c2_witness :
    ∃ s, (spanSrcs (fun q : ℚ => q) (fun _ => (0 : ℚ)) 0 1)[0]? = some s ∧
      (setTruncatedSync (fun q : ℚ => q) (fun _ _ _ => (0 : ℚ)) 0 1 1 1)[0 + 1 * (0 + 1 * 0)]?
        = some (0 : ℚ) ∧
      s ≤ 0 ∧
      (|(0 : ℚ)| ≤ 0 → s = 0) ∧
      (spanSrcs (fun q : ℚ => q) (fun _ => (0 : ℚ)) 0 1)[s]? = some s ∧
      (∀ m, s ≤ m → m ≤ 0 →
        (spanSrcs (fun q : ℚ => q) (fun _ => (0 : ℚ)) 0 1)[m]? = some s) :=
  spec_c2 (fun q : ℚ => q) (fun _ _ _ => (0 : ℚ)) 0 1 1 1 (le_refl 0)
    (by intro y z x x2; simp) 0 0 0 Nat.one_pos Nat.one_pos Nat.one_pos


/-- The trace loop returns the first hit among its evaluated samples, or
else the fold of the closest-sample tracker over them. -/
theorem traceLoop_char (sd : Vec3 → ℚ) (ray : ℚ → Vec3) (c tHi : ℚ) :
    ∀ n t acc,
      traceLoop sd ray c tHi n t acc =
        match (traceSamples sd ray c tHi n t).find? isHitSample with
        | some hh => .hitAt hh
        | none => missOf ((traceSamples sd ray c tHi n t).foldl accStep acc) := by
  intro n
  induction n with
  | zero => intro t acc; simp [traceLoop, traceSamples]
  | succ n ih =>
    intro t acc
    by_cases hhit : sd (ray t) ≤ 1 / 1000 * t
    · have hs : isHitSample ⟨t, ray t, sd (ray t)⟩ = true := by
        simp only [isHitSample, decide_eq_true_eq]
        exact hhit
      simp only [traceLoop, traceSamples, if_pos hhit]
      rw [List.find?_cons_of_pos _ hs]
    · have hs : isHitSample ⟨t, ray t, sd (ray t)⟩ = false := by
        simp only [isHitSample, decide_eq_false_iff_not]
        exact hhit
      by_cases hend : tHi ≤ t + sd (ray t) * c
      · simp only [traceLoop, traceSamples, if_neg hhit, if_pos hend]
        rw [List.find?_cons_of_neg _ (by simp [hs])]
        simp [accStep]
      · simp only [traceLoop, traceSamples, if_neg hhit, if_neg hend]
        rw [ih, List.find?_cons_of_neg _ (by simp [hs])]
        simp [accStep]

theorem accStep_none_iff (acc : Option HitInfo) (s : HitInfo) :
    accStep acc s = none ↔ acc = none ∧ ¬ 0 < s.t := by
  cases acc with
  | none =>
    by_cases hp : 0 < s.t <;> simp [accStep, accUpdate, hp]
  | some b =>
    by_cases hp : 0 < s.t ∧ s.dist / s.t < b.dist / b.t <;>
      simp [accStep, accUpdate, hp]

theorem foldAcc_none_iff :
    ∀ (l : List HitInfo) (acc : Option HitInfo),
      l.foldl accStep acc = none ↔ acc = none ∧ ∀ s ∈ l, ¬ 0 < s.t := by
  intro l
  induction l with
  | nil => intro acc; simp
  | cons s l ih =>
    intro acc
    rw [List.foldl_cons, ih, accStep_none_iff]
    constructor
    · rintro ⟨⟨h1, h2⟩, h3⟩
      refine ⟨h1, ?_⟩
      intro s2 hs2
      rcases List.mem_cons.mp hs2 with rfl | hmem
      · exact h2
      · exact h3 s2 hmem
    · rintro ⟨h1, h2⟩
      exact ⟨⟨h1, h2 s (by simp)⟩, fun s2 hs2 => h2 s2 (by simp [hs2])⟩

theorem foldAcc_some_spec :
    ∀ (l : List HitInfo) (acc : Option HitInfo) (hh : HitInfo),
      l.foldl accStep acc = some hh →
      (∀ s ∈ l, 0 < s.t → hh.dist / hh.t ≤ s.dist / s.t) ∧
      (∀ b, acc = some b → hh.dist / hh.t ≤ b.dist / b.t) ∧
      ((∃ b, acc = some b ∧ hh = b) ∨ (hh ∈ l ∧ 0 < hh.t)) := by
  intro l
  induction l with
  | nil =>
    intro acc hh h
    simp at h
    exact ⟨by simp, fun b hb => by rw [h] at hb; cases hb; exact le_refl _,
      Or.inl ⟨hh, h, rfl⟩⟩
  | cons s l ih =>
    intro acc hh h
    rw [List.foldl_cons] at h
    obtain ⟨ih1, ih2, ih3⟩ := ih (accStep acc s) hh h
    cases acc with
    | none =>
      by_cases hp : 0 < s.t
      · have hstep : accStep none s = some s := by simp [accStep, accUpdate, hp]
        rw [hstep] at ih2 ih3
        refine ⟨?_, by simp, ?_⟩
        · intro s2 hs2 hpos
          rcases List.mem_cons.mp hs2 with rfl | hmem
          · exact ih2 s2 rfl
          · exact ih1 s2 hmem hpos
        · rcases ih3 with ⟨b, hb, rfl⟩ | ⟨hmem, hpos⟩
          · cases hb; exact Or.inr ⟨by simp, hp⟩
          · exact Or.inr ⟨by simp [hmem], hpos⟩
      · have hstep : accStep none s = none := by simp [accStep, accUpdate, hp]
        rw [hstep] at ih2 ih3
        refine ⟨?_, by simp, ?_⟩
        · intro s2 hs2 hpos
          rcases List.mem_cons.mp hs2 with rfl | hmem
          · exact absurd hpos hp
          · exact ih1 s2 hmem hpos
        · rcases ih3 with ⟨b, hb, _⟩ | ⟨hmem, hpos⟩
          · exact absurd hb (by simp)
          · exact Or.inr ⟨by simp [hmem], hpos⟩
    | some b =>
      by_cases hp : 0 < s.t ∧ s.dist / s.t < b.dist / b.t
      · have hstep : accStep (some b) s = some s := by simp [accStep, accUpdate, hp]
        rw [hstep] at ih2 ih3
        have hhs : hh.dist / hh.t ≤ s.dist / s.t := ih2 s rfl
        refine ⟨?_, ?_, ?_⟩
        · intro s2 hs2 hpos
          rcases List.mem_cons.mp hs2 with rfl | hmem
          · exact hhs
          · exact ih1 s2 hmem hpos
        · intro b2 hb2
          cases hb2
          exact le_trans hhs (le_of_lt hp.2)
        · rcases ih3 with ⟨b2, hb2, rfl⟩ | ⟨hmem, hpos⟩
          · cases hb2; exact Or.inr ⟨by simp, hp.1⟩
          · exact Or.inr ⟨by simp [hmem], hpos⟩
      · have hstep : accStep (some b) s = some b := by simp [accStep, accUpdate, hp]
        rw [hstep] at ih2 ih3
        have hhb : hh.dist / hh.t ≤ b.dist / b.t := ih2 b rfl
        refine ⟨?_, ?_, ?_⟩
        · intro s2 hs2 hpos
          rcases List.mem_cons.mp hs2 with rfl | hmem
          · rcases not_and_or.mp hp with hc | hc
            · exact absurd hpos hc
            · exact le_trans hhb (le_of_not_lt hc)
          · exact ih1 s2 hmem hpos
        · intro b2 hb2
          cases hb2
          exact hhb
        · rcases ih3 with ⟨b2, hb2, rfl⟩ | ⟨hmem, hpos⟩
          · cases hb2; exact Or.inl ⟨hh, rfl, rfl⟩
          · exact Or.inr ⟨by simp [hmem], hpos⟩

/-- Claim C5: trace hits exactly when one of its evaluated samples
satisfies the hit test dist ≤ 0.001 t, and then returns the first such
sample (the samples list enumerates the parameters visited from t_lo,
advancing by dist times the step constant, stopping at t_hi or after
max_steps evaluations); when no sample hits, it returns a sample with
positive t minimizing dist / t over all positive-t samples, or the miss
value when no sample has positive t. -/
theorem spec_c5 (sd : Vec3 → ℚ) (ray : ℚ → Vec3) (tLo tHi : ℚ)
    (opt : TraceOptions) :
    ((∃ hh, trace sd ray tLo tHi opt = .hitAt hh) ↔
      ∃ s ∈ traceSamples sd ray opt.stepConstant tHi opt.maxSteps tLo,
        s.dist ≤ 1 / 1000 * s.t) ∧
    (∀ hh, trace sd ray tLo tHi opt = .hitAt hh ↔
      (traceSamples sd ray opt.stepConstant tHi opt.maxSteps tLo).find? isHitSample
        = some hh) ∧
    (∀ hh, trace sd ray tLo tHi opt = .missAt hh →
      (traceSamples sd ray opt.stepConstant tHi opt.maxSteps tLo).find? isHitSample
          = none ∧
      hh ∈ traceSamples sd ray opt.stepConstant tHi opt.maxSteps tLo ∧ 0 < hh.t ∧
      ∀ s ∈ traceSamples sd ray opt.stepConstant tHi opt.maxSteps tLo,
        0 < s.t → hh.dist / hh.t ≤ s.dist / s.t) ∧
    (trace sd ray tLo tHi opt = .missNone ↔
      (traceSamples sd ray opt.stepConstant tHi opt.maxSteps tLo).find? isHitSample
          = none ∧
      ∀ s ∈ traceSamples sd ray opt.stepConstant tHi opt.maxSteps tLo, ¬ 0 < s.t) := by
  have hchar := traceLoop_char sd ray opt.stepConstant tHi opt.maxSteps tLo none
  rw [show traceLoop sd ray opt.stepConstant tHi opt.maxSteps tLo none
    = trace sd ray tLo tHi opt from rfl] at hchar
  set S := traceSamples sd ray opt.stepConstant tHi opt.maxSteps tLo with hS
  have hiff2 : ∀ hh, trace sd ray tLo tHi opt = .hitAt hh ↔
      S.find? isHitSample = some hh := by
    intro hh
    constructor
    · intro h
      rw [h] at hchar
      cases hfind : S.find? isHitSample with
      | some h2 => rw [hfind] at hchar; cases hchar; rfl
      | none =>
        rw [hfind] at hchar
        cases hfold : S.foldl accStep none with
        | none => rw [hfold] at hchar; exact absurd hchar (by simp [missOf])
        | some h2 => rw [hfold] at hchar; exact absurd hchar (by simp [missOf])
    · intro h
      rw [hchar, h]
  refine ⟨?_, hiff2, ?_, ?_⟩
  · constructor
    · rintro ⟨hh, hhit⟩
      have hfind := (hiff2 hh).mp hhit
      have := List.find?_some hfind
      exact ⟨hh, List.mem_of_find?_eq_some hfind, by
        simpa [isHitSample, decide_eq_true_eq] using this⟩
    · rintro ⟨s, hmem, hs⟩
      have : S.find? isHitSample ≠ none := by
        intro hnone
        have := List.find?_eq_none.mp hnone s hmem
        simp only [isHitSample, decide_eq_true_eq] at this
        exact this hs
      cases hfind : S.find? isHitSample with
      | none => exact absurd hfind this
      | some hh => exact ⟨hh, (hiff2 hh).mpr hfind⟩
  · intro hh hmiss
    rw [hmiss] at hchar
    cases hfind : S.find? isHitSample with
    | some h2 => rw [hfind] at hchar; exact absurd hchar (by simp)
    | none =>
      rw [hfind] at hchar
      cases hfold : S.foldl accStep none with
      | none => rw [hfold] at hchar; exact absurd hchar (by simp [missOf])
      | some h2 =>
        rw [hfold] at hchar
        simp only [missOf] at hchar
        cases hchar
        obtain ⟨h1, _, h3⟩ := foldAcc_some_spec S none hh hfold
        rcases h3 with ⟨b, hb, _⟩ | ⟨hmem, hpos⟩
        · exact absurd hb (by simp)
        · exact ⟨rfl, hmem, hpos, h1⟩
  · constructor
    · intro hmiss
      rw [hmiss] at hchar
      cases hfind : S.find? isHitSample with
      | some h2 => rw [hfind] at hchar; exact absurd hchar (by simp)
      | none =>
        rw [hfind] at hchar
        cases hfold : S.foldl accStep none with
        | some h2 => rw [hfold] at hchar; exact absurd hchar (by simp [missOf])
        | none =>
          have := (foldAcc_none_iff S none).mp hfold
          exact ⟨rfl, this.2⟩
    · rintro ⟨hfind, hall⟩
      rw [hchar, hfind,
        (foldAcc_none_iff S none).mpr ⟨rfl, hall⟩]
      rfl

theorem bind_stable {α β : Type} {e e2 : Except CompileErr α}
    {k k2 : α → Except CompileErr β}
    (he : e ≠ .error .fuel → e2 = e)
    (hk : ∀ a, e = .ok a → k a ≠ .error .fuel → k2 a = k a)
    (hne : e.bind k ≠ .error .fuel) : e2.bind k2 = e.bind k := by
  cases e with
  | error e0 =>
    have : e0 ≠ .fuel := by
      intro h
      exact hne (by simp [Except.bind, h])
    rw [he (by simp [this])]
    simp [Except.bind]
  | ok a =>
    have hka : k a ≠ .error .fuel := by
      simpa [Except.bind] using hne
    rw [he (by simp)]
    simp [Except.bind, hk a rfl hka]

theorem joinFold_stable {jop : Opcode} {jks : List ℚ}
    {step step2 : Nat → Except CompileErr (List Opcode × List ℚ)} :
    ∀ {chs : List Nat},
    (∀ c ∈ chs, step c ≠ .error .fuel → step2 c = step c) →
    joinFold step jop jks chs ≠ .error .fuel →
    joinFold step2 jop jks chs = joinFold step jop jks chs := by
  intro chs
  induction chs with
  | nil => intro _ _; rfl
  | cons c cs ih =>
    intro hstep hne
    simp only [joinFold] at hne ⊢
    refine bind_stable (fun h => hstep c (by simp) h) ?_ hne
    rintro ⟨o, k⟩ h1 h2
    refine bind_stable (fun h => ih (fun c2 hc2 => hstep c2 (by simp [hc2])) h) ?_ h2
    rintro ⟨o2, k2⟩ h3 h4
    rfl

/-- Fuel stabilisation: once compile_node no longer runs out of fuel, more
fuel does not change its result. -/
theorem compileNode_stable :
    ∀ (f : Nat) (g : Graph) (root : Nat) (path : List Nat),
    compileNode f g root path ≠ .error .fuel →
    compileNode (f + 1) g root path = compileNode f g root path := by
  intro f
  induction f with
  | zero => intro g root path hne; exact absurd rfl hne
  | succ f ih =>
    intro g root path hne
    by_cases hp : root ∈ path
    · simp [compileNode, hp]
    · cases hfind : g.find root with
      | none => simp [compileNode, hp, hfind]
      | some node =>
        have hih : ∀ c p, compileNode f g c p ≠ .error .fuel →
            compileNode (f + 1) g c p = compileNode f g c p := fun c p => ih g c p
        cases node with
        | plane p0 => simp [compileNode, hp, hfind]
        | sphere c r => simp [compileNode, hp, hfind]
        | capsule p0 p1 r => simp [compileNode, hp, hfind]
        | roundedCylinder a b c => simp [compileNode, hp, hfind]
        | taperedCapsule p0 p1 r0 r1 => simp [compileNode, hp, hfind]
        | cone a b => simp [compileNode, hp, hfind]
        | roundedBox a b => simp [compileNode, hp, hfind]
        | torus a b => simp [compileNode, hp, hfind]
        | torusSector a b c d => simp [compileNode, hp, hfind]
        | biconvexLens a b c => simp [compileNode, hp, hfind]
        | material child m =>
          simp only [compileNode, if_neg hp, hfind] at hne ⊢
          refine bind_stable (hih child _) ?_ hne
          rintro ⟨o, k⟩ _ _
          rfl
        | union l r =>
          simp only [compileNode, if_neg hp, hfind] at hne ⊢
          refine bind_stable (hih l _) ?_ hne
          rintro ⟨o, k⟩ _ h2
          refine bind_stable (hih r _) ?_ h2
          rintro ⟨o2, k2⟩ _ _
          rfl
        | unionSmooth l r s =>
          simp only [compileNode, if_neg hp, hfind] at hne ⊢
          refine bind_stable (hih l _) ?_ hne
          rintro ⟨o, k⟩ _ h2
          refine bind_stable (hih r _) ?_ h2
          rintro ⟨o2, k2⟩ _ _
          rfl
        | subtract l r =>
          simp only [compileNode, if_neg hp, hfind] at hne ⊢
          refine bind_stable (hih l _) ?_ hne
          rintro ⟨o, k⟩ _ h2
          refine bind_stable (hih r _) ?_ h2
          rintro ⟨o2, k2⟩ _ _
          rfl
        | subtractSmooth l r s =>
          simp only [compileNode, if_neg hp, hfind] at hne ⊢
          refine bind_stable (hih l _) ?_ hne
          rintro ⟨o, k⟩ _ h2
          refine bind_stable (hih r _) ?_ h2
          rintro ⟨o2, k2⟩ _ _
          rfl
        | intersect l r =>
          simp only [compileNode, if_neg hp, hfind] at hne ⊢
          refine bind_stable (hih l _) ?_ hne
          rintro ⟨o, k⟩ _ h2
          refine bind_stable (hih r _) ?_ h2
          rintro ⟨o2, k2⟩ _ _
          rfl
        | intersectSmooth l r s =>
          simp only [compileNode, if_neg hp, hfind] at hne ⊢
          refine bind_stable (hih l _) ?_ hne
          rintro ⟨o, k⟩ _ h2
          refine bind_stable (hih r _) ?_ h2
          rintro ⟨o2, k2⟩ _ _
          rfl
        | unionMulti children =>
          cases children with
          | nil => simp [compileNode, hp, hfind]
          | cons c cs =>
            simp only [compileNode, if_neg hp, hfind] at hne ⊢
            refine bind_stable (hih c _) ?_ hne
            rintro ⟨o, k⟩ _ h2
            refine bind_stable
              (joinFold_stable (fun c2 _ => hih c2 _)) ?_ h2
            rintro ⟨o2, k2⟩ _ _
            rfl
        | unionMultiSmooth children s =>
          cases children with
          | nil => simp [compileNode, hp, hfind]
          | cons c cs =>
            simp only [compileNode, if_neg hp, hfind] at hne ⊢
            refine bind_stable (hih c _) ?_ hne
            rintro ⟨o, k⟩ _ h2
            refine bind_stable
              (joinFold_stable (fun c2 _ => hih c2 _)) ?_ h2
            rintro ⟨o2, k2⟩ _ _
            rfl
        | translate t child =>
          simp only [compileNode, if_neg hp, hfind] at hne ⊢
          refine bind_stable (hih child _) ?_ hne
          rintro ⟨o, k⟩ _ _
          rfl
        | rotate q child =>
          simp only [compileNode, if_neg hp, hfind] at hne ⊢
          refine bind_stable (hih child _) ?_ hne
          rintro ⟨o, k⟩ _ _
          rfl
        | scale s child =>
          simp only [compileNode, if_neg hp, hfind] at hne ⊢
          refine bind_stable (hih child _) ?_ hne
          rintro ⟨o, k⟩ _ _
          rfl
        | graphNode r sub =>
          simp only [compileNode, if_neg hp, hfind] at hne ⊢
          exact ih sub r [] hne

/-- Fuel stabilisation, iterated to any larger fuel. -/
theorem compileNode_le_stable {f f2 : Nat} (hle : f ≤ f2)
    (g : Graph) (root : Nat) (path : List Nat)
    (hne : compileNode f g root path ≠ .error .fuel) :
    compileNode f2 g root path = compileNode f g root path := by
  induction f2, hle using Nat.le_induction with
  | base => rfl
  | succ f2 hle ih =>
    rw [← ih] at hne ⊢
    exact compileNode_stable f2 g root path hne

theorem mem_keys_find : ∀ (ns : List (Nat × Node)) (r : Nat),
    r ∈ keysOf ns → ∃ n, assocFind ns r = some n := by
  intro ns
  induction ns with
  | nil => intro r h; simp [keysOf] at h
  | cons kn rest ih =>
    intro r h
    by_cases hk : kn.1 = r
    · exact ⟨kn.2, by simp [assocFind, hk]⟩
    · have : r ∈ keysOf rest := by
        simp [keysOf] at h ⊢
        rcases h with h | h
        · exact absurd h.symm hk
        · exact h
      obtain ⟨n, hn⟩ := ih r this
      exact ⟨n, by
        cases kn with
        | mk k v => simp only [assocFind, if_neg hk]; exact hn⟩

theorem find_closed : ∀ (ns : List (Nat × Node)) (ks : List Nat) (r : Nat) (n : Node),
    listClosedB ks ns = true → assocFind ns r = some n → nodeClosedB ks n = true := by
  intro ns
  induction ns with
  | nil => intro ks r n _ h; simp [assocFind] at h
  | cons kn rest ih =>
    intro ks r n hcl hfind
    cases kn with
    | mk k v =>
      simp only [listClosedB, Bool.and_eq_true] at hcl
      by_cases hk : k = r
      · simp only [assocFind, if_pos hk] at hfind
        cases hfind
        exact hcl.1
      · simp only [assocFind, if_neg hk] at hfind
        exact ih ks r n hcl.2 hfind

theorem find_size_lt : ∀ (ns : List (Nat × Node)) (r : Nat) (n : Node),
    assocFind ns r = some n → sizeOf n < sizeOf ns := by
  intro ns
  induction ns with
  | nil => intro r n h; simp [assocFind] at h
  | cons kn rest ih =>
    intro r n hfind
    cases kn with
    | mk k v =>
      by_cases hk : k = r
      · simp only [assocFind, if_pos hk] at hfind
        cases hfind
        simp
        omega
      · simp only [assocFind, if_neg hk] at hfind
        have := ih r n hfind
        simp
        omega

theorem graph_sub_size {g : Graph} {r r2 : Nat} {sub : Graph}
    (h : g.find r = some (.graphNode r2 sub)) : sizeOf sub < sizeOf g := by
  cases g with
  | mk a ns =>
    have h1 : sizeOf (Node.graphNode r2 sub) < sizeOf ns :=
      find_size_lt ns r _ h
    have h2 : sizeOf sub < sizeOf (Node.graphNode r2 sub) := by
      simp only [Node.graphNode.sizeOf_spec]
      omega
    have h3 : sizeOf (Graph.mk a ns) = 1 + sizeOf a + sizeOf ns := by simp
    omega

theorem filter_mono_length {p q : Nat → Bool}
    (himp : ∀ x, p x = true → q x = true) :
    ∀ l : List Nat, (l.filter p).length ≤ (l.filter q).length := by
  intro l
  induction l with
  | nil => simp
  | cons x xs ih =>
    by_cases hx : p x = true
    · rw [List.filter_cons_of_pos hx, List.filter_cons_of_pos (himp x hx)]
      simpa using ih
    · rw [List.filter_cons_of_neg (by simp [hx])]
      by_cases hq : q x = true
      · rw [List.filter_cons_of_pos hq]
        exact le_trans ih (by simp)
      · rw [List.filter_cons_of_neg (by simp [hq])]
        exact ih

theorem filter_out_lt {root : Nat} {path : List Nat}
    (hnp : root ∉ path) :
    ∀ l : List Nat, root ∈ l →
    (l.filter (fun k => decide (k ∉ root :: path))).length <
      (l.filter (fun k => decide (k ∉ path))).length := by
  have hmono : ∀ l : List Nat,
      (l.filter (fun k => decide (k ∉ root :: path))).length ≤
        (l.filter (fun k => decide (k ∉ path))).length := by
    refine filter_mono_length ?_
    intro x hx
    simp at hx ⊢
    exact hx.2
  intro l
  induction l with
  | nil => intro h; simp at h
  | cons x xs ih =>
    intro hmem
    by_cases hx : x = root
    · subst hx
      rw [List.filter_cons_of_neg (by simp), List.filter_cons_of_pos (by simpa)]
      exact Nat.lt_succ_of_le (hmono xs)
    · have hmem2 : root ∈ xs := by
        rcases List.mem_cons.mp hmem with h | h
        · exact absurd h.symm hx
        · exact h
      by_cases hxp : x ∈ path
      · rw [List.filter_cons_of_neg (by simp [hxp]),
          List.filter_cons_of_neg (by simp [hxp])]
        exact ih hmem2
      · rw [List.filter_cons_of_pos (by simp [hxp, hx]),
          List.filter_cons_of_pos (by simpa)]
        exact Nat.succ_lt_succ (ih hmem2)

theorem bind_good {α β : Type} {e : Except CompileErr α}
    {k : α → Except CompileErr β}
    (he : e ≠ .error .fuel ∧ e ≠ .error .missing)
    (hk : ∀ a, e = .ok a → k a ≠ .error .fuel ∧ k a ≠ .error .missing) :
    e.bind k ≠ .error .fuel ∧ e.bind k ≠ .error .missing := by
  cases e with
  | error e0 =>
    refine ⟨?_, ?_⟩ <;> simp [Except.bind] <;> intro hcon <;>
      [exact he.1 (by rw [hcon]); exact he.2 (by rw [hcon])]
  | ok a =>
    have := hk a rfl
    simpa [Except.bind] using this

theorem joinFold_good {jop : Opcode} {jks : List ℚ}
    {step : Nat → Except CompileErr (List Opcode × List ℚ)} :
    ∀ {chs : List Nat},
    (∀ c ∈ chs, step c ≠ .error .fuel ∧ step c ≠ .error .missing) →
    joinFold step jop jks chs ≠ .error .fuel ∧
      joinFold step jop jks chs ≠ .error .missing := by
  intro chs
  induction chs with
  | nil => intro _; simp [joinFold]
  | cons c cs ih =>
    intro hstep
    simp only [joinFold]
    refine bind_good (hstep c (by simp)) ?_
    rintro ⟨o, k⟩ _
    refine bind_good (ih (fun c2 hc2 => hstep c2 (by simp [hc2]))) ?_
    rintro ⟨o2, k2⟩ _
    simp

theorem list_fuel_uniform (g : Graph) (p : List Nat) :
    ∀ (chs : List Nat),
    (∀ c ∈ chs, ∃ f, compileNode f g c p ≠ .error .fuel ∧
      compileNode f g c p ≠ .error .missing) →
    ∃ F, ∀ c ∈ chs, compileNode F g c p ≠ .error .fuel ∧
      compileNode F g c p ≠ .error .missing := by
  intro chs
  induction chs with
  | nil => intro _; exact ⟨0, by simp⟩
  | cons c cs ih =>
    intro h
    obtain ⟨f1, h1⟩ := h c (by simp)
    obtain ⟨F, hF⟩ := ih (fun c2 hc2 => h c2 (by simp [hc2]))
    refine ⟨max f1 F, ?_⟩
    intro c2 hc2
    rcases List.mem_cons.mp hc2 with rfl | hmem
    · rw [compileNode_le_stable (le_max_left f1 F) g c2 p h1.1]
      exact h1
    · rw [compileNode_le_stable (le_max_right f1 F) g c2 p (hF c2 hmem).1]
      exact hF c2 hmem

/-- Sufficient fuel exists: on a hereditarily closed graph, compile_node
with enough fuel never runs out of fuel and never hits the missing-node
unwrap; its result is a program or the cycle assertion. -/
theorem compileNode_enough :
    ∀ (S : Nat) (g : Graph), sizeOf g ≤ S → graphClosedB g = true →
    ∀ (K : Nat) (root : Nat) (path : List Nat),
      ((Graph.keys g).filter (fun k => decide (k ∉ path))).length ≤ K →
      root ∈ Graph.keys g →
      ∃ f, compileNode f g root path ≠ .error .fuel ∧
        compileNode f g root path ≠ .error .missing := by
  intro S
  induction S using Nat.strong_induction_on with
  | _ S ihS =>
    intro g hgS hgclosed K
    induction K using Nat.strong_induction_on with
    | _ K ihK =>
      intro root path hK hroot
      by_cases hp : root ∈ path
      · exact ⟨1, by simp [compileNode, hp], by simp [compileNode, hp]⟩
      · obtain ⟨node, hfind0⟩ := mem_keys_find _ _ hroot
        have hfind : g.find root = some node := hfind0
        have hcl : nodeClosedB (Graph.keys g) node = true := by
          cases g with
          | mk a ns =>
            exact find_closed ns _ root node (by simpa [graphClosedB] using hgclosed)
              hfind0
        have hchild : ∀ c, c ∈ Graph.keys g →
            ∃ f, compileNode f g c (root :: path) ≠ .error .fuel ∧
              compileNode f g c (root :: path) ≠ .error .missing := by
          intro c hc
          exact ihK ((Graph.keys g).filter
              (fun k => decide (k ∉ root :: path))).length
            (lt_of_lt_of_le (filter_out_lt hp _ hroot) hK) c (root :: path)
            (le_refl _) hc
        have hbin : ∀ l r : Nat, l ∈ Graph.keys g → r ∈ Graph.keys g →
            ∃ F, (compileNode F g l (root :: path) ≠ .error .fuel ∧
                compileNode F g l (root :: path) ≠ .error .missing) ∧
              (compileNode F g r (root :: path) ≠ .error .fuel ∧
                compileNode F g r (root :: path) ≠ .error .missing) := by
          intro l r hl hr
          obtain ⟨F, hF⟩ := list_fuel_uniform g (root :: path) [l, r]
            (by
              intro c hc
              rcases List.mem_cons.mp hc with rfl | hc
              · exact hchild c hl
              · simp at hc
                subst hc
                exact hchild c hr)
          exact ⟨F, hF l (by simp), hF r (by simp)⟩
        cases node with
        | plane p0 =>
          exact ⟨1, by simp [compileNode, hp, hfind], by simp [compileNode, hp, hfind]⟩
        | sphere c r =>
          exact ⟨1, by simp [compileNode, hp, hfind], by simp [compileNode, hp, hfind]⟩
        | capsule p0 p1 r =>
          refine ⟨1, ?_, ?_⟩ <;> by_cases hpe : p0 = p1 <;>
            simp [compileNode, hp, hfind, hpe]
        | roundedCylinder a b c =>
          exact ⟨1, by simp [compileNode, hp, hfind], by simp [compileNode, hp, hfind]⟩
        | taperedCapsule p0 p1 r0 r1 =>
          exact ⟨1, by simp [compileNode, hp, hfind], by simp [compileNode, hp, hfind]⟩
        | cone a b =>
          exact ⟨1, by simp [compileNode, hp, hfind], by simp [compileNode, hp, hfind]⟩
        | roundedBox a b =>
          exact ⟨1, by simp [compileNode, hp, hfind], by simp [compileNode, hp, hfind]⟩
        | torus a b =>
          exact ⟨1, by simp [compileNode, hp, hfind], by simp [compileNode, hp, hfind]⟩
        | torusSector a b c d =>
          exact ⟨1, by simp [compileNode, hp, hfind], by simp [compileNode, hp, hfind]⟩
        | biconvexLens a b c =>
          exact ⟨1, by simp [compileNode, hp, hfind], by simp [compileNode, hp, hfind]⟩
        | material child m =>
          have hc : child ∈ Graph.keys g := by
            simpa [nodeClosedB] using hcl
          obtain ⟨f1, h1⟩ := hchild child hc
          refine ⟨f1 + 1, ?_⟩
          simp only [compileNode, if_neg hp, hfind]
          refine bind_good h1 ?_
          rintro ⟨o, k⟩ _
          simp
        | union l r =>
          have hc : l ∈ Graph.keys g ∧ r ∈ Graph.keys g := by
            simpa [nodeClosedB] using hcl
          obtain ⟨F, h1, h2⟩ := hbin l r hc.1 hc.2
          refine ⟨F + 1, ?_⟩
          simp only [compileNode, if_neg hp, hfind]
          refine bind_good h1 ?_
          rintro ⟨o, k⟩ _
          refine bind_good h2 ?_
          rintro ⟨o2, k2⟩ _
          simp
        | unionSmooth l r s =>
          have hc : l ∈ Graph.keys g ∧ r ∈ Graph.keys g := by
            simpa [nodeClosedB] using hcl
          obtain ⟨F, h1, h2⟩ := hbin l r hc.1 hc.2
          refine ⟨F + 1, ?_⟩
          simp only [compileNode, if_neg hp, hfind]
          refine bind_good h1 ?_
          rintro ⟨o, k⟩ _
          refine bind_good h2 ?_
          rintro ⟨o2, k2⟩ _
          simp
        | subtract l r =>
          have hc : l ∈ Graph.keys g ∧ r ∈ Graph.keys g := by
            simpa [nodeClosedB] using hcl
          obtain ⟨F, h1, h2⟩ := hbin l r hc.1 hc.2
          refine ⟨F + 1, ?_⟩
          simp only [compileNode, if_neg hp, hfind]
          refine bind_good h1 ?_
          rintro ⟨o, k⟩ _
          refine bind_good h2 ?_
          rintro ⟨o2, k2⟩ _
          simp
        | subtractSmooth l r s =>
          have hc : l ∈ Graph.keys g ∧ r ∈ Graph.keys g := by
            simpa [nodeClosedB] using hcl
          obtain ⟨F, h1, h2⟩ := hbin l r hc.1 hc.2
          refine ⟨F + 1, ?_⟩
          simp only [compileNode, if_neg hp, hfind]
          refine bind_good h1 ?_
          rintro ⟨o, k⟩ _
          refine bind_good h2 ?_
          rintro ⟨o2, k2⟩ _
          simp
        | intersect l r =>
          have hc : l ∈ Graph.keys g ∧ r ∈ Graph.keys g := by
            simpa [nodeClosedB] using hcl
          obtain ⟨F, h1, h2⟩ := hbin l r hc.1 hc.2
          refine ⟨F + 1, ?_⟩
          simp only [compileNode, if_neg hp, hfind]
          refine bind_good h1 ?_
          rintro ⟨o, k⟩ _
          refine bind_good h2 ?_
          rintro ⟨o2, k2⟩ _
          simp
        | intersectSmooth l r s =>
          have hc : l ∈ Graph.keys g ∧ r ∈ Graph.keys g := by
            simpa [nodeClosedB] using hcl
          obtain ⟨F, h1, h2⟩ := hbin l r hc.1 hc.2
          refine ⟨F + 1, ?_⟩
          simp only [compileNode, if_neg hp, hfind]
          refine bind_good h1 ?_
          rintro ⟨o, k⟩ _
          refine bind_good h2 ?_
          rintro ⟨o2, k2⟩ _
          simp
        | unionMulti children =>
          have hc : ∀ c ∈ children, c ∈ Graph.keys g := by
            intro c hcmem
            have := hcl
            simp [nodeClosedB, List.all_eq_true] at this
            exact this c hcmem
          obtain ⟨F, hF⟩ := list_fuel_uniform g (root :: path) children
            (fun c hcm => hchild c (hc c hcm))
          cases children with
          | nil => exact ⟨1, by simp [compileNode, hp, hfind], by simp [compileNode, hp, hfind]⟩
          | cons c cs =>
            refine ⟨F + 1, ?_⟩
            simp only [compileNode, if_neg hp, hfind]
            refine bind_good (hF c (by simp)) ?_
            rintro ⟨o, k⟩ _
            refine bind_good (joinFold_good (fun c2 hc2 => hF c2 (by simp [hc2]))) ?_
            rintro ⟨o2, k2⟩ _
            simp
        | unionMultiSmooth children s =>
          have hc : ∀ c ∈ children, c ∈ Graph.keys g := by
            intro c hcmem
            have := hcl
            simp [nodeClosedB, List.all_eq_true] at this
            exact this c hcmem
          obtain ⟨F, hF⟩ := list_fuel_uniform g (root :: path) children
            (fun c hcm => hchild c (hc c hcm))
          cases children with
          | nil => exact ⟨1, by simp [compileNode, hp, hfind], by simp [compileNode, hp, hfind]⟩
          | cons c cs =>
            refine ⟨F + 1, ?_⟩
            simp only [compileNode, if_neg hp, hfind]
            refine bind_good (hF c (by simp)) ?_
            rintro ⟨o, k⟩ _
            refine bind_good (joinFold_good (fun c2 hc2 => hF c2 (by simp [hc2]))) ?_
            rintro ⟨o2, k2⟩ _
            simp
        | translate t child =>
          have hc : child ∈ Graph.keys g := by
            simpa [nodeClosedB] using hcl
          obtain ⟨f1, h1⟩ := hchild child hc
          refine ⟨f1 + 1, ?_⟩
          simp only [compileNode, if_neg hp, hfind]
          refine bind_good h1 ?_
          rintro ⟨o, k⟩ _
          simp
        | rotate q child =>
          have hc : child ∈ Graph.keys g := by
            simpa [nodeClosedB] using hcl
          obtain ⟨f1, h1⟩ := hchild child hc
          refine ⟨f1 + 1, ?_⟩
          simp only [compileNode, if_neg hp, hfind]
          refine bind_good h1 ?_
          rintro ⟨o, k⟩ _
          simp
        | scale s child =>
          have hc : child ∈ Graph.keys g := by
            simpa [nodeClosedB] using hcl
          obtain ⟨f1, h1⟩ := hchild child hc
          refine ⟨f1 + 1, ?_⟩
          simp only [compileNode, if_neg hp, hfind]
          refine bind_good h1 ?_
          rintro ⟨o, k⟩ _
          simp
        | graphNode r sub =>
          have hsub : graphClosedB sub = true ∧ r ∈ Graph.keys sub := by
            have := hcl
            simp [nodeClosedB] at this
            exact this
          have hsize : sizeOf sub < sizeOf g := graph_sub_size hfind
          obtain ⟨f1, h1⟩ := ihS (sizeOf sub) (by omega) sub (le_refl _) hsub.1
            ((Graph.keys sub).filter (fun k => decide (k ∉ ([] : List Nat)))).length
            r [] (le_refl _) hsub.2
          refine ⟨f1 + 1, ?_⟩
          simp only [compileNode, if_neg hp, hfind]
          exact h1

/-- Claim C3 (amended): compile can also panic through the missing-node
unwrap when a referenced id does not resolve (see the counterexample).
When every reachable node id resolves — the graph is hereditarily closed
and the root is present — compile fails only through the cycle assertion:
with enough fuel it either reports the cycle or returns a program, and
every returned program ends with the End opcode. -/
theorem spec_c3_amended (g : Graph) (root : Nat)
    (hclosed : graphClosedB g = true) (hroot : root ∈ Graph.keys g) :
    ∃ f, compileF f g root = .error .cycle ∨
      ∃ ops cs, compileF f g root = .ok (ops, cs) ∧ ops.getLast? = some .endOp := by
  obtain ⟨f, h1, h2⟩ := compileNode_enough (sizeOf g) g (le_refl _) hclosed
    ((Graph.keys g).filter (fun k => decide (k ∉ ([] : List Nat)))).length
    root [] (le_refl _) hroot
  refine ⟨f, ?_⟩
  cases hres : compileNode f g root [] with
  | error e =>
    cases e with
    | cycle => exact Or.inl (by simp [compileF, hres, bind, Except.bind])
    | missing => exact absurd hres h2
    | fuel => exact absurd hres h1
  | ok p =>
    exact Or.inr ⟨p.1 ++ [.endOp], p.2,
      by simp [compileF, hres, bind, Except.bind],
      by simp [List.getLast?_concat]⟩

/-- Claim C3 (witness for the amended theorem): a single-sphere graph. -/
theorem spec_c3_amended_witness :
    ∃ f, compileF f (Graph.empty.sphere ⟨0, 0, 0⟩ 1).1 0 = .error .cycle ∨
      ∃ ops cs, compileF f (Graph.empty.sphere ⟨0, 0, 0⟩ 1).1 0 = .ok (ops, cs) ∧
        ops.getLast? = some .endOp :=
  spec_c3_amended (Graph.empty.sphere ⟨0, 0, 0⟩ 1).1 0 (by decide) (by decide)

theorem find_noEmptyMulti : ∀ (ns : List (Nat × Node)) (r : Nat) (n : Node),
    listNoEmptyMultiB ns = true → assocFind ns r = some n →
    nodeNoEmptyMultiB n = true := by
  intro ns
  induction ns with
  | nil => intro r n _ h; simp [assocFind] at h
  | cons kn rest ih =>
    intro r n hcl hfind
    cases kn with
    | mk k v =>
      simp only [listNoEmptyMultiB, Bool.and_eq_true] at hcl
      by_cases hk : k = r
      · simp only [assocFind, if_pos hk] at hfind
        cases hfind
        exact hcl.1
      · simp only [assocFind, if_neg hk] at hfind
        exact ih r n hcl.2 hfind

theorem joinFold_exec {SD : Type} (O : Ops SD) (jop : Opcode) (jks : List ℚ)
    (comb : SD → SD → SD)
    (hop : ∀ (v1 v2 : SD) (vs : List SD) (ps : List Vec3) (pos : Vec3)
      (tail : List Opcode) (r : List ℚ),
      exec O (jop :: tail) (jks ++ r) ⟨v1 :: v2 :: vs, ps, pos⟩ =
        exec O tail r ⟨comb v1 v2 :: vs, ps, pos⟩)
    (step : Nat → Except CompileErr (List Opcode × List ℚ)) :
    ∀ (chs : List Nat) (o : List Opcode) (k : List ℚ),
    joinFold step jop jks chs = .ok (o, k) →
    (∀ c ∈ chs, ∀ oc kc, step c = .ok (oc, kc) →
      ∃ Fc : Vec3 → SD, ∀ (tail : List Opcode) (r : List ℚ) (st : MState SD),
        exec O (oc ++ tail) (kc ++ r) st =
          exec O tail r ⟨Fc st.pos :: st.vstack, st.pstack, st.pos⟩) →
    ∃ G : Vec3 → SD → SD, ∀ (tail : List Opcode) (r : List ℚ)
      (vs : List SD) (ps : List Vec3) (pos : Vec3) (v0 : SD),
      exec O (o ++ tail) (k ++ r) ⟨v0 :: vs, ps, pos⟩ =
        exec O tail r ⟨G pos v0 :: vs, ps, pos⟩ := by
  intro chs
  induction chs with
  | nil =>
    intro o k h _
    simp only [joinFold] at h
    cases h
    exact ⟨fun _ v => v, fun tail r vs ps pos v0 => by simp⟩
  | cons c cs ih =>
    intro o k h hstep
    simp only [joinFold, bind, Except.bind] at h
    cases hs : step c with
    | error e => rw [hs] at h; exact absurd h (by simp)
    | ok p =>
      rw [hs] at h
      cases hr : joinFold step jop jks cs with
      | error e => rw [hr] at h; exact absurd h (by simp)
      | ok q =>
        rw [hr] at h
        simp only [Except.ok.injEq, Prod.mk.injEq] at h
        obtain ⟨ho, hk⟩ := h
        obtain ⟨Fc, hFc⟩ := hstep c (by simp) p.1 p.2 (by rw [hs])
        obtain ⟨G, hG⟩ := ih q.1 q.2 (by rw [hr])
          (fun c2 hc2 => hstep c2 (by simp [hc2]))
        refine ⟨fun pos v => G pos (comb (Fc pos) v), ?_⟩
        intro tail r vs ps pos v0
        rw [← ho, ← hk]
        have e1 : (p.1 ++ jop :: q.1) ++ tail = p.1 ++ (jop :: (q.1 ++ tail)) := by
          simp
        have e2 : (p.2 ++ jks ++ q.2) ++ r = p.2 ++ (jks ++ (q.2 ++ r)) := by
          simp
        rw [e1, e2, hFc (jop :: (q.1 ++ tail)) (jks ++ (q.2 ++ r)) ⟨v0 :: vs, ps, pos⟩]
        rw [hop (Fc pos) v0 vs ps pos (q.1 ++ tail) (q.2 ++ r)]
        exact hG tail r vs ps pos (comb (Fc pos) v0)

/-- Segment behaviour of compiled code: the opcodes a successful
compile_node emits, run on their own constants, push exactly one value (a
function of the current position only) and leave the position stack and
current position unchanged, for any ambient machine state, provided no
UnionMulti node has an empty child list. -/
theorem compileNode_exec {SD : Type} (O : Ops SD) :
    ∀ (fuel : Nat) (g : Graph) (root : Nat) (path : List Nat)
      (ops : List Opcode) (cs : List ℚ),
    compileNode fuel g root path = .ok (ops, cs) →
    graphNoEmptyMultiB g = true →
    ∃ F : Vec3 → SD, ∀ (tail : List Opcode) (r : List ℚ) (st : MState SD),
      exec O (ops ++ tail) (cs ++ r) st =
        exec O tail r ⟨F st.pos :: st.vstack, st.pstack, st.pos⟩ := by
  intro fuel
  induction fuel with
  | zero => intro g root path ops cs h; exact absurd h (by simp [compileNode])
  | succ fuel ih =>
    intro g root path ops cs hok hnem
    by_cases hp : root ∈ path
    · rw [show compileNode (fuel + 1) g root path = .error .cycle by
        simp [compileNode, hp]] at hok
      exact absurd hok (by simp)
    · cases hfind : g.find root with
      | none =>
        rw [show compileNode (fuel + 1) g root path = .error .missing by
          simp [compileNode, hp, hfind]] at hok
        exact absurd hok (by simp)
      | some node =>
        have hnode : nodeNoEmptyMultiB node = true := by
          cases g with
          | mk a ns =>
            exact find_noEmptyMulti ns root node
              (by simpa [graphNoEmptyMultiB] using hnem) hfind
        have hbin : ∀ (l r : Nat) (ol og : List Opcode) (kl kg : List ℚ),
            compileNode fuel g l (root :: path) = .ok (ol, kl) →
            compileNode fuel g r (root :: path) = .ok (og, kg) →
            ∃ (Fl Fr : Vec3 → SD),
              ∀ (tail : List Opcode) (rr : List ℚ) (st : MState SD),
              exec O ((ol ++ og) ++ tail) ((kl ++ kg) ++ rr) st =
                exec O tail rr
                  ⟨Fr st.pos :: Fl st.pos :: st.vstack, st.pstack, st.pos⟩ := by
          intro l r ol og kl kg hl hr
          obtain ⟨Fl, hFl⟩ := ih g l (root :: path) ol kl hl hnem
          obtain ⟨Fr, hFr⟩ := ih g r (root :: path) og kg hr hnem
          refine ⟨Fl, Fr, ?_⟩
          intro tail rr st
          rw [List.append_assoc, List.append_assoc, hFl, hFr]
        simp only [compileNode, if_neg hp, hfind] at hok
        cases node with
        | plane p0 =>
          cases hok
          exact ⟨fun pos => O.sdPlane pos p0, fun tail r st => rfl⟩
        | sphere c r =>
          cases hok
          exact ⟨fun pos => O.sdSphere pos c r, fun tail r st => rfl⟩
        | capsule p0 p1 r =>
          have hok2 : (if p0 = p1
              then (.ok ([.sphere], p0.toConsts ++ [r]) :
                Except CompileErr (List Opcode × List ℚ))
              else .ok ([.capsule], p0.toConsts ++ p1.toConsts ++ [r]))
              = .ok (ops, cs) := hok
          by_cases hpe : p0 = p1
          · rw [if_pos hpe] at hok2
            cases hok2
            exact ⟨fun pos => O.sdSphere pos p0 r, fun tail r st => rfl⟩
          · rw [if_neg hpe] at hok2
            cases hok2
            exact ⟨fun pos => O.sdCapsule pos p0 p1 r, fun tail r st => rfl⟩
        | roundedCylinder a b c =>
          cases hok
          exact ⟨fun pos => O.sdRoundedCylinder pos a b c, fun tail r st => rfl⟩
        | taperedCapsule p0 p1 r0 r1 =>
          cases hok
          exact ⟨fun pos => O.sdTaperedCapsule pos p0 p1 r0 r1, fun tail r st => rfl⟩
        | cone a b =>
          cases hok
          exact ⟨fun pos => O.sdCone pos a b, fun tail r st => rfl⟩
        | roundedBox a b =>
          cases hok
          exact ⟨fun pos => O.sdRoundedBox pos a b, fun tail r st => rfl⟩
        | torus a b =>
          cases hok
          exact ⟨fun pos => O.sdTorus pos a b, fun tail r st => rfl⟩
        | torusSector a b c d =>
          cases hok
          exact ⟨fun pos => O.sdTorusSector pos a b c d, fun tail r st => rfl⟩
        | biconvexLens a b c =>
          cases hok
          exact ⟨fun pos => O.sdBiconvexLens pos a b c, fun tail r st => rfl⟩
        | material child m =>
          simp only [bind, Except.bind] at hok
          cases hc : compileNode fuel g child (root :: path) with
          | error e => rw [hc] at hok; exact absurd hok (by simp)
          | ok p =>
            rw [hc] at hok
            simp only [Except.ok.injEq, Prod.mk.injEq] at hok
            obtain ⟨Fc, hFc⟩ := ih g child (root :: path) p.1 p.2 (by rw [hc]) hnem
            refine ⟨fun pos => O.sdMaterial (Fc pos) m, ?_⟩
            intro tail r st
            rw [← hok.1, ← hok.2, List.append_assoc, List.append_assoc, hFc]
            cases m with
            | mk rgb => rfl
        | union l r =>
          simp only [bind, Except.bind] at hok
          cases h1 : compileNode fuel g l (root :: path) with
          | error e => rw [h1] at hok; exact absurd hok (by simp)
          | ok p1 =>
            rw [h1] at hok
            cases h2 : compileNode fuel g r (root :: path) with
            | error e => rw [h2] at hok; exact absurd hok (by simp)
            | ok p2 =>
              rw [h2] at hok
              simp only [Except.ok.injEq, Prod.mk.injEq] at hok
              obtain ⟨Fl, Fr, hF⟩ := hbin l r p1.1 p2.1 p1.2 p2.2
                (by rw [h1]) (by rw [h2])
              refine ⟨fun pos => O.sdUnion (Fr pos) (Fl pos), ?_⟩
              intro tail rr st
              rw [← hok.1, ← hok.2]
              have e1 : ((p1.1 ++ p2.1) ++ [.union]) ++ tail
                  = (p1.1 ++ p2.1) ++ (Opcode.union :: tail) := by simp
              rw [e1, hF (Opcode.union :: tail) rr st]
              rfl
        | unionSmooth l r s =>
          simp only [bind, Except.bind] at hok
          cases h1 : compileNode fuel g l (root :: path) with
          | error e => rw [h1] at hok; exact absurd hok (by simp)
          | ok p1 =>
            rw [h1] at hok
            cases h2 : compileNode fuel g r (root :: path) with
            | error e => rw [h2] at hok; exact absurd hok (by simp)
            | ok p2 =>
              rw [h2] at hok
              simp only [Except.ok.injEq, Prod.mk.injEq] at hok
              obtain ⟨Fl, Fr, hF⟩ := hbin l r p1.1 p2.1 p1.2 p2.2
                (by rw [h1]) (by rw [h2])
              refine ⟨fun pos =>
                O.sdUnionSmooth (Fr pos) (Fl pos) (max s minSmoothing), ?_⟩
              intro tail rr st
              rw [← hok.1, ← hok.2]
              have e1 : ((p1.1 ++ p2.1) ++ [.unionSmooth]) ++ tail
                  = (p1.1 ++ p2.1) ++ (Opcode.unionSmooth :: tail) := by simp
              have e2 : ((p1.2 ++ p2.2) ++ [max s minSmoothing]) ++ rr
                  = (p1.2 ++ p2.2) ++ (max s minSmoothing :: rr) := by simp
              rw [e1, e2, hF (Opcode.unionSmooth :: tail) (max s minSmoothing :: rr) st]
              rfl
        | subtract l r =>
          simp only [bind, Except.bind] at hok
          cases h1 : compileNode fuel g l (root :: path) with
          | error e => rw [h1] at hok; exact absurd hok (by simp)
          | ok p1 =>
            rw [h1] at hok
            cases h2 : compileNode fuel g r (root :: path) with
            | error e => rw [h2] at hok; exact absurd hok (by simp)
            | ok p2 =>
              rw [h2] at hok
              simp only [Except.ok.injEq, Prod.mk.injEq] at hok
              obtain ⟨Fl, Fr, hF⟩ := hbin l r p1.1 p2.1 p1.2 p2.2
                (by rw [h1]) (by rw [h2])
              refine ⟨fun pos => O.sdSubtract (Fr pos) (Fl pos), ?_⟩
              intro tail rr st
              rw [← hok.1, ← hok.2]
              have e1 : ((p1.1 ++ p2.1) ++ [.subtract]) ++ tail
                  = (p1.1 ++ p2.1) ++ (Opcode.subtract :: tail) := by simp
              rw [e1, hF (Opcode.subtract :: tail) rr st]
              rfl
        | subtractSmooth l r s =>
          simp only [bind, Except.bind] at hok
          cases h1 : compileNode fuel g l (root :: path) with
          | error e => rw [h1] at hok; exact absurd hok (by simp)
          | ok p1 =>
            rw [h1] at hok
            cases h2 : compileNode fuel g r (root :: path) with
            | error e => rw [h2] at hok; exact absurd hok (by simp)
            | ok p2 =>
              rw [h2] at hok
              simp only [Except.ok.injEq, Prod.mk.injEq] at hok
              obtain ⟨Fl, Fr, hF⟩ := hbin l r p1.1 p2.1 p1.2 p2.2
                (by rw [h1]) (by rw [h2])
              refine ⟨fun pos =>
                O.sdSubtractSmooth (Fr pos) (Fl pos) (max s minSmoothing), ?_⟩
              intro tail rr st
              rw [← hok.1, ← hok.2]
              have e1 : ((p1.1 ++ p2.1) ++ [.subtractSmooth]) ++ tail
                  = (p1.1 ++ p2.1) ++ (Opcode.subtractSmooth :: tail) := by simp
              have e2 : ((p1.2 ++ p2.2) ++ [max s minSmoothing]) ++ rr
                  = (p1.2 ++ p2.2) ++ (max s minSmoothing :: rr) := by simp
              rw [e1, e2,
                hF (Opcode.subtractSmooth :: tail) (max s minSmoothing :: rr) st]
              rfl
        | intersect l r =>
          simp only [bind, Except.bind] at hok
          cases h1 : compileNode fuel g l (root :: path) with
          | error e => rw [h1] at hok; exact absurd hok (by simp)
          | ok p1 =>
            rw [h1] at hok
            cases h2 : compileNode fuel g r (root :: path) with
            | error e => rw [h2] at hok; exact absurd hok (by simp)
            | ok p2 =>
              rw [h2] at hok
              simp only [Except.ok.injEq, Prod.mk.injEq] at hok
              obtain ⟨Fl, Fr, hF⟩ := hbin l r p1.1 p2.1 p1.2 p2.2
                (by rw [h1]) (by rw [h2])
              refine ⟨fun pos => O.sdIntersect (Fr pos) (Fl pos), ?_⟩
              intro tail rr st
              rw [← hok.1, ← hok.2]
              have e1 : ((p1.1 ++ p2.1) ++ [.intersect]) ++ tail
                  = (p1.1 ++ p2.1) ++ (Opcode.intersect :: tail) := by simp
              rw [e1, hF (Opcode.intersect :: tail) rr st]
              rfl
        | intersectSmooth l r s =>
          simp only [bind, Except.bind] at hok
          cases h1 : compileNode fuel g l (root :: path) with
          | error e => rw [h1] at hok; exact absurd hok (by simp)
          | ok p1 =>
            rw [h1] at hok
            cases h2 : compileNode fuel g r (root :: path) with
            | error e => rw [h2] at hok; exact absurd hok (by simp)
            | ok p2 =>
              rw [h2] at hok
              simp only [Except.ok.injEq, Prod.mk.injEq] at hok
              obtain ⟨Fl, Fr, hF⟩ := hbin l r p1.1 p2.1 p1.2 p2.2
                (by rw [h1]) (by rw [h2])
              refine ⟨fun pos =>
                O.sdIntersectSmooth (Fr pos) (Fl pos) (max s minSmoothing), ?_⟩
              intro tail rr st
              rw [← hok.1, ← hok.2]
              have e1 : ((p1.1 ++ p2.1) ++ [.intersectSmooth]) ++ tail
                  = (p1.1 ++ p2.1) ++ (Opcode.intersectSmooth :: tail) := by simp
              have e2 : ((p1.2 ++ p2.2) ++ [max s minSmoothing]) ++ rr
                  = (p1.2 ++ p2.2) ++ (max s minSmoothing :: rr) := by simp
              rw [e1, e2,
                hF (Opcode.intersectSmooth :: tail) (max s minSmoothing :: rr) st]
              rfl
        | unionMulti children =>
          cases children with
          | nil => simp [nodeNoEmptyMultiB] at hnode
          | cons c cs2 =>
            simp only [bind, Except.bind] at hok
            cases h1 : compileNode fuel g c (root :: path) with
            | error e => rw [h1] at hok; exact absurd hok (by simp)
            | ok p1 =>
              rw [h1] at hok
              cases h2 : joinFold (fun c2 => compileNode fuel g c2 (root :: path))
                  .union [] cs2 with
              | error e => rw [h2] at hok; exact absurd hok (by simp)
              | ok p2 =>
                rw [h2] at hok
                simp only [Except.ok.injEq, Prod.mk.injEq] at hok
                obtain ⟨Fc, hFc⟩ := ih g c (root :: path) p1.1 p1.2 (by rw [h1]) hnem
                obtain ⟨G, hG⟩ := joinFold_exec O .union []
                  (fun v1 v2 => O.sdUnion v1 v2)
                  (fun v1 v2 vs ps pos tail r => rfl)
                  (fun c2 => compileNode fuel g c2 (root :: path)) cs2 p2.1 p2.2
                  (by rw [h2])
                  (fun c2 _ oc kc hc => ih g c2 (root :: path) oc kc hc hnem)
                refine ⟨fun pos => G pos (Fc pos), ?_⟩
                intro tail rr st
                rw [← hok.1, ← hok.2, List.append_assoc, List.append_assoc,
                  hFc (p2.1 ++ tail) (p2.2 ++ rr) st]
                exact hG tail rr st.vstack st.pstack st.pos (Fc st.pos)
        | unionMultiSmooth children s =>
          cases children with
          | nil => simp [nodeNoEmptyMultiB] at hnode
          | cons c cs2 =>
            simp only [bind, Except.bind] at hok
            cases h1 : compileNode fuel g c (root :: path) with
            | error e => rw [h1] at hok; exact absurd hok (by simp)
            | ok p1 =>
              rw [h1] at hok
              cases h2 : joinFold (fun c2 => compileNode fuel g c2 (root :: path))
                  .unionSmooth [max s minSmoothing] cs2 with
              | error e => rw [h2] at hok; exact absurd hok (by simp)
              | ok p2 =>
                rw [h2] at hok
                simp only [Except.ok.injEq, Prod.mk.injEq] at hok
                obtain ⟨Fc, hFc⟩ := ih g c (root :: path) p1.1 p1.2 (by rw [h1]) hnem
                obtain ⟨G, hG⟩ := joinFold_exec O .unionSmooth [max s minSmoothing]
                  (fun v1 v2 => O.sdUnionSmooth v1 v2 (max s minSmoothing))
                  (fun v1 v2 vs ps pos tail r => rfl)
                  (fun c2 => compileNode fuel g c2 (root :: path)) cs2 p2.1 p2.2
                  (by rw [h2])
                  (fun c2 _ oc kc hc => ih g c2 (root :: path) oc kc hc hnem)
                refine ⟨fun pos => G pos (Fc pos), ?_⟩
                intro tail rr st
                rw [← hok.1, ← hok.2, List.append_assoc, List.append_assoc,
                  hFc (p2.1 ++ tail) (p2.2 ++ rr) st]
                exact hG tail rr st.vstack st.pstack st.pos (Fc st.pos)
        | translate t child =>
          simp only [bind, Except.bind] at hok
          cases hc : compileNode fuel g child (root :: path) with
          | error e => rw [hc] at hok; exact absurd hok (by simp)
          | ok p =>
            rw [hc] at hok
            simp only [Except.ok.injEq, Prod.mk.injEq] at hok
            obtain ⟨Fc, hFc⟩ := ih g child (root :: path) p.1 p.2 (by rw [hc]) hnem
            refine ⟨fun pos => Fc (pos + Vec3.neg t), ?_⟩
            intro tail r st
            rw [← hok.1, ← hok.2]
            have e1 : ((Opcode.pushTranslation :: p.1) ++ [.popTransform]) ++ tail
                = Opcode.pushTranslation :: (p.1 ++ (Opcode.popTransform :: tail)) := by
              simp
            have e2 : ((Vec3.neg t).toConsts ++ p.2) ++ r
                = (Vec3.neg t).x :: (Vec3.neg t).y :: (Vec3.neg t).z :: (p.2 ++ r) := by
              simp [Vec3.toConsts]
            rw [e1, e2]
            show exec O (p.1 ++ (Opcode.popTransform :: tail)) (p.2 ++ r)
                ⟨st.vstack, st.pos :: st.pstack,
                  st.pos + ⟨(Vec3.neg t).x, (Vec3.neg t).y, (Vec3.neg t).z⟩⟩ = _
            rw [hFc]
            rfl
        | rotate q child =>
          simp only [bind, Except.bind] at hok
          cases hc : compileNode fuel g child (root :: path) with
          | error e => rw [hc] at hok; exact absurd hok (by simp)
          | ok p =>
            rw [hc] at hok
            simp only [Except.ok.injEq, Prod.mk.injEq] at hok
            obtain ⟨Fc, hFc⟩ := ih g child (root :: path) p.1 p.2 (by rw [hc]) hnem
            refine ⟨fun pos => Fc (O.rotate q.conjugate pos), ?_⟩
            intro tail r st
            rw [← hok.1, ← hok.2]
            have e1 : ((Opcode.pushRotation :: p.1) ++ [.popTransform]) ++ tail
                = Opcode.pushRotation :: (p.1 ++ (Opcode.popTransform :: tail)) := by
              simp
            have e2 : ((Quat.conjugate q).toConsts ++ p.2) ++ r
                = (Quat.conjugate q).x :: (Quat.conjugate q).y ::
                    (Quat.conjugate q).z :: (Quat.conjugate q).w :: (p.2 ++ r) := by
              simp [Quat.toConsts]
            rw [e1, e2]
            show exec O (p.1 ++ (Opcode.popTransform :: tail)) (p.2 ++ r)
                ⟨st.vstack, st.pos :: st.pstack,
                  O.rotate ⟨(Quat.conjugate q).x, (Quat.conjugate q).y,
                    (Quat.conjugate q).z, (Quat.conjugate q).w⟩ st.pos⟩ = _
            rw [hFc]
            rfl
        | scale s child =>
          simp only [bind, Except.bind] at hok
          cases hc : compileNode fuel g child (root :: path) with
          | error e => rw [hc] at hok; exact absurd hok (by simp)
          | ok p =>
            rw [hc] at hok
            simp only [Except.ok.injEq, Prod.mk.injEq] at hok
            obtain ⟨Fc, hFc⟩ := ih g child (root :: path) p.1 p.2 (by rw [hc]) hnem
            refine ⟨fun pos => O.copyWithDistance (Fc (pos.smul (1 / s)))
              (s * O.dist (Fc (pos.smul (1 / s)))), ?_⟩
            intro tail r st
            rw [← hok.1, ← hok.2]
            have e1 : ((Opcode.pushScale :: p.1) ++ [.popScale]) ++ tail
                = Opcode.pushScale :: (p.1 ++ (Opcode.popScale :: tail)) := by
              simp
            have e2 : (((1 / s) :: p.2) ++ [s]) ++ r
                = (1 / s) :: (p.2 ++ (s :: r)) := by
              simp
            rw [e1, e2]
            show exec O (p.1 ++ (Opcode.popScale :: tail)) (p.2 ++ (s :: r))
                ⟨st.vstack, st.pos :: st.pstack, st.pos.smul (1 / s)⟩ = _
            rw [hFc]
            rfl
        | graphNode r sub =>
          have hsubnem : graphNoEmptyMultiB sub = true := by
            simpa [nodeNoEmptyMultiB] using hnode
          exact ih sub r [] ops cs hok hsubnem

theorem readF32_char (pool : List ℚ) (off : Nat) :
    (pool.length < off + 1 ∧ readF32 pool off = none) ∨
    (off + 1 ≤ pool.length ∧ ∃ v, readF32 pool off = some (v, off + 1)) := by
  by_cases h : off < pool.length
  · right
    refine ⟨by omega, ?_⟩
    have : pool[off]? = some pool[off] := List.getElem?_eq_getElem h
    exact ⟨pool[off], by simp [readF32, this]⟩
  · left
    refine ⟨by omega, ?_⟩
    have : pool[off]? = none := List.getElem?_eq_none (by omega)
    simp [readF32, this]

theorem readVec3_char (pool : List ℚ) (off : Nat) :
    (pool.length < off + 3 ∧ readVec3 pool off = none) ∨
    (off + 3 ≤ pool.length ∧ ∃ v, readVec3 pool off = some (v, off + 3)) := by
  rcases readF32_char pool off with ⟨h1, e1⟩ | ⟨h1, v1, e1⟩
  · exact Or.inl ⟨by omega, by simp [readVec3, e1]⟩
  rcases readF32_char pool (off + 1) with ⟨h2, e2⟩ | ⟨h2, v2, e2⟩
  · exact Or.inl ⟨by omega, by simp [readVec3, e1, e2]⟩
  rcases readF32_char pool (off + 2) with ⟨h3, e3⟩ | ⟨h3, v3, e3⟩
  · exact Or.inl ⟨by omega, by simp [readVec3, e1, e2, e3]⟩
  · refine Or.inr ⟨by omega, ⟨v1, v2, v3⟩, ?_⟩
    simp [readVec3, e1, e2, e3]

theorem readVec4_char (pool : List ℚ) (off : Nat) :
    (pool.length < off + 4 ∧ readVec4 pool off = none) ∨
    (off + 4 ≤ pool.length ∧ ∃ v, readVec4 pool off = some (v, off + 4)) := by
  rcases readF32_char pool off with ⟨h1, e1⟩ | ⟨h1, v1, e1⟩
  · exact Or.inl ⟨by omega, by simp [readVec4, e1]⟩
  rcases readF32_char pool (off + 1) with ⟨h2, e2⟩ | ⟨h2, v2, e2⟩
  · exact Or.inl ⟨by omega, by simp [readVec4, e1, e2]⟩
  rcases readF32_char pool (off + 2) with ⟨h3, e3⟩ | ⟨h3, v3, e3⟩
  · exact Or.inl ⟨by omega, by simp [readVec4, e1, e2, e3]⟩
  rcases readF32_char pool (off + 3) with ⟨h4, e4⟩ | ⟨h4, v4, e4⟩
  · exact Or.inl ⟨by omega, by simp [readVec4, e1, e2, e3, e4]⟩
  · refine Or.inr ⟨by omega, ⟨v1, v2, v3, v4⟩, ?_⟩
    simp [readVec4, e1, e2, e3, e4]

theorem readQuat_char (pool : List ℚ) (off : Nat) :
    (pool.length < off + 4 ∧ readQuat pool off = none) ∨
    (off + 4 ≤ pool.length ∧ ∃ v, readQuat pool off = some (v, off + 4)) := by
  rcases readF32_char pool off with ⟨h1, e1⟩ | ⟨h1, v1, e1⟩
  · exact Or.inl ⟨by omega, by simp [readQuat, e1]⟩
  rcases readF32_char pool (off + 1) with ⟨h2, e2⟩ | ⟨h2, v2, e2⟩
  · exact Or.inl ⟨by omega, by simp [readQuat, e1, e2]⟩
  rcases readF32_char pool (off + 2) with ⟨h3, e3⟩ | ⟨h3, v3, e3⟩
  · exact Or.inl ⟨by omega, by simp [readQuat, e1, e2, e3]⟩
  rcases readF32_char pool (off + 3) with ⟨h4, e4⟩ | ⟨h4, v4, e4⟩
  · exact Or.inl ⟨by omega, by simp [readQuat, e1, e2, e3, e4]⟩
  · refine Or.inr ⟨by omega, ⟨v1, v2, v3, v4⟩, ?_⟩
    simp [readQuat, e1, e2, e3, e4]

theorem readF32_getElem (pool : List ℚ) (off : Nat) (v : ℚ) (o : Nat)
    (he : readF32 pool off = some (v, o)) : pool[off]? = some v := by
  unfold readF32 at he
  cases h : pool[off]? <;> rw [h] at he <;> simp_all

theorem biconvexLens_none_iff (g : Graph) (ls us chord : ℚ) :
    g.biconvexLens ls us chord = none ↔ chord / 2 < 1 / 1000 := by
  unfold Graph.biconvexLens clampQ
  by_cases h : chord / 2 < 1 / 1000
  · simp only [if_pos h]
    simpa using h
  · simp only [if_neg h]
    simpa using h

theorem classStep_eval (pool : List ℚ) (op : Opcode) (h th cur : Nat)
    (vpops reads skips vpush tpush tpop : Nat)
    (hop : op ≠ .endOp) (hbi : op ≠ .biconvexLens)
    (hs : decompShape op = ⟨vpops, reads, skips, vpush, tpush, tpop⟩) :
    classStep pool op h th cur =
      if h < vpops then .fail .badStack
      else if th < tpop then .fail .badStack
      else if 0 < reads ∧ pool.length < cur + reads then .fail .badConstants
      else .cont (h - vpops + vpush) (th - tpop + tpush) (cur + reads + skips) := by
  simp [classStep, hop, hbi, hs]

theorem classStep_biconvex (pool : List ℚ) (h th cur : Nat) :
    classStep pool .biconvexLens h th cur =
      if pool.length < cur + 3 then .fail .badConstants
      else match pool[cur + 2]? with
        | some chord =>
            if chord / 2 < 1 / 1000 then .panicked else .cont (h + 1) th (cur + 3)
        | none => .cont (h + 1) th (cur + 3) := by
  simp [classStep, decompShape]

/-- Stepping one opcode of decompile and stepping the outcome classifier
agree: from a state whose stack heights and cursor the classifier holds,
both continue with equal heights and cursor, both halt, both fail with the
same error, or both panic. -/
theorem dstep_class (sinF cosF : ℚ → ℚ) (norm : Vec3 → ℚ) (pool : List ℚ)
    (op : Opcode) (st : DState) :
    (∃ st2, dstep sinF cosF norm pool op st = .cont st2 ∧
       classStep pool op st.stack.length st.tstack.length st.off
         = .cont st2.stack.length st2.tstack.length st2.off) ∨
    (dstep sinF cosF norm pool op st = .halt st ∧
       classStep pool op st.stack.length st.tstack.length st.off
         = .halt st.stack.length st.tstack.length st.off) ∨
    (∃ e, dstep sinF cosF norm pool op st = .fail e ∧
       classStep pool op st.stack.length st.tstack.length st.off = .fail e) ∨
    (dstep sinF cosF norm pool op st = .panicked ∧
       classStep pool op st.stack.length st.tstack.length st.off = .panicked) := by
  cases op
  case plane =>
    rcases readVec4_char pool st.off with ⟨hb1, he1⟩ | ⟨hb1, v1, he1⟩
    · refine Or.inr (Or.inr (Or.inl ⟨.badConstants, ?_, ?_⟩))
      · simp [dstep, rbind, he1]
      · 
        rw [classStep_eval pool .plane _ _ _ 0 4 0 1 0 0 (by decide) (by decide) rfl,
            if_neg (by omega), if_neg (by omega), if_pos (by omega)]
    · 
      refine Or.inl ⟨⟨(st.g.plane v1).1, (st.g.plane v1).2 :: st.stack, st.tstack, st.off + 4⟩, ?_, ?_⟩
      · simp [dstep, rbind, he1]
      · 
        rw [classStep_eval pool .plane _ _ _ 0 4 0 1 0 0 (by decide) (by decide) rfl,
            if_neg (by omega), if_neg (by omega), if_neg (by omega)]
        simp only [CStepRes.cont.injEq, List.length_cons]
        refine ⟨?_, ?_, ?_⟩ <;> trivial
  case sphere =>
    rcases readVec3_char pool st.off with ⟨hb1, he1⟩ | ⟨hb1, v1, he1⟩
    · refine Or.inr (Or.inr (Or.inl ⟨.badConstants, ?_, ?_⟩))
      · simp [dstep, rbind, he1]
      · 
        rw [classStep_eval pool .sphere _ _ _ 0 4 0 1 0 0 (by decide) (by decide) rfl,
            if_neg (by omega), if_neg (by omega), if_pos (by omega)]
    · 
      rcases readF32_char pool (st.off + 3) with ⟨hb2, he2⟩ | ⟨hb2, v2, he2⟩
      · refine Or.inr (Or.inr (Or.inl ⟨.badConstants, ?_, ?_⟩))
        · simp [dstep, rbind, he1, he2]
        · 
          rw [classStep_eval pool .sphere _ _ _ 0 4 0 1 0 0 (by decide) (by decide) rfl,
              if_neg (by omega), if_neg (by omega), if_pos (by omega)]
      · 
        refine Or.inl ⟨⟨(st.g.sphere v1 v2).1, (st.g.sphere v1 v2).2 :: st.stack, st.tstack, st.off + 3 + 1⟩, ?_, ?_⟩
        · simp [dstep, rbind, he1, he2]
        · 
          rw [classStep_eval pool .sphere _ _ _ 0 4 0 1 0 0 (by decide) (by decide) rfl,
              if_neg (by omega), if_neg (by omega), if_neg (by omega)]
          simp only [CStepRes.cont.injEq, List.length_cons]
          refine ⟨?_, ?_, ?_⟩ <;> trivial
  case capsule =>
    rcases readVec3_char pool st.off with ⟨hb1, he1⟩ | ⟨hb1, v1, he1⟩
    · refine Or.inr (Or.inr (Or.inl ⟨.badConstants, ?_, ?_⟩))
      · simp [dstep, rbind, he1]
      · 
        rw [classStep_eval pool .capsule _ _ _ 0 7 0 1 0 0 (by decide) (by decide) rfl,
            if_neg (by omega), if_neg (by omega), if_pos (by omega)]
    · 
      rcases readVec3_char pool (st.off + 3) with ⟨hb2, he2⟩ | ⟨hb2, v2, he2⟩
      · refine Or.inr (Or.inr (Or.inl ⟨.badConstants, ?_, ?_⟩))
        · simp [dstep, rbind, he1, he2]
        · 
          rw [classStep_eval pool .capsule _ _ _ 0 7 0 1 0 0 (by decide) (by decide) rfl,
              if_neg (by omega), if_neg (by omega), if_pos (by omega)]
      · 
        rcases readF32_char pool (st.off + 3 + 3) with ⟨hb3, he3⟩ | ⟨hb3, v3, he3⟩
        · refine Or.inr (Or.inr (Or.inl ⟨.badConstants, ?_, ?_⟩))
          · simp [dstep, rbind, he1, he2, he3]
          · 
            rw [classStep_eval pool .capsule _ _ _ 0 7 0 1 0 0 (by decide) (by decide) rfl,
                if_neg (by omega), if_neg (by omega), if_pos (by omega)]
        · 
          refine Or.inl ⟨⟨(st.g.capsule v1 v2 v3).1, (st.g.capsule v1 v2 v3).2 :: st.stack, st.tstack, st.off + 3 + 3 + 1⟩, ?_, ?_⟩
          · simp [dstep, rbind, he1, he2, he3]
          · 
            rw [classStep_eval pool .capsule _ _ _ 0 7 0 1 0 0 (by decide) (by decide) rfl,
                if_neg (by omega), if_neg (by omega), if_neg (by omega)]
            simp only [CStepRes.cont.injEq, List.length_cons]
            refine ⟨?_, ?_, ?_⟩ <;> trivial
  case taperedCapsule =>
    rcases readVec3_char pool st.off with ⟨hb1, he1⟩ | ⟨hb1, v1, he1⟩
    · refine Or.inr (Or.inr (Or.inl ⟨.badConstants, ?_, ?_⟩))
      · simp [dstep, rbind, he1]
      · 
        rw [classStep_eval pool .taperedCapsule _ _ _ 0 8 0 1 0 0 (by decide) (by decide) rfl,
            if_neg (by omega), if_neg (by omega), if_pos (by omega)]
    · 
      rcases readF32_char pool (st.off + 3) with ⟨hb2, he2⟩ | ⟨hb2, v2, he2⟩
      · refine Or.inr (Or.inr (Or.inl ⟨.badConstants, ?_, ?_⟩))
        · simp [dstep, rbind, he1, he2]
        · 
          rw [classStep_eval pool .taperedCapsule _ _ _ 0 8 0 1 0 0 (by decide) (by decide) rfl,
              if_neg (by omega), if_neg (by omega), if_pos (by omega)]
      · 
        rcases readVec3_char pool (st.off + 3 + 1) with ⟨hb3, he3⟩ | ⟨hb3, v3, he3⟩
        · refine Or.inr (Or.inr (Or.inl ⟨.badConstants, ?_, ?_⟩))
          · simp [dstep, rbind, he1, he2, he3]
          · 
            rw [classStep_eval pool .taperedCapsule _ _ _ 0 8 0 1 0 0 (by decide) (by decide) rfl,
                if_neg (by omega), if_neg (by omega), if_pos (by omega)]
        · 
          rcases readF32_char pool (st.off + 3 + 1 + 3) with ⟨hb4, he4⟩ | ⟨hb4, v4, he4⟩
          · refine Or.inr (Or.inr (Or.inl ⟨.badConstants, ?_, ?_⟩))
            · simp [dstep, rbind, he1, he2, he3, he4]
            · 
              rw [classStep_eval pool .taperedCapsule _ _ _ 0 8 0 1 0 0 (by decide) (by decide) rfl,
                  if_neg (by omega), if_neg (by omega), if_pos (by omega)]
          · 
            refine Or.inl ⟨⟨(Graph.taperedCapsule norm st.g v1 v3 v2 v4).1, (Graph.taperedCapsule norm st.g v1 v3 v2 v4).2 :: st.stack, st.tstack, st.off + 3 + 1 + 3 + 1⟩, ?_, ?_⟩
            · simp [dstep, rbind, he1, he2, he3, he4]
            · 
              rw [classStep_eval pool .taperedCapsule _ _ _ 0 8 0 1 0 0 (by decide) (by decide) rfl,
                  if_neg (by omega), if_neg (by omega), if_neg (by omega)]
              simp only [CStepRes.cont.injEq, List.length_cons]
              refine ⟨?_, ?_, ?_⟩ <;> trivial
  case roundedBox =>
    rcases readVec3_char pool st.off with ⟨hb1, he1⟩ | ⟨hb1, v1, he1⟩
    · refine Or.inr (Or.inr (Or.inl ⟨.badConstants, ?_, ?_⟩))
      · simp [dstep, rbind, he1]
      · 
        rw [classStep_eval pool .roundedBox _ _ _ 0 4 0 1 0 0 (by decide) (by decide) rfl,
            if_neg (by omega), if_neg (by omega), if_pos (by omega)]
    · 
      rcases readF32_char pool (st.off + 3) with ⟨hb2, he2⟩ | ⟨hb2, v2, he2⟩
      · refine Or.inr (Or.inr (Or.inl ⟨.badConstants, ?_, ?_⟩))
        · simp [dstep, rbind, he1, he2]
        · 
          rw [classStep_eval pool .roundedBox _ _ _ 0 4 0 1 0 0 (by decide) (by decide) rfl,
              if_neg (by omega), if_neg (by omega), if_pos (by omega)]
      · 
        refine Or.inl ⟨⟨(st.g.roundedBox v1 v2).1, (st.g.roundedBox v1 v2).2 :: st.stack, st.tstack, st.off + 3 + 1⟩, ?_, ?_⟩
        · simp [dstep, rbind, he1, he2]
        · 
          rw [classStep_eval pool .roundedBox _ _ _ 0 4 0 1 0 0 (by decide) (by decide) rfl,
              if_neg (by omega), if_neg (by omega), if_neg (by omega)]
          simp only [CStepRes.cont.injEq, List.length_cons]
          refine ⟨?_, ?_, ?_⟩ <;> trivial
  case roundedCylinder =>
    rcases readF32_char pool st.off with ⟨hb1, he1⟩ | ⟨hb1, v1, he1⟩
    · refine Or.inr (Or.inr (Or.inl ⟨.badConstants, ?_, ?_⟩))
      · simp [dstep, rbind, he1]
      · 
        rw [classStep_eval pool .roundedCylinder _ _ _ 0 3 0 1 0 0 (by decide) (by decide) rfl,
            if_neg (by omega), if_neg (by omega), if_pos (by omega)]
    · 
      rcases readF32_char pool (st.off + 1) with ⟨hb2, he2⟩ | ⟨hb2, v2, he2⟩
      · refine Or.inr (Or.inr (Or.inl ⟨.badConstants, ?_, ?_⟩))
        · simp [dstep, rbind, he1, he2]
        · 
          rw [classStep_eval pool .roundedCylinder _ _ _ 0 3 0 1 0 0 (by decide) (by decide) rfl,
              if_neg (by omega), if_neg (by omega), if_pos (by omega)]
      · 
        rcases readF32_char pool (st.off + 1 + 1) with ⟨hb3, he3⟩ | ⟨hb3, v3, he3⟩
        · refine Or.inr (Or.inr (Or.inl ⟨.badConstants, ?_, ?_⟩))
          · simp [dstep, rbind, he1, he2, he3]
          · 
            rw [classStep_eval pool .roundedCylinder _ _ _ 0 3 0 1 0 0 (by decide) (by decide) rfl,
                if_neg (by omega), if_neg (by omega), if_pos (by omega)]
        · 
          refine Or.inl ⟨⟨(st.g.roundedCylinder v1 v2 v3).1, (st.g.roundedCylinder v1 v2 v3).2 :: st.stack, st.tstack, st.off + 1 + 1 + 1⟩, ?_, ?_⟩
          · simp [dstep, rbind, he1, he2, he3]
          · 
            rw [classStep_eval pool .roundedCylinder _ _ _ 0 3 0 1 0 0 (by decide) (by decide) rfl,
                if_neg (by omega), if_neg (by omega), if_neg (by omega)]
            simp only [CStepRes.cont.injEq, List.length_cons]
            refine ⟨?_, ?_, ?_⟩ <;> trivial
  case torus =>
    rcases readF32_char pool st.off with ⟨hb1, he1⟩ | ⟨hb1, v1, he1⟩
    · refine Or.inr (Or.inr (Or.inl ⟨.badConstants, ?_, ?_⟩))
      · simp [dstep, rbind, he1]
      · 
        rw [classStep_eval pool .torus _ _ _ 0 2 0 1 0 0 (by decide) (by decide) rfl,
            if_neg (by omega), if_neg (by omega), if_pos (by omega)]
    · 
      rcases readF32_char pool (st.off + 1) with ⟨hb2, he2⟩ | ⟨hb2, v2, he2⟩
      · refine Or.inr (Or.inr (Or.inl ⟨.badConstants, ?_, ?_⟩))
        · simp [dstep, rbind, he1, he2]
        · 
          rw [classStep_eval pool .torus _ _ _ 0 2 0 1 0 0 (by decide) (by decide) rfl,
              if_neg (by omega), if_neg (by omega), if_pos (by omega)]
      · 
        refine Or.inl ⟨⟨(st.g.torus v1 v2).1, (st.g.torus v1 v2).2 :: st.stack, st.tstack, st.off + 1 + 1⟩, ?_, ?_⟩
        · simp [dstep, rbind, he1, he2]
        · 
          rw [classStep_eval pool .torus _ _ _ 0 2 0 1 0 0 (by decide) (by decide) rfl,
              if_neg (by omega), if_neg (by omega), if_neg (by omega)]
          simp only [CStepRes.cont.injEq, List.length_cons]
          refine ⟨?_, ?_, ?_⟩ <;> trivial
  case torusSector =>
    rcases readF32_char pool st.off with ⟨hb1, he1⟩ | ⟨hb1, v1, he1⟩
    · refine Or.inr (Or.inr (Or.inl ⟨.badConstants, ?_, ?_⟩))
      · simp [dstep, rbind, he1]
      · 
        rw [classStep_eval pool .torusSector _ _ _ 0 3 0 1 0 0 (by decide) (by decide) rfl,
            if_neg (by omega), if_neg (by omega), if_pos (by omega)]
    · 
      rcases readF32_char pool (st.off + 1) with ⟨hb2, he2⟩ | ⟨hb2, v2, he2⟩
      · refine Or.inr (Or.inr (Or.inl ⟨.badConstants, ?_, ?_⟩))
        · simp [dstep, rbind, he1, he2]
        · 
          rw [classStep_eval pool .torusSector _ _ _ 0 3 0 1 0 0 (by decide) (by decide) rfl,
              if_neg (by omega), if_neg (by omega), if_pos (by omega)]
      · 
        rcases readF32_char pool (st.off + 1 + 1) with ⟨hb3, he3⟩ | ⟨hb3, v3, he3⟩
        · refine Or.inr (Or.inr (Or.inl ⟨.badConstants, ?_, ?_⟩))
          · simp [dstep, rbind, he1, he2, he3]
          · 
            rw [classStep_eval pool .torusSector _ _ _ 0 3 0 1 0 0 (by decide) (by decide) rfl,
                if_neg (by omega), if_neg (by omega), if_pos (by omega)]
        · 
          refine Or.inl ⟨⟨(Graph.torusSector sinF cosF st.g v1 v2 v3).1, (Graph.torusSector sinF cosF st.g v1 v2 v3).2 :: st.stack, st.tstack, st.off + 1 + 1 + 1⟩, ?_, ?_⟩
          · simp [dstep, rbind, he1, he2, he3]
          · 
            rw [classStep_eval pool .torusSector _ _ _ 0 3 0 1 0 0 (by decide) (by decide) rfl,
                if_neg (by omega), if_neg (by omega), if_neg (by omega)]
            simp only [CStepRes.cont.injEq, List.length_cons]
            refine ⟨?_, ?_, ?_⟩ <;> trivial
  case cone =>
    rcases readF32_char pool st.off with ⟨hb1, he1⟩ | ⟨hb1, v1, he1⟩
    · refine Or.inr (Or.inr (Or.inl ⟨.badConstants, ?_, ?_⟩))
      · simp [dstep, rbind, he1]
      · 
        rw [classStep_eval pool .cone _ _ _ 0 2 0 1 0 0 (by decide) (by decide) rfl,
            if_neg (by omega), if_neg (by omega), if_pos (by omega)]
    · 
      rcases readF32_char pool (st.off + 1) with ⟨hb2, he2⟩ | ⟨hb2, v2, he2⟩
      · refine Or.inr (Or.inr (Or.inl ⟨.badConstants, ?_, ?_⟩))
        · simp [dstep, rbind, he1, he2]
        · 
          rw [classStep_eval pool .cone _ _ _ 0 2 0 1 0 0 (by decide) (by decide) rfl,
              if_neg (by omega), if_neg (by omega), if_pos (by omega)]
      · 
        refine Or.inl ⟨⟨(st.g.cone v1 v2).1, (st.g.cone v1 v2).2 :: st.stack, st.tstack, st.off + 1 + 1⟩, ?_, ?_⟩
        · simp [dstep, rbind, he1, he2]
        · 
          rw [classStep_eval pool .cone _ _ _ 0 2 0 1 0 0 (by decide) (by decide) rfl,
              if_neg (by omega), if_neg (by omega), if_neg (by omega)]
          simp only [CStepRes.cont.injEq, List.length_cons]
          refine ⟨?_, ?_, ?_⟩ <;> trivial
  case union =>
    rcases hstk : st.stack with _ | ⟨rhs, _ | ⟨lhs, s⟩⟩
    · refine Or.inr (Or.inr (Or.inl ⟨.badStack, ?_, ?_⟩))
      · simp [dstep, hstk]
      · 
        rw [classStep_eval pool .union _ _ _ 2 0 0 1 0 0 (by decide) (by decide) rfl,
            if_pos (by simp only [hstk, List.length_cons, List.length_nil]; omega)]
    · refine Or.inr (Or.inr (Or.inl ⟨.badStack, ?_, ?_⟩))
      · simp [dstep, hstk]
      · 
        rw [classStep_eval pool .union _ _ _ 2 0 0 1 0 0 (by decide) (by decide) rfl,
            if_pos (by simp only [hstk, List.length_cons, List.length_nil]; omega)]
    · refine Or.inl ⟨⟨(st.g.opUnion lhs rhs).1, (st.g.opUnion lhs rhs).2 :: s, st.tstack, st.off⟩, ?_, ?_⟩
      · simp [dstep, hstk]
      · 
        rw [classStep_eval pool .union _ _ _ 2 0 0 1 0 0 (by decide) (by decide) rfl,
            if_neg (by simp only [hstk, List.length_cons]; omega), if_neg (by omega), if_neg (by omega)]
        simp only [CStepRes.cont.injEq, hstk, List.length_cons]
        refine ⟨?_, ?_, ?_⟩ <;> trivial
  case unionSmooth =>
    rcases hstk : st.stack with _ | ⟨rhs, _ | ⟨lhs, s⟩⟩
    · refine Or.inr (Or.inr (Or.inl ⟨.badStack, ?_, ?_⟩))
      · simp [dstep, hstk]
      · 
        rw [classStep_eval pool .unionSmooth _ _ _ 2 1 0 1 0 0 (by decide) (by decide) rfl,
            if_pos (by simp only [hstk, List.length_cons, List.length_nil]; omega)]
    · refine Or.inr (Or.inr (Or.inl ⟨.badStack, ?_, ?_⟩))
      · simp [dstep, hstk]
      · 
        rw [classStep_eval pool .unionSmooth _ _ _ 2 1 0 1 0 0 (by decide) (by decide) rfl,
            if_pos (by simp only [hstk, List.length_cons, List.length_nil]; omega)]
    · rcases readF32_char pool st.off with ⟨hb1, he1⟩ | ⟨hb1, v1, he1⟩
      · refine Or.inr (Or.inr (Or.inl ⟨.badConstants, ?_, ?_⟩))
        · simp [dstep, rbind, hstk, he1]
        · 
          rw [classStep_eval pool .unionSmooth _ _ _ 2 1 0 1 0 0 (by decide) (by decide) rfl,
              if_neg (by simp only [hstk, List.length_cons]; omega), if_neg (by omega), if_pos (by omega)]
      · refine Or.inl ⟨⟨(st.g.opUnionSmooth lhs rhs v1).1, (st.g.opUnionSmooth lhs rhs v1).2 :: s, st.tstack, st.off + 1⟩, ?_, ?_⟩
        · simp [dstep, rbind, hstk, he1]
        · 
          rw [classStep_eval pool .unionSmooth _ _ _ 2 1 0 1 0 0 (by decide) (by decide) rfl,
              if_neg (by simp only [hstk, List.length_cons]; omega), if_neg (by omega), if_neg (by omega)]
          simp only [CStepRes.cont.injEq, hstk, List.length_cons]
          refine ⟨?_, ?_, ?_⟩ <;> trivial
  case subtract =>
    rcases hstk : st.stack with _ | ⟨rhs, _ | ⟨lhs, s⟩⟩
    · refine Or.inr (Or.inr (Or.inl ⟨.badStack, ?_, ?_⟩))
      · simp [dstep, hstk]
      · 
        rw [classStep_eval pool .subtract _ _ _ 2 0 0 1 0 0 (by decide) (by decide) rfl,
            if_pos (by simp only [hstk, List.length_cons, List.length_nil]; omega)]
    · refine Or.inr (Or.inr (Or.inl ⟨.badStack, ?_, ?_⟩))
      · simp [dstep, hstk]
      · 
        rw [classStep_eval pool .subtract _ _ _ 2 0 0 1 0 0 (by decide) (by decide) rfl,
            if_pos (by simp only [hstk, List.length_cons, List.length_nil]; omega)]
    · refine Or.inl ⟨⟨(st.g.opSubtract lhs rhs).1, (st.g.opSubtract lhs rhs).2 :: s, st.tstack, st.off⟩, ?_, ?_⟩
      · simp [dstep, hstk]
      · 
        rw [classStep_eval pool .subtract _ _ _ 2 0 0 1 0 0 (by decide) (by decide) rfl,
            if_neg (by simp only [hstk, List.length_cons]; omega), if_neg (by omega), if_neg (by omega)]
        simp only [CStepRes.cont.injEq, hstk, List.length_cons]
        refine ⟨?_, ?_, ?_⟩ <;> trivial
  case subtractSmooth =>
    rcases hstk : st.stack with _ | ⟨rhs, _ | ⟨lhs, s⟩⟩
    · refine Or.inr (Or.inr (Or.inl ⟨.badStack, ?_, ?_⟩))
      · simp [dstep, hstk]
      · 
        rw [classStep_eval pool .subtractSmooth _ _ _ 2 1 0 1 0 0 (by decide) (by decide) rfl,
            if_pos (by simp only [hstk, List.length_cons, List.length_nil]; omega)]
    · refine Or.inr (Or.inr (Or.inl ⟨.badStack, ?_, ?_⟩))
      · simp [dstep, hstk]
      · 
        rw [classStep_eval pool .subtractSmooth _ _ _ 2 1 0 1 0 0 (by decide) (by decide) rfl,
            if_pos (by simp only [hstk, List.length_cons, List.length_nil]; omega)]
    · rcases readF32_char pool st.off with ⟨hb1, he1⟩ | ⟨hb1, v1, he1⟩
      · refine Or.inr (Or.inr (Or.inl ⟨.badConstants, ?_, ?_⟩))
        · simp [dstep, rbind, hstk, he1]
        · 
          rw [classStep_eval pool .subtractSmooth _ _ _ 2 1 0 1 0 0 (by decide) (by decide) rfl,
              if_neg (by simp only [hstk, List.length_cons]; omega), if_neg (by omega), if_pos (by omega)]
      · refine Or.inl ⟨⟨(st.g.opSubtractSmooth lhs rhs v1).1, (st.g.opSubtractSmooth lhs rhs v1).2 :: s, st.tstack, st.off + 1⟩, ?_, ?_⟩
        · simp [dstep, rbind, hstk, he1]
        · 
          rw [classStep_eval pool .subtractSmooth _ _ _ 2 1 0 1 0 0 (by decide) (by decide) rfl,
              if_neg (by simp only [hstk, List.length_cons]; omega), if_neg (by omega), if_neg (by omega)]
          simp only [CStepRes.cont.injEq, hstk, List.length_cons]
          refine ⟨?_, ?_, ?_⟩ <;> trivial
  case intersect =>
    rcases hstk : st.stack with _ | ⟨rhs, _ | ⟨lhs, s⟩⟩
    · refine Or.inr (Or.inr (Or.inl ⟨.badStack, ?_, ?_⟩))
      · simp [dstep, hstk]
      · 
        rw [classStep_eval pool .intersect _ _ _ 2 0 0 1 0 0 (by decide) (by decide) rfl,
            if_pos (by simp only [hstk, List.length_cons, List.length_nil]; omega)]
    · refine Or.inr (Or.inr (Or.inl ⟨.badStack, ?_, ?_⟩))
      · simp [dstep, hstk]
      · 
        rw [classStep_eval pool .intersect _ _ _ 2 0 0 1 0 0 (by decide) (by decide) rfl,
            if_pos (by simp only [hstk, List.length_cons, List.length_nil]; omega)]
    · refine Or.inl ⟨⟨(st.g.opIntersect lhs rhs).1, (st.g.opIntersect lhs rhs).2 :: s, st.tstack, st.off⟩, ?_, ?_⟩
      · simp [dstep, hstk]
      · 
        rw [classStep_eval pool .intersect _ _ _ 2 0 0 1 0 0 (by decide) (by decide) rfl,
            if_neg (by simp only [hstk, List.length_cons]; omega), if_neg (by omega), if_neg (by omega)]
        simp only [CStepRes.cont.injEq, hstk, List.length_cons]
        refine ⟨?_, ?_, ?_⟩ <;> trivial
  case intersectSmooth =>
    rcases hstk : st.stack with _ | ⟨rhs, _ | ⟨lhs, s⟩⟩
    · refine Or.inr (Or.inr (Or.inl ⟨.badStack, ?_, ?_⟩))
      · simp [dstep, hstk]
      · 
        rw [classStep_eval pool .intersectSmooth _ _ _ 2 1 0 1 0 0 (by decide) (by decide) rfl,
            if_pos (by simp only [hstk, List.length_cons, List.length_nil]; omega)]
    · refine Or.inr (Or.inr (Or.inl ⟨.badStack, ?_, ?_⟩))
      · simp [dstep, hstk]
      · 
        rw [classStep_eval pool .intersectSmooth _ _ _ 2 1 0 1 0 0 (by decide) (by decide) rfl,
            if_pos (by simp only [hstk, List.length_cons, List.length_nil]; omega)]
    · rcases readF32_char pool st.off with ⟨hb1, he1⟩ | ⟨hb1, v1, he1⟩
      · refine Or.inr (Or.inr (Or.inl ⟨.badConstants, ?_, ?_⟩))
        · simp [dstep, rbind, hstk, he1]
        · 
          rw [classStep_eval pool .intersectSmooth _ _ _ 2 1 0 1 0 0 (by decide) (by decide) rfl,
              if_neg (by simp only [hstk, List.length_cons]; omega), if_neg (by omega), if_pos (by omega)]
      · refine Or.inl ⟨⟨(st.g.opIntersectSmooth lhs rhs v1).1, (st.g.opIntersectSmooth lhs rhs v1).2 :: s, st.tstack, st.off + 1⟩, ?_, ?_⟩
        · simp [dstep, rbind, hstk, he1]
        · 
          rw [classStep_eval pool .intersectSmooth _ _ _ 2 1 0 1 0 0 (by decide) (by decide) rfl,
              if_neg (by simp only [hstk, List.length_cons]; omega), if_neg (by omega), if_neg (by omega)]
          simp only [CStepRes.cont.injEq, hstk, List.length_cons]
          refine ⟨?_, ?_, ?_⟩ <;> trivial
  case material =>
    rcases hstk : st.stack with _ | ⟨child, s⟩
    · refine Or.inr (Or.inr (Or.inl ⟨.badStack, ?_, ?_⟩))
      · simp [dstep, hstk]
      · rw [classStep_eval pool .material _ _ _ 1 3 0 1 0 0 (by decide) (by decide) rfl,
            if_pos (by simp only [hstk, List.length_nil]; omega)]
    · rcases readVec3_char pool st.off with ⟨hb1, he1⟩ | ⟨hb1, v1, he1⟩
      · refine Or.inr (Or.inr (Or.inl ⟨.badConstants, ?_, ?_⟩))
        · simp [dstep, rbind, hstk, he1]
        · rw [classStep_eval pool .material _ _ _ 1 3 0 1 0 0 (by decide) (by decide) rfl,
              if_neg (by simp only [hstk, List.length_cons]; omega),
              if_neg (by omega), if_pos (by omega)]
      · refine Or.inl ⟨⟨(st.g.opMaterial child ⟨v1⟩).1,
          (st.g.opMaterial child ⟨v1⟩).2 :: s, st.tstack, st.off + 3⟩, ?_, ?_⟩
        · simp [dstep, rbind, hstk, he1]
        · rw [classStep_eval pool .material _ _ _ 1 3 0 1 0 0 (by decide) (by decide) rfl,
              if_neg (by simp only [hstk, List.length_cons]; omega),
              if_neg (by omega), if_neg (by omega)]
          simp only [CStepRes.cont.injEq, hstk, List.length_cons]
          refine ⟨?_, ?_, ?_⟩ <;> trivial
  case popScale =>
    rcases hstk : st.stack with _ | ⟨child, s⟩
    · refine Or.inr (Or.inr (Or.inl ⟨.badStack, ?_, ?_⟩))
      · simp [dstep, hstk]
      · rw [classStep_eval pool .popScale _ _ _ 1 1 0 1 0 0 (by decide) (by decide) rfl,
            if_pos (by simp only [hstk, List.length_nil]; omega)]
    · rcases readF32_char pool st.off with ⟨hb1, he1⟩ | ⟨hb1, v1, he1⟩
      · refine Or.inr (Or.inr (Or.inl ⟨.badConstants, ?_, ?_⟩))
        · simp [dstep, rbind, hstk, he1]
        · rw [classStep_eval pool .popScale _ _ _ 1 1 0 1 0 0 (by decide) (by decide) rfl,
              if_neg (by simp only [hstk, List.length_cons]; omega),
              if_neg (by omega), if_pos (by omega)]
      · refine Or.inl ⟨⟨(st.g.opScale child v1).1,
          (st.g.opScale child v1).2 :: s, st.tstack, st.off + 1⟩, ?_, ?_⟩
        · simp [dstep, rbind, hstk, he1]
        · rw [classStep_eval pool .popScale _ _ _ 1 1 0 1 0 0 (by decide) (by decide) rfl,
              if_neg (by simp only [hstk, List.length_cons]; omega),
              if_neg (by omega), if_neg (by omega)]
          simp only [CStepRes.cont.injEq, hstk, List.length_cons]
          refine ⟨?_, ?_, ?_⟩ <;> trivial
  case pushTranslation =>
    rcases readVec3_char pool st.off with ⟨hb1, he1⟩ | ⟨hb1, v1, he1⟩
    · refine Or.inr (Or.inr (Or.inl ⟨.badConstants, ?_, ?_⟩))
      · simp [dstep, rbind, he1]
      · rw [classStep_eval pool .pushTranslation _ _ _ 0 3 0 0 1 0 (by decide) (by decide) rfl,
            if_neg (by omega), if_neg (by omega), if_pos (by omega)]
    · refine Or.inl ⟨⟨st.g, st.stack, .translation (Vec3.neg v1) :: st.tstack, st.off + 3⟩, ?_, ?_⟩
      · simp [dstep, rbind, he1]
      · rw [classStep_eval pool .pushTranslation _ _ _ 0 3 0 0 1 0 (by decide) (by decide) rfl,
            if_neg (by omega), if_neg (by omega), if_neg (by omega)]
        simp only [CStepRes.cont.injEq, List.length_cons]
        refine ⟨?_, ?_, ?_⟩ <;> trivial
  case pushRotation =>
    rcases readQuat_char pool st.off with ⟨hb1, he1⟩ | ⟨hb1, v1, he1⟩
    · refine Or.inr (Or.inr (Or.inl ⟨.badConstants, ?_, ?_⟩))
      · simp [dstep, rbind, he1]
      · rw [classStep_eval pool .pushRotation _ _ _ 0 4 0 0 1 0 (by decide) (by decide) rfl,
            if_neg (by omega), if_neg (by omega), if_pos (by omega)]
    · refine Or.inl ⟨⟨st.g, st.stack, .rotation v1.conjugate :: st.tstack, st.off + 4⟩, ?_, ?_⟩
      · simp [dstep, rbind, he1]
      · rw [classStep_eval pool .pushRotation _ _ _ 0 4 0 0 1 0 (by decide) (by decide) rfl,
            if_neg (by omega), if_neg (by omega), if_neg (by omega)]
        simp only [CStepRes.cont.injEq, List.length_cons]
        refine ⟨?_, ?_, ?_⟩ <;> trivial
  case popTransform =>
    rcases hstk : st.stack with _ | ⟨child, s⟩
    · refine Or.inr (Or.inr (Or.inl ⟨.badStack, ?_, ?_⟩))
      · simp [dstep, hstk]
      · rw [classStep_eval pool .popTransform _ _ _ 1 0 0 1 0 1 (by decide) (by decide) rfl,
            if_pos (by simp only [hstk, List.length_nil]; omega)]
    · rcases hts : st.tstack with _ | ⟨te, ts⟩
      · refine Or.inr (Or.inr (Or.inl ⟨.badStack, ?_, ?_⟩))
        · simp [dstep, hstk, hts]
        · rw [classStep_eval pool .popTransform _ _ _ 1 0 0 1 0 1 (by decide) (by decide) rfl,
              if_neg (by simp only [hstk, List.length_cons]; omega),
              if_pos (by simp only [hts, List.length_nil]; omega)]
      · cases te with
        | translation t =>
          refine Or.inl ⟨⟨(st.g.opTranslate child t).1,
            (st.g.opTranslate child t).2 :: s, ts, st.off⟩, ?_, ?_⟩
          · simp [dstep, hstk, hts]
          · rw [classStep_eval pool .popTransform _ _ _ 1 0 0 1 0 1 (by decide) (by decide) rfl,
                if_neg (by simp only [hstk, List.length_cons]; omega),
                if_neg (by simp only [hts, List.length_cons]; omega),
                if_neg (by omega)]
            simp only [CStepRes.cont.injEq, hstk, hts, List.length_cons]
            refine ⟨?_, ?_, ?_⟩ <;> trivial
        | rotation q =>
          refine Or.inl ⟨⟨(st.g.opRotate child q).1,
            (st.g.opRotate child q).2 :: s, ts, st.off⟩, ?_, ?_⟩
          · simp [dstep, hstk, hts]
          · rw [classStep_eval pool .popTransform _ _ _ 1 0 0 1 0 1 (by decide) (by decide) rfl,
                if_neg (by simp only [hstk, List.length_cons]; omega),
                if_neg (by simp only [hts, List.length_cons]; omega),
                if_neg (by omega)]
            simp only [CStepRes.cont.injEq, hstk, hts, List.length_cons]
            refine ⟨?_, ?_, ?_⟩ <;> trivial
  case pushScale =>
    refine Or.inl ⟨⟨st.g, st.stack, st.tstack, st.off + 1⟩, by simp [dstep], ?_⟩
    rw [classStep_eval pool .pushScale _ _ _ 0 0 1 0 0 0 (by decide) (by decide) rfl,
        if_neg (by omega), if_neg (by omega), if_neg (by omega)]
    simp only [CStepRes.cont.injEq]
    refine ⟨?_, ?_, ?_⟩ <;> trivial
  case endOp =>
    refine Or.inr (Or.inl ⟨by simp [dstep], ?_⟩)
    simp [classStep]
  case biconvexLens =>
    rcases readF32_char pool st.off with ⟨hb1, he1⟩ | ⟨hb1, v1, he1⟩
    · refine Or.inr (Or.inr (Or.inl ⟨.badConstants, ?_, ?_⟩))
      · simp [dstep, rbind, he1]
      · rw [classStep_biconvex, if_pos (by omega)]
    · rcases readF32_char pool (st.off + 1) with ⟨hb2, he2⟩ | ⟨hb2, v2, he2⟩
      · refine Or.inr (Or.inr (Or.inl ⟨.badConstants, ?_, ?_⟩))
        · simp [dstep, rbind, he1, he2]
        · rw [classStep_biconvex, if_pos (by omega)]
      · rcases readF32_char pool (st.off + 1 + 1) with ⟨hb3, he3⟩ | ⟨hb3, v3, he3⟩
        · refine Or.inr (Or.inr (Or.inl ⟨.badConstants, ?_, ?_⟩))
          · simp [dstep, rbind, he1, he2, he3]
          · rw [classStep_biconvex, if_pos (by omega)]
        · have hge2 : pool[st.off + 2]? = some v3 := by
            rw [show st.off + 2 = st.off + 1 + 1 by omega]
            exact readF32_getElem _ _ _ _ he3
          by_cases hch : v3 / 2 < 1 / 1000
          · refine Or.inr (Or.inr (Or.inr ⟨?_, ?_⟩))
            · have hbl : st.g.biconvexLens v1 v2 v3 = none :=
                (biconvexLens_none_iff st.g v1 v2 v3).mpr hch
              simp [dstep, rbind, he1, he2, he3, hbl]
            · rw [classStep_biconvex, if_neg (by omega)]
              simp only [hge2]
              rw [if_pos hch]
          · obtain ⟨r, hbl⟩ : ∃ r, st.g.biconvexLens v1 v2 v3 = some r := by
              cases hq : st.g.biconvexLens v1 v2 v3 with
              | none => exact absurd ((biconvexLens_none_iff st.g v1 v2 v3).mp hq) hch
              | some r => exact ⟨r, rfl⟩
            refine Or.inl ⟨⟨r.1, r.2 :: st.stack, st.tstack, st.off + 1 + 1 + 1⟩, ?_, ?_⟩
            · simp [dstep, rbind, he1, he2, he3, hbl]
            · rw [classStep_biconvex, if_neg (by omega)]
              simp only [hge2]
              rw [if_neg hch]
              simp only [CStepRes.cont.injEq, List.length_cons]

/-- The decompile opcode loop and the classifier loop agree step for step:
same error, same panic, or same End flag with matching stack heights and
constant cursor. -/
theorem decompLoop_class (sinF cosF : ℚ → ℚ) (norm : Vec3 → ℚ) (pool : List ℚ) :
    ∀ (ops : List Opcode) (st : DState),
      (∃ e, decompLoop sinF cosF norm pool ops st = .fail e ∧
         classLoop pool ops st.stack.length st.tstack.length st.off = .fail e) ∨
      (decompLoop sinF cosF norm pool ops st = .panicked ∧
         classLoop pool ops st.stack.length st.tstack.length st.off = .panicked) ∨
      (∃ hitEnd st2, decompLoop sinF cosF norm pool ops st = .finished hitEnd st2 ∧
         classLoop pool ops st.stack.length st.tstack.length st.off
           = .finished hitEnd st2.stack.length st2.tstack.length st2.off)
  | [], st => by
      right; right
      exact ⟨false, st, rfl, rfl⟩
  | op :: rest, st => by
      rcases dstep_class sinF cosF norm pool op st with
        ⟨st2, hd, hc⟩ | ⟨hd, hc⟩ | ⟨e, hd, hc⟩ | ⟨hd, hc⟩
      · rcases decompLoop_class sinF cosF norm pool rest st2 with
          ⟨e, hd2, hc2⟩ | ⟨hd2, hc2⟩ | ⟨hitEnd, st3, hd2, hc2⟩
        · exact Or.inl ⟨e, by simp [decompLoop, hd, hd2], by simp [classLoop, hc, hc2]⟩
        · exact Or.inr (Or.inl ⟨by simp [decompLoop, hd, hd2],
            by simp [classLoop, hc, hc2]⟩)
        · exact Or.inr (Or.inr ⟨hitEnd, st3, by simp [decompLoop, hd, hd2],
            by simp [classLoop, hc, hc2]⟩)
      · exact Or.inr (Or.inr ⟨true, st, by simp [decompLoop, hd],
          by simp [classLoop, hc]⟩)
      · exact Or.inl ⟨e, by simp [decompLoop, hd], by simp [classLoop, hc]⟩
      · exact Or.inr (Or.inl ⟨by simp [decompLoop, hd], by simp [classLoop, hc]⟩)

/-- decompile and the stack-height classifier always produce the same
outcome: same error, same panic, or success on both sides. -/
theorem decompile_class (sinF cosF : ℚ → ℚ) (norm : Vec3 → ℚ)
    (ops : List Opcode) (pool : List ℚ) :
    outcomeOf (decompile sinF cosF norm ops pool) = decompClassify ops pool := by
  rcases decompLoop_class sinF cosF norm pool ops ⟨Graph.empty, [], [], 0⟩ with
    ⟨e, hd, hc⟩ | ⟨hd, hc⟩ | ⟨hitEnd, st2, hd, hc⟩
  · have hc2 : classLoop pool ops 0 0 0 = .fail e := hc
    unfold decompile decompClassify
    rw [hd, hc2]
    rfl
  · have hc2 : classLoop pool ops 0 0 0 = .panicked := hc
    unfold decompile decompClassify
    rw [hd, hc2]
    rfl
  · have hc2 : classLoop pool ops 0 0 0
        = .finished hitEnd st2.stack.length st2.tstack.length st2.off := hc
    unfold decompile decompClassify
    rw [hd, hc2]
    rcases hstk : st2.stack with _ | ⟨root, _ | ⟨x, s⟩⟩
    · simp [outcomeOf, hstk]
    · rcases hts : st2.tstack with _ | ⟨t, ts⟩
      · cases hitEnd <;> by_cases hoff : st2.off = pool.length <;>
          simp [outcomeOf, hstk, hts, hoff]
      · simp [outcomeOf, hstk, hts]
    · simp [outcomeOf, hstk]

theorem classStep_biconvex_cases (pool : List ℚ) (h th cur : Nat) :
    classStep pool .biconvexLens h th cur = .fail .badConstants ∨
    classStep pool .biconvexLens h th cur = .panicked ∨
    classStep pool .biconvexLens h th cur = .cont (h + 1) th (cur + 3) := by
  rw [classStep_biconvex]
  by_cases hb : pool.length < cur + 3
  · rw [if_pos hb]
    exact Or.inl rfl
  · rw [if_neg hb]
    cases hc : pool[cur + 2]? with
    | none => exact Or.inr (Or.inr rfl)
    | some chord =>
      by_cases hch : chord / 2 < 1 / 1000
      · right; left
        show (if chord / 2 < 1 / 1000 then CStepRes.panicked
          else CStepRes.cont (h + 1) th (cur + 3)) = CStepRes.panicked
        rw [if_pos hch]
      · right; right
        show (if chord / 2 < 1 / 1000 then CStepRes.panicked
          else CStepRes.cont (h + 1) th (cur + 3)) = CStepRes.cont (h + 1) th (cur + 3)
        rw [if_neg hch]

theorem classSeg_push (pool : List ℚ) (op : Opcode) (R S : Nat)
    (hop : op ≠ .endOp) (hsh : decompShape op = ⟨0, R, S, 1, 0, 0⟩) :
    ∀ (tail : List Opcode) (h th cur : Nat),
      classLoop pool (op :: tail) h th cur = .fail .badConstants ∨
      classLoop pool (op :: tail) h th cur = .panicked ∨
      ∃ cur2, classLoop pool (op :: tail) h th cur
        = classLoop pool tail (h + 1) th cur2 := by
  intro tail h th cur
  by_cases hbi : op = .biconvexLens
  · subst hbi
    simp only [classLoop]
    rcases classStep_biconvex_cases pool h th cur with hcs | hcs | hcs <;> rw [hcs]
    · exact Or.inl rfl
    · exact Or.inr (Or.inl rfl)
    · exact Or.inr (Or.inr ⟨cur + 3, rfl⟩)
  · simp only [classLoop]
    rw [classStep_eval pool op h th cur 0 R S 1 0 0 hop hbi hsh]
    by_cases hb : 0 < R ∧ pool.length < cur + R
    · rw [if_neg (by omega), if_neg (by omega), if_pos hb]
      exact Or.inl rfl
    · rw [if_neg (by omega), if_neg (by omega), if_neg hb]
      exact Or.inr (Or.inr ⟨cur + R + S, rfl⟩)

theorem classSeg_join (pool : List ℚ) (op : Opcode) (R : Nat)
    (hop : op ≠ .endOp) (hbi : op ≠ .biconvexLens)
    (hsh : decompShape op = ⟨2, R, 0, 1, 0, 0⟩) :
    ∀ (tail : List Opcode) (h th cur : Nat),
      classLoop pool (op :: tail) (h + 1 + 1) th cur = .fail .badConstants ∨
      ∃ cur2, classLoop pool (op :: tail) (h + 1 + 1) th cur
        = classLoop pool tail (h + 1) th cur2 := by
  intro tail h th cur
  simp only [classLoop]
  rw [classStep_eval pool op (h + 1 + 1) th cur 2 R 0 1 0 0 hop hbi hsh]
  by_cases hb : 0 < R ∧ pool.length < cur + R
  · rw [if_neg (by omega), if_neg (by omega), if_pos hb]
    exact Or.inl rfl
  · rw [if_neg (by omega), if_neg (by omega), if_neg hb]
    exact Or.inr ⟨cur + R + 0, rfl⟩

theorem classSeg_pop1 (pool : List ℚ) (op : Opcode) (R : Nat)
    (hop : op ≠ .endOp) (hbi : op ≠ .biconvexLens)
    (hsh : decompShape op = ⟨1, R, 0, 1, 0, 0⟩) :
    ∀ (tail : List Opcode) (h th cur : Nat),
      classLoop pool (op :: tail) (h + 1) th cur = .fail .badConstants ∨
      ∃ cur2, classLoop pool (op :: tail) (h + 1) th cur
        = classLoop pool tail (h + 1) th cur2 := by
  intro tail h th cur
  simp only [classLoop]
  rw [classStep_eval pool op (h + 1) th cur 1 R 0 1 0 0 hop hbi hsh]
  by_cases hb : 0 < R ∧ pool.length < cur + R
  · rw [if_neg (by omega), if_neg (by omega), if_pos hb]
    exact Or.inl rfl
  · rw [if_neg (by omega), if_neg (by omega), if_neg hb]
    exact Or.inr ⟨cur + R + 0, rfl⟩

theorem classSeg_pushT (pool : List ℚ) (op : Opcode) (R : Nat)
    (hop : op ≠ .endOp) (hbi : op ≠ .biconvexLens)
    (hsh : decompShape op = ⟨0, R, 0, 0, 1, 0⟩) :
    ∀ (tail : List Opcode) (h th cur : Nat),
      classLoop pool (op :: tail) h th cur = .fail .badConstants ∨
      ∃ cur2, classLoop pool (op :: tail) h th cur
        = classLoop pool tail h (th + 1) cur2 := by
  intro tail h th cur
  simp only [classLoop]
  rw [classStep_eval pool op h th cur 0 R 0 0 1 0 hop hbi hsh]
  by_cases hb : 0 < R ∧ pool.length < cur + R
  · rw [if_neg (by omega), if_neg (by omega), if_pos hb]
    exact Or.inl rfl
  · rw [if_neg (by omega), if_neg (by omega), if_neg hb]
    exact Or.inr ⟨cur + R + 0, rfl⟩

theorem classSeg_popT (pool : List ℚ) :
    ∀ (tail : List Opcode) (h th cur : Nat),
      classLoop pool (.popTransform :: tail) (h + 1) (th + 1) cur
        = classLoop pool tail (h + 1) th cur := by
  intro tail h th cur
  simp only [classLoop]
  rw [classStep_eval pool .popTransform (h + 1) (th + 1) cur 1 0 0 1 0 1
    (by decide) (by decide) rfl]
  rw [if_neg (by omega), if_neg (by omega), if_neg (by omega)]
  rfl

theorem classSeg_pushScale (pool : List ℚ) :
    ∀ (tail : List Opcode) (h th cur : Nat),
      classLoop pool (.pushScale :: tail) h th cur
        = classLoop pool tail h th (cur + 1) := by
  intro tail h th cur
  simp only [classLoop]
  rw [classStep_eval pool .pushScale h th cur 0 0 1 0 0 0
    (by decide) (by decide) rfl]
  rw [if_neg (by omega), if_neg (by omega), if_neg (by omega)]
  rfl

/-- The classifier over the chain a UnionMulti join fold emits: pushes one
net value, or fails on constants, or panics, provided each child segment
does the same. -/
theorem joinFold_class (pool : List ℚ) (jop : Opcode) (jR : Nat) (jks : List ℚ)
    (hop : jop ≠ .endOp) (hbi : jop ≠ .biconvexLens)
    (hsh : decompShape jop = ⟨2, jR, 0, 1, 0, 0⟩)
    (step : Nat → Except CompileErr (List Opcode × List ℚ)) :
    ∀ (chs : List Nat) (o : List Opcode) (k : List ℚ),
    joinFold step jop jks chs = .ok (o, k) →
    (∀ c ∈ chs, ∀ oc kc, step c = .ok (oc, kc) →
      ∀ (tail : List Opcode) (h th cur : Nat),
        classLoop pool (oc ++ tail) h th cur = .fail .badConstants ∨
        classLoop pool (oc ++ tail) h th cur = .panicked ∨
        ∃ cur2, classLoop pool (oc ++ tail) h th cur
          = classLoop pool tail (h + 1) th cur2) →
    ∀ (tail : List Opcode) (h th cur : Nat),
      classLoop pool (o ++ tail) (h + 1) th cur = .fail .badConstants ∨
      classLoop pool (o ++ tail) (h + 1) th cur = .panicked ∨
      ∃ cur2, classLoop pool (o ++ tail) (h + 1) th cur
        = classLoop pool tail (h + 1) th cur2 := by
  intro chs
  induction chs with
  | nil =>
    intro o k hj _ tail h th cur
    simp only [joinFold] at hj
    cases hj
    exact Or.inr (Or.inr ⟨cur, rfl⟩)
  | cons c cs ih =>
    intro o k hj hstep tail h th cur
    simp only [joinFold, bind, Except.bind] at hj
    cases hs : step c with
    | error e => rw [hs] at hj; exact absurd hj (by simp)
    | ok p =>
      rw [hs] at hj
      cases hr : joinFold step jop jks cs with
      | error e => rw [hr] at hj; exact absurd hj (by simp)
      | ok q =>
        rw [hr] at hj
        simp only [Except.ok.injEq, Prod.mk.injEq] at hj
        obtain ⟨ho, hk⟩ := hj
        have e1 : o ++ tail = p.1 ++ (jop :: (q.1 ++ tail)) := by
          rw [← ho]; simp
        rw [e1]
        rcases hstep c (by simp) p.1 p.2 (by rw [hs])
            (jop :: (q.1 ++ tail)) (h + 1) th cur with hc1 | hc1 | ⟨cur2, hc1⟩
        · exact Or.inl hc1
        · exact Or.inr (Or.inl hc1)
        · rw [hc1]
          rcases classSeg_join pool jop jR hop hbi hsh (q.1 ++ tail) h th cur2 with
            hc2 | ⟨cur3, hc2⟩
          · exact Or.inl hc2
          · rw [hc2]
            exact ih q.1 q.2 (by rw [hr])
              (fun c2 hc2in => hstep c2 (by simp [hc2in])) tail h th cur3

/-- Classifier segment behaviour of compiled code: walking the opcodes a
successful compile_node emits, the decompile classifier either fails its
constant bounds check, panics on a degenerate BiconvexLens chord, or
finishes the segment with exactly one extra value on the stack, the
transform stack height unchanged, provided no UnionMulti node has an empty
child list. -/
theorem compileNode_class (pool : List ℚ) :
    ∀ (fuel : Nat) (g : Graph) (root : Nat) (path : List Nat)
      (ops : List Opcode) (cs : List ℚ),
    compileNode fuel g root path = .ok (ops, cs) →
    graphNoEmptyMultiB g = true →
    ∀ (tail : List Opcode) (h th cur : Nat),
      classLoop pool (ops ++ tail) h th cur = .fail .badConstants ∨
      classLoop pool (ops ++ tail) h th cur = .panicked ∨
      ∃ cur2, classLoop pool (ops ++ tail) h th cur
        = classLoop pool tail (h + 1) th cur2 := by
  intro fuel
  induction fuel with
  | zero => intro g root path ops cs hok; exact absurd hok (by simp [compileNode])
  | succ fuel ih =>
    intro g root path ops cs hok hnem tail h th cur
    by_cases hp : root ∈ path
    · rw [show compileNode (fuel + 1) g root path = .error .cycle by
        simp [compileNode, hp]] at hok
      exact absurd hok (by simp)
    · cases hfind : g.find root with
      | none =>
        rw [show compileNode (fuel + 1) g root path = .error .missing by
          simp [compileNode, hp, hfind]] at hok
        exact absurd hok (by simp)
      | some node =>
        have hnode : nodeNoEmptyMultiB node = true := by
          cases g with
          | mk a ns =>
            exact find_noEmptyMulti ns root node
              (by simpa [graphNoEmptyMultiB] using hnem) hfind
        have hbin : ∀ (l r : Nat) (ol og : List Opcode) (kl kg : List ℚ)
            (jop : Opcode) (jR : Nat), jop ≠ .endOp → jop ≠ .biconvexLens →
            decompShape jop = ⟨2, jR, 0, 1, 0, 0⟩ →
            compileNode fuel g l (root :: path) = .ok (ol, kl) →
            compileNode fuel g r (root :: path) = .ok (og, kg) →
            (classLoop pool (((ol ++ og) ++ [jop]) ++ tail) h th cur
                = .fail .badConstants ∨
             classLoop pool (((ol ++ og) ++ [jop]) ++ tail) h th cur = .panicked ∨
             ∃ cur2, classLoop pool (((ol ++ og) ++ [jop]) ++ tail) h th cur
               = classLoop pool tail (h + 1) th cur2) := by
          intro l r ol og kl kg jop jR hop hbi hsh hl hr
          have e1 : ((ol ++ og) ++ [jop]) ++ tail = ol ++ (og ++ (jop :: tail)) := by
            simp
          rw [e1]
          rcases ih g l (root :: path) ol kl hl hnem
              (og ++ (jop :: tail)) h th cur with hc1 | hc1 | ⟨cur2, hc1⟩
          · exact Or.inl hc1
          · exact Or.inr (Or.inl hc1)
          · rw [hc1]
            rcases ih g r (root :: path) og kg hr hnem
                (jop :: tail) (h + 1) th cur2 with hc2 | hc2 | ⟨cur3, hc2⟩
            · exact Or.inl hc2
            · exact Or.inr (Or.inl hc2)
            · rw [hc2]
              rcases classSeg_join pool jop jR hop hbi hsh tail h th cur3 with
                hc3 | ⟨cur4, hc3⟩
              · exact Or.inl hc3
              · exact Or.inr (Or.inr ⟨cur4, hc3⟩)
        simp only [compileNode, if_neg hp, hfind] at hok
        cases node with
        | plane p0 =>
          cases hok
          exact classSeg_push pool .plane 4 0 (by decide) rfl tail h th cur
        | sphere c r =>
          cases hok
          exact classSeg_push pool .sphere 4 0 (by decide) rfl tail h th cur
        | capsule p0 p1 r =>
          have hok2 : (if p0 = p1
              then (.ok ([.sphere], p0.toConsts ++ [r]) :
                Except CompileErr (List Opcode × List ℚ))
              else .ok ([.capsule], p0.toConsts ++ p1.toConsts ++ [r]))
              = .ok (ops, cs) := hok
          by_cases hpe : p0 = p1
          · rw [if_pos hpe] at hok2
            cases hok2
            exact classSeg_push pool .sphere 4 0 (by decide) rfl tail h th cur
          · rw [if_neg hpe] at hok2
            cases hok2
            exact classSeg_push pool .capsule 7 0 (by decide) rfl tail h th cur
        | roundedCylinder a b c =>
          cases hok
          exact classSeg_push pool .roundedCylinder 3 0 (by decide) rfl tail h th cur
        | taperedCapsule p0 p1 r0 r1 =>
          cases hok
          exact classSeg_push pool .taperedCapsule 8 0 (by decide) rfl tail h th cur
        | cone a b =>
          cases hok
          exact classSeg_push pool .cone 2 0 (by decide) rfl tail h th cur
        | roundedBox a b =>
          cases hok
          exact classSeg_push pool .roundedBox 4 0 (by decide) rfl tail h th cur
        | torus a b =>
          cases hok
          exact classSeg_push pool .torus 2 0 (by decide) rfl tail h th cur
        | torusSector a b c d =>
          cases hok
          exact classSeg_push pool .torusSector 3 0 (by decide) rfl tail h th cur
        | biconvexLens a b c =>
          cases hok
          exact classSeg_push pool .biconvexLens 3 0 (by decide) rfl tail h th cur
        | material child m =>
          simp only [bind, Except.bind] at hok
          cases hc : compileNode fuel g child (root :: path) with
          | error e => rw [hc] at hok; exact absurd hok (by simp)
          | ok p =>
            rw [hc] at hok
            simp only [Except.ok.injEq, Prod.mk.injEq] at hok
            have e1 : ops ++ tail = p.1 ++ (Opcode.material :: tail) := by
              rw [← hok.1]; simp
            rw [e1]
            rcases ih g child (root :: path) p.1 p.2 (by rw [hc]) hnem
                (Opcode.material :: tail) h th cur with hc1 | hc1 | ⟨cur2, hc1⟩
            · exact Or.inl hc1
            · exact Or.inr (Or.inl hc1)
            · rw [hc1]
              rcases classSeg_pop1 pool .material 3 (by decide) (by decide) rfl
                  tail h th cur2 with hc2 | ⟨cur3, hc2⟩
              · exact Or.inl hc2
              · exact Or.inr (Or.inr ⟨cur3, hc2⟩)
        | union l r =>
          simp only [bind, Except.bind] at hok
          cases h1 : compileNode fuel g l (root :: path) with
          | error e => rw [h1] at hok; exact absurd hok (by simp)
          | ok p1 =>
            rw [h1] at hok
            cases h2 : compileNode fuel g r (root :: path) with
            | error e => rw [h2] at hok; exact absurd hok (by simp)
            | ok p2 =>
              rw [h2] at hok
              simp only [Except.ok.injEq, Prod.mk.injEq] at hok
              rw [← hok.1]
              exact hbin l r p1.1 p2.1 p1.2 p2.2 .union 0 (by decide) (by decide)
                rfl (by rw [h1]) (by rw [h2])
        | unionSmooth l r s =>
          simp only [bind, Except.bind] at hok
          cases h1 : compileNode fuel g l (root :: path) with
          | error e => rw [h1] at hok; exact absurd hok (by simp)
          | ok p1 =>
            rw [h1] at hok
            cases h2 : compileNode fuel g r (root :: path) with
            | error e => rw [h2] at hok; exact absurd hok (by simp)
            | ok p2 =>
              rw [h2] at hok
              simp only [Except.ok.injEq, Prod.mk.injEq] at hok
              rw [← hok.1]
              exact hbin l r p1.1 p2.1 p1.2 p2.2 .unionSmooth 1 (by decide)
                (by decide) rfl (by rw [h1]) (by rw [h2])
        | subtract l r =>
          simp only [bind, Except.bind] at hok
          cases h1 : compileNode fuel g l (root :: path) with
          | error e => rw [h1] at hok; exact absurd hok (by simp)
          | ok p1 =>
            rw [h1] at hok
            cases h2 : compileNode fuel g r (root :: path) with
            | error e => rw [h2] at hok; exact absurd hok (by simp)
            | ok p2 =>
              rw [h2] at hok
              simp only [Except.ok.injEq, Prod.mk.injEq] at hok
              rw [← hok.1]
              exact hbin l r p1.1 p2.1 p1.2 p2.2 .subtract 0 (by decide) (by decide)
                rfl (by rw [h1]) (by rw [h2])
        | subtractSmooth l r s =>
          simp only [bind, Except.bind] at hok
          cases h1 : compileNode fuel g l (root :: path) with
          | error e => rw [h1] at hok; exact absurd hok (by simp)
          | ok p1 =>
            rw [h1] at hok
            cases h2 : compileNode fuel g r (root :: path) with
            | error e => rw [h2] at hok; exact absurd hok (by simp)
            | ok p2 =>
              rw [h2] at hok
              simp only [Except.ok.injEq, Prod.mk.injEq] at hok
              rw [← hok.1]
              exact hbin l r p1.1 p2.1 p1.2 p2.2 .subtractSmooth 1 (by decide)
                (by decide) rfl (by rw [h1]) (by rw [h2])
        | intersect l r =>
          simp only [bind, Except.bind] at hok
          cases h1 : compileNode fuel g l (root :: path) with
          | error e => rw [h1] at hok; exact absurd hok (by simp)
          | ok p1 =>
            rw [h1] at hok
            cases h2 : compileNode fuel g r (root :: path) with
            | error e => rw [h2] at hok; exact absurd hok (by simp)
            | ok p2 =>
              rw [h2] at hok
              simp only [Except.ok.injEq, Prod.mk.injEq] at hok
              rw [← hok.1]
              exact hbin l r p1.1 p2.1 p1.2 p2.2 .intersect 0 (by decide)
                (by decide) rfl (by rw [h1]) (by rw [h2])
        | intersectSmooth l r s =>
          simp only [bind, Except.bind] at hok
          cases h1 : compileNode fuel g l (root :: path) with
          | error e => rw [h1] at hok; exact absurd hok (by simp)
          | ok p1 =>
            rw [h1] at hok
            cases h2 : compileNode fuel g r (root :: path) with
            | error e => rw [h2] at hok; exact absurd hok (by simp)
            | ok p2 =>
              rw [h2] at hok
              simp only [Except.ok.injEq, Prod.mk.injEq] at hok
              rw [← hok.1]
              exact hbin l r p1.1 p2.1 p1.2 p2.2 .intersectSmooth 1 (by decide)
                (by decide) rfl (by rw [h1]) (by rw [h2])
        | unionMulti children =>
          cases children with
          | nil => simp [nodeNoEmptyMultiB] at hnode
          | cons c cs2 =>
            simp only [bind, Except.bind] at hok
            cases h1 : compileNode fuel g c (root :: path) with
            | error e => rw [h1] at hok; exact absurd hok (by simp)
            | ok p1 =>
              rw [h1] at hok
              cases h2 : joinFold (fun c2 => compileNode fuel g c2 (root :: path))
                  .union [] cs2 with
              | error e => rw [h2] at hok; exact absurd hok (by simp)
              | ok p2 =>
                rw [h2] at hok
                simp only [Except.ok.injEq, Prod.mk.injEq] at hok
                have e1 : ops ++ tail = p1.1 ++ (p2.1 ++ tail) := by
                  rw [← hok.1]; simp
                rw [e1]
                rcases ih g c (root :: path) p1.1 p1.2 (by rw [h1]) hnem
                    (p2.1 ++ tail) h th cur with hc1 | hc1 | ⟨cur2, hc1⟩
                · exact Or.inl hc1
                · exact Or.inr (Or.inl hc1)
                · rw [hc1]
                  exact joinFold_class pool .union 0 [] (by decide) (by decide) rfl
                    (fun c2 => compileNode fuel g c2 (root :: path)) cs2 p2.1 p2.2
                    (by rw [h2])
                    (fun c2 _ oc kc hcomp => ih g c2 (root :: path) oc kc hcomp hnem)
                    tail h th cur2
        | unionMultiSmooth children s =>
          cases children with
          | nil => simp [nodeNoEmptyMultiB] at hnode
          | cons c cs2 =>
            simp only [bind, Except.bind] at hok
            cases h1 : compileNode fuel g c (root :: path) with
            | error e => rw [h1] at hok; exact absurd hok (by simp)
            | ok p1 =>
              rw [h1] at hok
              cases h2 : joinFold (fun c2 => compileNode fuel g c2 (root :: path))
                  .unionSmooth [max s minSmoothing] cs2 with
              | error e => rw [h2] at hok; exact absurd hok (by simp)
              | ok p2 =>
                rw [h2] at hok
                simp only [Except.ok.injEq, Prod.mk.injEq] at hok
                have e1 : ops ++ tail = p1.1 ++ (p2.1 ++ tail) := by
                  rw [← hok.1]; simp
                rw [e1]
                rcases ih g c (root :: path) p1.1 p1.2 (by rw [h1]) hnem
                    (p2.1 ++ tail) h th cur with hc1 | hc1 | ⟨cur2, hc1⟩
                · exact Or.inl hc1
                · exact Or.inr (Or.inl hc1)
                · rw [hc1]
                  exact joinFold_class pool .unionSmooth 1 [max s minSmoothing]
                    (by decide) (by decide) rfl
                    (fun c2 => compileNode fuel g c2 (root :: path)) cs2 p2.1 p2.2
                    (by rw [h2])
                    (fun c2 _ oc kc hcomp => ih g c2 (root :: path) oc kc hcomp hnem)
                    tail h th cur2
        | translate t child =>
          simp only [bind, Except.bind] at hok
          cases hc : compileNode fuel g child (root :: path) with
          | error e => rw [hc] at hok; exact absurd hok (by simp)
          | ok p =>
            rw [hc] at hok
            simp only [Except.ok.injEq, Prod.mk.injEq] at hok
            have e1 : ops ++ tail
                = Opcode.pushTranslation :: (p.1 ++ (Opcode.popTransform :: tail)) := by
              rw [← hok.1]; simp
            rw [e1]
            rcases classSeg_pushT pool .pushTranslation 3 (by decide) (by decide)
                rfl (p.1 ++ (Opcode.popTransform :: tail)) h th cur with
              hc1 | ⟨cur2, hc1⟩
            · exact Or.inl hc1
            · rw [hc1]
              rcases ih g child (root :: path) p.1 p.2 (by rw [hc]) hnem
                  (Opcode.popTransform :: tail) h (th + 1) cur2 with
                hc2 | hc2 | ⟨cur3, hc2⟩
              · exact Or.inl hc2
              · exact Or.inr (Or.inl hc2)
              · rw [hc2, classSeg_popT pool tail h th cur3]
                exact Or.inr (Or.inr ⟨cur3, rfl⟩)
        | rotate q child =>
          simp only [bind, Except.bind] at hok
          cases hc : compileNode fuel g child (root :: path) with
          | error e => rw [hc] at hok; exact absurd hok (by simp)
          | ok p =>
            rw [hc] at hok
            simp only [Except.ok.injEq, Prod.mk.injEq] at hok
            have e1 : ops ++ tail
                = Opcode.pushRotation :: (p.1 ++ (Opcode.popTransform :: tail)) := by
              rw [← hok.1]; simp
            rw [e1]
            rcases classSeg_pushT pool .pushRotation 4 (by decide) (by decide)
                rfl (p.1 ++ (Opcode.popTransform :: tail)) h th cur with
              hc1 | ⟨cur2, hc1⟩
            · exact Or.inl hc1
            · rw [hc1]
              rcases ih g child (root :: path) p.1 p.2 (by rw [hc]) hnem
                  (Opcode.popTransform :: tail) h (th + 1) cur2 with
                hc2 | hc2 | ⟨cur3, hc2⟩
              · exact Or.inl hc2
              · exact Or.inr (Or.inl hc2)
              · rw [hc2, classSeg_popT pool tail h th cur3]
                exact Or.inr (Or.inr ⟨cur3, rfl⟩)
        | scale s child =>
          simp only [bind, Except.bind] at hok
          cases hc : compileNode fuel g child (root :: path) with
          | error e => rw [hc] at hok; exact absurd hok (by simp)
          | ok p =>
            rw [hc] at hok
            simp only [Except.ok.injEq, Prod.mk.injEq] at hok
            have e1 : ops ++ tail
                = Opcode.pushScale :: (p.1 ++ (Opcode.popScale :: tail)) := by
              rw [← hok.1]; simp
            rw [e1, classSeg_pushScale pool (p.1 ++ (Opcode.popScale :: tail)) h th cur]
            rcases ih g child (root :: path) p.1 p.2 (by rw [hc]) hnem
                (Opcode.popScale :: tail) h th (cur + 1) with hc1 | hc1 | ⟨cur2, hc1⟩
            · exact Or.inl hc1
            · exact Or.inr (Or.inl hc1)
            · rw [hc1]
              rcases classSeg_pop1 pool .popScale 1 (by decide) (by decide) rfl
                  tail h th cur2 with hc2 | ⟨cur3, hc2⟩
              · exact Or.inl hc2
              · exact Or.inr (Or.inr ⟨cur3, hc2⟩)
        | graphNode r sub =>
          have hsubnem : graphNoEmptyMultiB sub = true := by
            simpa [nodeNoEmptyMultiB] using hnode
          exact ih sub r [] ops cs hok hsubnem tail h th cur

/-- Claim C4 (amended): for every graph whose UnionMulti and
UnionMultiSmooth nodes all have at least one child, every program compile
emits is balanced: evaluation from an empty stack runs to End with exactly
one distance value (a function of the query point) on the value stack, so
interpretation succeeds, and decompiling the program never reports
BadStack: no opcode pops an empty stack and exactly one value remains at
the end. -/
theorem spec_c4_amended {SD : Type} (O : Ops SD) (fuel : Nat) (g : Graph)
    (root : Nat) (ops : List Opcode) (cs : List ℚ)
    (hok : compileF fuel g root = .ok (ops, cs))
    (hnem : graphNoEmptyMultiB g = true) :
    (∃ F : Vec3 → SD, ∀ p : Vec3,
      exec O ops cs ⟨[], [], p⟩ = some (⟨[F p], [], p⟩, []) ∧
      interpretD O ops cs p = some (F p)) ∧
    ∀ (sinF cosF : ℚ → ℚ) (norm : Vec3 → ℚ),
      decompile sinF cosF norm ops cs ≠ .err .badStack := by
  simp only [compileF, bind, Except.bind] at hok
  cases hcomp : compileNode fuel g root [] with
  | error e => rw [hcomp] at hok; exact absurd hok (by simp)
  | ok p =>
    rw [hcomp] at hok
    simp only [Except.ok.injEq, Prod.mk.injEq] at hok
    obtain ⟨hops, hcs⟩ := hok
    constructor
    · obtain ⟨F, hF⟩ := compileNode_exec O fuel g root [] p.1 p.2
        (by rw [hcomp]) hnem
      refine ⟨F, fun pt => ?_⟩
      have h1 : exec O ops cs ⟨[], [], pt⟩ = some (⟨[F pt], [], pt⟩, []) := by
        rw [← hops, ← hcs]
        have h2 := hF [.endOp] [] ⟨[], [], pt⟩
        rw [List.append_nil] at h2
        rw [h2]
        rfl
      exact ⟨h1, by simp [interpretD, h1]⟩
    · intro sinF cosF norm hbad
      have hout : outcomeOf (decompile sinF cosF norm ops cs) = .err .badStack := by
        rw [hbad]
        rfl
      rw [decompile_class] at hout
      rw [← hops, ← hcs] at hout
      unfold decompClassify at hout
      rcases compileNode_class p.2 fuel g root [] p.1 p.2 (by rw [hcomp]) hnem
          [.endOp] 0 0 0 with hc | hc | ⟨cur2, hc⟩
      · rw [hc] at hout
        simp at hout
      · rw [hc] at hout
        simp at hout
      · rw [hc] at hout
        by_cases hcu : cur2 = p.2.length <;>
          simp [classLoop, classStep, hcu] at hout

theorem spec_c4_amended_witness :
    (∃ F : Vec3 → ℚ, ∀ p : Vec3,
      exec (qOps zeroPrims) [.sphere, .endOp] [0, 0, 0, 1] ⟨[], [], p⟩
        = some (⟨[F p], [], p⟩, []) ∧
      interpretD (qOps zeroPrims) [.sphere, .endOp] [0, 0, 0, 1] p
        = some (F p)) ∧
    ∀ (sinF cosF : ℚ → ℚ) (norm : Vec3 → ℚ),
      decompile sinF cosF norm [.sphere, .endOp] [0, 0, 0, 1]
        ≠ .err .badStack :=
  spec_c4_amended (qOps zeroPrims) 1 (Graph.empty.sphere ⟨0, 0, 0⟩ 1).1
    (Graph.empty.sphere ⟨0, 0, 0⟩ 1).2 [.sphere, .endOp] [0, 0, 0, 1]
    (by rfl) (by rfl)

/-- Claim C9 (counterexample): in the program Sphere, PushScale, End with
four constants, the sphere decompiles by reading all four constants (no
read runs past the pool), no stack underflow occurs and End is present,
yet decompile returns BadProgram (unused constants): PushScale advances
the constant cursor past the end of the pool without reading, so the
final cursor check fires even though every constant was consumed. -/
theorem spec_c9_counterexample :
    readVec3 [0, 0, 0, 1] 0 = some (⟨0, 0, 0⟩, 3) ∧
    readF32 [0, 0, 0, 1] 3 = some (1, 4) ∧
    decompile qZeroF qZeroF normZero [.sphere, .pushScale, .endOp] [0, 0, 0, 1]
      = .err (.badProgram .unusedConstants) :=
  ⟨rfl, rfl, rfl⟩

/-- Claim C9 (amended): the outcome of decompile is exactly classified by
the stack-height walk of the opcode list: BadConstants exactly when a
bounds-checked constant read runs past the pool, a panic on a degenerate
BiconvexLens chord, BadStack on a checked pop of an empty value or
transform stack; then, in source order, BadStack unless exactly one value
remains, BadStack unless the transform stack is empty, BadProgram
(missing End) unless End was reached, and BadProgram (unused constants)
unless the cursor — which PushScale advances without reading — sits
exactly at the end of the pool. -/
theorem spec_c9_amended (sinF cosF : ℚ → ℚ) (norm : Vec3 → ℚ)
    (ops : List Opcode) (pool : List ℚ) :
    outcomeOf (decompile sinF cosF norm ops pool) = decompClassify ops pool :=
  decompile_class sinF cosF norm ops pool

/-- Claim C6: compiling a Scale node emits PushScale with constant 1/s
before the child subtree and PopScale with constant s after it, and for
every query point interpretation of the whole program equals s times the
interpretation of the child program alone at the point p * (1/s): the
interpreter multiplies the position by the pushed inverse on PushScale and
multiplies the resulting distance by the forward scale on PopScale after
restoring the position. -/
theorem spec_c6 (qp : QPrims) (fuel : Nat) (g : Graph) (s : ℚ)
    (child root : Nat) (ops : List Opcode) (cs : List ℚ)
    (hfind : g.find root = some (.scale s child))
    (hnem : graphNoEmptyMultiB g = true)
    (hok : compileF (fuel + 1) g root = .ok (ops, cs)) :
    ∃ o k, ops = .pushScale :: (o ++ [.popScale, .endOp]) ∧
      cs = (1 / s) :: (k ++ [s]) ∧
      compileNode fuel g child [root] = .ok (o, k) ∧
      ∀ p : Vec3, interpretD (qOps qp) ops cs p
        = (interpretD (qOps qp) (o ++ [.endOp]) k (p.smul (1 / s))).map
            (fun d => s * d) := by
  simp only [compileF, bind, Except.bind] at hok
  have hstep : compileNode (fuel + 1) g root [] = (do
      let (o, k) ← compileNode fuel g child [root]
      .ok (.pushScale :: o ++ [.popScale], (1 / s) :: k ++ [s])) := by
    simp [compileNode, hfind]
  rw [hstep] at hok
  simp only [bind, Except.bind] at hok
  cases hc : compileNode fuel g child [root] with
  | error e => rw [hc] at hok; exact absurd hok (by simp)
  | ok p =>
    rw [hc] at hok
    simp only [Except.ok.injEq, Prod.mk.injEq] at hok
    obtain ⟨h1, h2⟩ := hok
    obtain ⟨Fc, hFc⟩ := compileNode_exec (qOps qp) fuel g child [root] p.1 p.2
      hc hnem
    have e1 : ops = Opcode.pushScale :: (p.1 ++ [Opcode.popScale, Opcode.endOp]) := by
      rw [← h1]
      simp
    have e2 : cs = (1 / s) :: (p.2 ++ [s]) := by
      rw [← h2]
      simp
    refine ⟨p.1, p.2, e1, e2, rfl, fun pt => ?_⟩
    have hL : interpretD (qOps qp)
        (Opcode.pushScale :: (p.1 ++ [Opcode.popScale, Opcode.endOp]))
        ((1 / s) :: (p.2 ++ [s])) pt = some (s * Fc (pt.smul (1 / s))) := by
      have h3 := hFc [Opcode.popScale, Opcode.endOp] [s] ⟨[], [pt], pt.smul (1 / s)⟩
      simp only [interpretD]
      rw [show exec (qOps qp)
          (Opcode.pushScale :: (p.1 ++ [Opcode.popScale, Opcode.endOp]))
          ((1 / s) :: (p.2 ++ [s])) ⟨[], [], pt⟩
        = exec (qOps qp) (p.1 ++ [Opcode.popScale, Opcode.endOp]) (p.2 ++ [s])
          ⟨[], [pt], pt.smul (1 / s)⟩ from rfl]
      rw [h3]
      rfl
    have hR : interpretD (qOps qp) (p.1 ++ [Opcode.endOp]) p.2 (pt.smul (1 / s))
        = some (Fc (pt.smul (1 / s))) := by
      have h4 := hFc [Opcode.endOp] [] ⟨[], [], pt.smul (1 / s)⟩
      rw [List.append_nil] at h4
      simp only [interpretD]
      rw [h4]
      rfl
    rw [e1, e2, hL, hR]
    rfl

theorem spec_c6_witness :
    ∃ o k, [Opcode.pushScale, Opcode.sphere, Opcode.popScale, Opcode.endOp]
        = Opcode.pushScale :: (o ++ [Opcode.popScale, Opcode.endOp]) ∧
      ([1 / 2, 0, 0, 0, 1, 2] : List ℚ) = (1 / 2) :: (k ++ [2]) ∧
      compileNode 1 ((Graph.empty.sphere ⟨0, 0, 0⟩ 1).1.opScale 0 2).1 0 [1]
        = .ok (o, k) ∧
      ∀ p : Vec3, interpretD (qOps zeroPrims)
          [Opcode.pushScale, Opcode.sphere, Opcode.popScale, Opcode.endOp]
          [1 / 2, 0, 0, 0, 1, 2] p
        = (interpretD (qOps zeroPrims) (o ++ [Opcode.endOp]) k
            (p.smul (1 / 2))).map (fun d => 2 * d) :=
  spec_c6 zeroPrims 1 ((Graph.empty.sphere ⟨0, 0, 0⟩ 1).1.opScale 0 2).1 2 0 1
    [Opcode.pushScale, Opcode.sphere, Opcode.popScale, Opcode.endOp]
    [1 / 2, 0, 0, 0, 1, 2] (by rfl) (by rfl) (by rfl)
